import Mathlib

/-!
Verification of the hierarchical task store of the `planning` repository
(TypeScript, browser `localStorage` backend plus SQL backends).

The definitions below are a shallow embedding of the TypeScript source:

* `Task` — the record type of `src/types/task` as it is used at runtime
  (JavaScript numbers become `Int`, `Date` values become epoch milliseconds,
  optional fields become `Option`, the status union becomes `String` because
  decoded records carry arbitrary strings at runtime).
* `createTask` — `BrowserStorageService.createTask` (`browserStorage.ts`),
  with the `Date.now()` clock passed in explicitly as `now`.
* `getTasksWithFilters` — `BrowserStorageService.getTasksWithFilters`.
* `deleteTask` — `BrowserStorageService.deleteTask` (cascade delete).
* `buildTaskTree` — `buildTaskTree` in `App.tsx`.
* `convertToCSV` / `parseCSV` / `convertToMarkdown` / `parseMarkdown` /
  `importTasks` — the codec functions of `ExportImport.tsx`.

JavaScript strings are modelled as `List Char` (`JStr`); the only string
operations the source uses are single-character splits, concatenation,
global removal of `"` characters, trimming, and a regular-expression match
that is reproduced character by character, so the model stays exact.
JavaScript truthiness tests on numbers (`0` falsy) and strings (`""` falsy)
are modelled explicitly where the source relies on them.
-/

namespace Planning

/-- A task record as it exists at runtime in the TypeScript source.
Dates are epoch milliseconds; `status` is a `String` because imported
records can carry arbitrary status strings before validation. -/
structure Task where
  id : Int
  title : String
  description : String
  status : String
  deadline : Option Int
  parent_id : Option Int
  created_at : Int
  updated_at : Int
  labels : List String
  priority : Int
deriving DecidableEq, Repr

/-- JavaScript truthiness of an optional number (`undefined` and `0` are
falsy). Used where the source writes `if (task.parent_id)`. -/
def optTruthy : Option Int → Bool
  | none => false
  | some n => n != 0

/-- The payload of `createTask` (`CreateTaskData`): all fields the caller
may pass; absent fields are `none`. -/
structure CreateTaskData where
  title : String
  description : Option String
  status : Option String
  deadline : Option Int
  parent_id : Option Int
  labels : Option (List String)
  priority : Option Int
deriving DecidableEq, Repr

/-- `BrowserStorageService.createTask`: builds the new record with
`id = Date.now()` (the `now` argument), both timestamps set to `now`,
JavaScript `||`-defaults for the optional fields, and appends it to the
stored collection.  Returns the new task and the updated collection. -/
def createTask (now : Int) (d : CreateTaskData) (tasks : List Task) :
    Task × List Task :=
  let newTask : Task :=
    { id := now
      title := d.title
      description := d.description.getD ""
      status := (d.status.map (fun s => if s = "" then "not_started" else s)).getD "not_started"
      deadline := d.deadline
      parent_id := d.parent_id
      created_at := now
      updated_at := now
      labels := d.labels.getD []
      priority := (d.priority.map (fun p => if p = 0 then 0 else p)).getD 0 }
  (newTask, tasks ++ [newTask])

/-- The ids stored in a collection, in storage order. -/
def taskIds (tasks : List Task) : List Int := tasks.map (·.id)

/-- C10 counterexample data: two `createTask` calls in the same
millisecond (`Date.now()` returns `5` twice). -/
def c10Data : CreateTaskData :=
  { title := "a", description := none, status := none, deadline := none
    parent_id := none, labels := none, priority := none }

/-- C10 counterexample data for the second call. -/
def c10Data2 : CreateTaskData :=
  { c10Data with title := "b" }

/-- The collection after the first same-millisecond creation. -/
def c10Store1 : List Task := (createTask 5 c10Data []).2

/-- The collection after the second same-millisecond creation. -/
def c10Store2 : List Task := (createTask 5 c10Data2 c10Store1).2

/-- C10: the claim that every newly created task gets an id distinct from
all stored ids is false: two `createTask` calls in the same millisecond
(`Date.now()` twice `5`) give the second task an id already present, so
the store ends up with a duplicate id. -/
theorem c10_counterexample :
    (createTask 5 c10Data2 c10Store1).1.id ∈ taskIds c10Store1 ∧
      ¬ (taskIds c10Store2).Nodup := by
  constructor
  · decide
  · decide

/-- C10 (amended): `createTask` assigns `id = Date.now()`; the new id is
distinct from all stored ids — and the store keeps all ids distinct —
exactly when the clock value is not already used as an id. -/
theorem c10_amended (now : Int) (d : CreateTaskData) (tasks : List Task)
    (hnd : (taskIds tasks).Nodup) (hnow : now ∉ taskIds tasks) :
    (createTask now d tasks).1.id ∉ taskIds tasks ∧
      (taskIds (createTask now d tasks).2).Nodup := by
  refine ⟨hnow, ?_⟩
  have : taskIds (createTask now d tasks).2 = taskIds tasks ++ [now] := by
    simp [taskIds, createTask]
  rw [this]
  refine List.Nodup.append hnd (List.nodup_singleton now) ?_
  intro a ha hb
  rw [List.mem_singleton] at hb
  exact hnow (hb ▸ ha)

/-- C10 amended witness: a concrete creation at a fresh clock value. -/
theorem c10_amended_witness :
    (taskIds c10Store1).Nodup ∧ (7 : Int) ∉ taskIds c10Store1 ∧
      (createTask 7 c10Data2 c10Store1).1.id ∉ taskIds c10Store1 ∧
      (taskIds (createTask 7 c10Data2 c10Store1).2).Nodup :=
  ⟨by decide, by decide,
    c10_amended 7 c10Data2 c10Store1 (by decide) (by decide)⟩

/-! ## Filter/Sort engine (`getTasksWithFilters`, browserStorage.ts) -/

/-- The `deadlineRange` filter: optional inclusive bounds. `stop` renders
the source's `end` field (a Lean keyword). -/
structure DeadlineRange where
  start : Option Int
  stop : Option Int
deriving DecidableEq, Repr

/-- `TaskFilters`: an absent array filter and an empty array behave
identically in the source (`filters.status && filters.status.length > 0`),
so array filters are plain lists with `[]` meaning no constraint; likewise
`searchText` is falsy exactly when empty. -/
structure TaskFilters where
  status : List String
  labels : List String
  priority : List Int
  deadlineRange : Option DeadlineRange
  searchText : String
deriving DecidableEq, Repr

/-- No filters at all (the `{}` object). -/
def emptyFilters : TaskFilters :=
  { status := [], labels := [], priority := [], deadlineRange := none
    searchText := "" }

/-- Lowercasing as used by `toLowerCase()` (ASCII-faithful; the claims
under verification do not depend on locale-specific case folding). -/
def lowerStr (s : String) : String := s.map Char.toLower

/-- JavaScript `String.prototype.includes`: substring containment. -/
def strIncludes (s sub : String) : Bool :=
  (List.range (s.toList.length + 1)).any
    (fun i => (s.toList.drop i).take sub.toList.length == sub.toList)

/-- Stage 1 of `getTasksWithFilters`: the `status` filter. -/
def stageStatus (f : TaskFilters) (ts : List Task) : List Task :=
  if f.status.length > 0 then
    ts.filter (fun t => f.status.contains t.status) else ts

/-- Stage 2: the `labels` filter (any shared label). -/
def stageLabels (f : TaskFilters) (ts : List Task) : List Task :=
  if f.labels.length > 0 then
    ts.filter (fun t => t.labels.any (fun l => f.labels.contains l)) else ts

/-- Stage 3: the `priority` filter. -/
def stagePriority (f : TaskFilters) (ts : List Task) : List Task :=
  if f.priority.length > 0 then
    ts.filter (fun t => f.priority.contains t.priority) else ts

/-- Stage 4: the `deadlineRange` filter — a task passes a present bound
only if it has a deadline (`task.deadline && task.deadline >= start`). -/
def stageDeadline (f : TaskFilters) (ts : List Task) : List Task :=
  match f.deadlineRange with
  | none => ts
  | some r =>
    let ts2 := match r.start with
      | none => ts
      | some s => ts.filter (fun t =>
          match t.deadline with | none => false | some d => s ≤ d)
    match r.stop with
    | none => ts2
    | some e => ts2.filter (fun t =>
        match t.deadline with | none => false | some d => d ≤ e)

/-- Stage 5: the case-insensitive `searchText` filter over title or
description (an empty description is falsy and short-circuits). -/
def stageSearch (f : TaskFilters) (ts : List Task) : List Task :=
  if f.searchText ≠ "" then
    let sl := lowerStr f.searchText
    ts.filter (fun t =>
      strIncludes (lowerStr t.title) sl ||
        (t.description != "" && strIncludes (lowerStr t.description) sl))
  else ts

/-- The filter pipeline of `getTasksWithFilters`, stage for stage in
source order. -/
def applyFilters (f : TaskFilters) (tasks : List Task) : List Task :=
  stageSearch f (stageDeadline f (stagePriority f (stageLabels f
    (stageStatus f tasks))))

/-- Sortable fields. -/
inductive SortField where
  | title | status | deadline | priority | created_at | updated_at
deriving DecidableEq, Repr

/-- Sort direction. -/
inductive SortDir where
  | asc | desc
deriving DecidableEq, Repr

/-- A sort spec (`TaskSortOptions`). -/
structure TaskSortOptions where
  field : SortField
  direction : SortDir
deriving DecidableEq, Repr

/-- A comparison key: after the source's preprocessing every compared
value is either a number or a (lowercased) string. -/
inductive SKey where
  | num (n : Int)
  | strK (s : List Char)
deriving DecidableEq, Repr

/-- The key the comparator extracts from a task: date fields become
`aValue ? new Date(aValue).getTime() : 0` (absent deadline ↦ `0`, a
present `Date` is always truthy, even at epoch), strings are lowercased. -/
def rawKey (f : SortField) (t : Task) : SKey :=
  match f with
  | .title => .strK (lowerStr t.title).toList
  | .status => .strK (lowerStr t.status).toList
  | .deadline => .num (match t.deadline with | none => 0 | some d => d)
  | .priority => .num t.priority
  | .created_at => .num t.created_at
  | .updated_at => .num t.updated_at

/-- Lexicographic order on character lists, as JavaScript `<` compares
strings (code-unit order; identical on the claims at issue). -/
def lexLt : List Char → List Char → Bool
  | [], [] => false
  | [], _ :: _ => true
  | _ :: _, [] => false
  | a :: as, b :: bs =>
      if a.val < b.val then true
      else if b.val < a.val then false
      else lexLt as bs

/-- JavaScript `<` on comparison keys (same-field keys are always of the
same kind). -/
def skLt : SKey → SKey → Bool
  | .num a, .num b => a < b
  | .strK a, .strK b => lexLt a b
  | _, _ => false

/-- The comparator of `getTasksWithFilters`:
ascending `a < b ? -1 : a > b ? 1 : 0`, descending mirrored. -/
def compareTasks (so : TaskSortOptions) (a b : Task) : Int :=
  let av := rawKey so.field a
  let bv := rawKey so.field b
  match so.direction with
  | .asc => if skLt av bv then -1 else if skLt bv av then 1 else 0
  | .desc => if skLt bv av then -1 else if skLt av bv then 1 else 0

/-- `getTasksWithFilters`: filter stages, then — only if a sort spec was
supplied — a stable sort with the comparator (JavaScript `Array.sort` is
stable). With no sort spec the list is returned as filtered, in storage
order: there is no default sort in this backend. -/
def getTasksWithFilters (tasks : List Task) (f : TaskFilters)
    (so : Option TaskSortOptions) : List Task :=
  let ts := applyFilters f tasks
  match so with
  | none => ts
  | some s => ts.mergeSort (fun a b => compareTasks s a b ≤ 0)

/-- First task of the C4 counterexample: created first (epoch 1). -/
def c4t1 : Task :=
  { id := 1, title := "t1", description := "", status := "not_started"
    deadline := none, parent_id := none, created_at := 1, updated_at := 1
    labels := [], priority := 0 }

/-- Second task of the C4 counterexample: created later (epoch 2). -/
def c4t2 : Task :=
  { id := 2, title := "t2", description := "", status := "not_started"
    deadline := none, parent_id := none, created_at := 2, updated_at := 2
    labels := [], priority := 0 }

/-- C4: with no sort spec the browser-storage query does NOT order by
`created_at` descending: a store holding the older task first comes back
in storage order `[1, 2]`, which is not descending. -/
theorem c4_counterexample :
    (getTasksWithFilters [c4t1, c4t2] emptyFilters none).map (·.created_at)
        = [1, 2] ∧
      ¬ ((getTasksWithFilters [c4t1, c4t2] emptyFilters none).map
          (·.created_at)).Pairwise (· ≥ ·) := by
  constructor
  · rfl
  · decide

/-- Every filter stage yields a sublist (storage order preserved). -/
theorem stage_sublist (g : TaskFilters → List Task → List Task)
    (hg : g = stageStatus ∨ g = stageLabels ∨ g = stagePriority ∨
      g = stageSearch) (f : TaskFilters) (ts : List Task) :
    (g f ts).Sublist ts := by
  rcases hg with h | h | h | h <;> subst h
  · unfold stageStatus; split
    · exact List.filter_sublist ts
    · exact List.Sublist.refl ts
  · unfold stageLabels; split
    · exact List.filter_sublist ts
    · exact List.Sublist.refl ts
  · unfold stagePriority; split
    · exact List.filter_sublist ts
    · exact List.Sublist.refl ts
  · unfold stageSearch; split
    · exact List.filter_sublist ts
    · exact List.Sublist.refl ts

/-- The deadline stage also yields a sublist. -/
theorem stageDeadline_sublist (f : TaskFilters) (ts : List Task) :
    (stageDeadline f ts).Sublist ts := by
  unfold stageDeadline
  rcases f.deadlineRange with _ | r
  · exact List.Sublist.refl ts
  · rcases r with ⟨s, e⟩
    dsimp only []
    rcases s with _ | sv <;> rcases e with _ | ev
    · exact List.Sublist.refl ts
    · exact List.filter_sublist ts
    · exact List.filter_sublist ts
    · exact (List.filter_sublist _).trans (List.filter_sublist ts)

/-- C4 (amended): when the caller supplies no sort spec the
browser-storage query applies no ordering at all — the result is the
filtered collection in storage order (a sublist of the store), and with
no filters it is the stored collection unchanged. (The SQL backend in
`database.ts` is the one that appends `ORDER BY created_at DESC`.) -/
theorem c4_amended (tasks : List Task) (f : TaskFilters) :
    (getTasksWithFilters tasks f none).Sublist tasks ∧
      getTasksWithFilters tasks emptyFilters none = tasks := by
  constructor
  · show (applyFilters f tasks).Sublist tasks
    unfold applyFilters
    exact ((stage_sublist stageSearch (by tauto) f _).trans
      ((stageDeadline_sublist f _).trans
        ((stage_sublist stagePriority (by tauto) f _).trans
          ((stage_sublist stageLabels (by tauto) f _).trans
            (stage_sublist stageStatus (by tauto) f tasks)))))
  · rfl

/-- C9: in the comparator, a task with an absent deadline is
indistinguishable from one whose deadline is the epoch instant `0`, on
either side of the comparison and for both directions. -/
theorem c9_absent_deadline_is_epoch (a b : Task) (dir : SortDir)
    (ha : a.deadline = none) :
    compareTasks ⟨.deadline, dir⟩ a b
        = compareTasks ⟨.deadline, dir⟩ { a with deadline := some 0 } b ∧
      compareTasks ⟨.deadline, dir⟩ b a
        = compareTasks ⟨.deadline, dir⟩ b { a with deadline := some 0 } := by
  cases dir <;> simp [compareTasks, rawKey, ha]

/-- C9 witness: concrete comparison of a deadline-free task. -/
theorem c9_witness :
    c4t1.deadline = none ∧
      (compareTasks ⟨.deadline, .asc⟩ c4t1 c4t2
          = compareTasks ⟨.deadline, .asc⟩ { c4t1 with deadline := some 0 } c4t2 ∧
        compareTasks ⟨.deadline, .asc⟩ c4t2 c4t1
          = compareTasks ⟨.deadline, .asc⟩ c4t2 { c4t1 with deadline := some 0 }) :=
  ⟨rfl, c9_absent_deadline_is_epoch c4t1 c4t2 .asc rfl⟩

/-! ## Import pipeline (`importTasks`, ExportImport.tsx) -/

/-- The three-value status enum the import validation accepts. -/
def validStatuses : List String := ["not_started", "in_progress", "done"]

/-- Per-record import validation: `task.title` truthy (non-empty) and
`task.status` in the enum. -/
def isValidImport (t : Task) : Bool :=
  t.title != "" && validStatuses.contains t.status

/-- The error string pushed when an individual creation throws. -/
def importErrMsg (title err : String) : String :=
  "Failed to import task \"" ++ title ++ "\": " ++ err

/-- The result record returned by `importTasks`. -/
structure ImportResult where
  success : Bool
  importedCount : Nat
  errors : List String
deriving DecidableEq, Repr

/-- The per-record creation loop of `importTasks`.  `eff i` is the
outcome of the `i`-th `createTask` call (`none` = success, `some err` =
the storage layer threw `err`); a failure only appends an error message
and the loop continues with the next record. -/
def importLoop (eff : Nat → Option String) :
    List Task → Nat → Nat → List String → Nat × List String
  | [], _, cnt, errs => (cnt, errs)
  | t :: rest, i, cnt, errs =>
    match eff i with
    | none => importLoop eff rest (i + 1) (cnt + 1) errs
    | some e =>
        importLoop eff rest (i + 1) cnt (errs ++ [importErrMsg t.title e])

/-- `importTasks` after decode: validation filter, then the one-at-a-time
creation loop; always reports a success count and per-record errors. -/
def importTasks (eff : Nat → Option String) (decoded : List Task) :
    ImportResult :=
  let valid := decoded.filter isValidImport
  let r := importLoop eff valid 0 0 []
  { success := true, importedCount := r.1, errors := r.2 }

/-- Closed form of the creation loop: successes are counted, failures
are mapped to error messages, independently of earlier outcomes. -/
theorem importLoop_spec (eff : Nat → Option String) (l : List Task) :
    ∀ (i cnt : Nat) (errs : List String),
      importLoop eff l i cnt errs =
        (cnt + (l.enumFrom i).countP (fun p => (eff p.1).isNone),
         errs ++ (l.enumFrom i).filterMap
           (fun p => (eff p.1).map (fun e => importErrMsg p.2.title e))) := by
  induction l with
  | nil => intro i cnt errs; simp [importLoop]
  | cons t rest ih =>
    intro i cnt errs
    rw [List.enumFrom]
    cases h : eff i with
    | none =>
        simp only [importLoop, h]
        rw [ih]
        simp [h, List.countP_cons, Nat.add_comm, Nat.add_assoc,
          Nat.add_left_comm]
    | some e =>
        simp only [importLoop, h]
        rw [ih]
        simp [h, List.countP_cons, List.append_assoc]

/-- C8: the import pipeline excludes exactly the records with an empty
title or a status outside the enum; each surviving record is created
individually, an individual failure does not abort the batch; the result
reports the number of successful creations and one error message per
failed creation (so successes + errors = number of valid records). -/
theorem c8_import_pipeline (batch : List Task) (eff : Nat → Option String) :
    (∀ t : Task, t ∈ batch.filter isValidImport ↔
        t ∈ batch ∧ ¬ (t.title = "" ∨ t.status ∉ validStatuses)) ∧
      (importTasks eff batch).success = true ∧
      (importTasks eff batch).importedCount
        = (batch.filter isValidImport).enum.countP
            (fun p => (eff p.1).isNone) ∧
      (importTasks eff batch).errors
        = (batch.filter isValidImport).enum.filterMap
            (fun p => (eff p.1).map (fun e => importErrMsg p.2.title e)) ∧
      (importTasks eff batch).importedCount
          + ((importTasks eff batch).errors).length
        = (batch.filter isValidImport).length := by
  have hspec := importLoop_spec eff (batch.filter isValidImport) 0 0 []
  have henum : (batch.filter isValidImport).enumFrom 0
      = (batch.filter isValidImport).enum := rfl
  have hlen : ∀ l : List (Nat × Task),
      l.countP (fun p => (eff p.1).isNone)
          + (l.filterMap
              (fun p => (eff p.1).map (fun e => importErrMsg p.2.title e))).length
        = l.length := by
    intro l
    induction l with
    | nil => rfl
    | cons hd tl ih =>
        cases hh : eff hd.1 <;>
          simp [List.countP_cons, List.filterMap_cons, hh, ← ih] <;> omega
  refine ⟨?_, rfl, ?_, ?_, ?_⟩
  · intro t
    simp only [List.mem_filter, isValidImport, Bool.and_eq_true, bne_iff_ne,
      ne_eq, not_or, not_not]
    constructor
    · rintro ⟨h1, h2, h3⟩
      exact ⟨h1, h2, by simpa using h3⟩
    · rintro ⟨h1, h2, h3⟩
      exact ⟨h1, h2, by simpa using h3⟩
  · show (importLoop eff (batch.filter isValidImport) 0 0 []).1 = _
    rw [hspec]; simp [henum]
  · show (importLoop eff (batch.filter isValidImport) 0 0 []).2 = _
    rw [hspec]; simp [henum]
  · show (importLoop eff (batch.filter isValidImport) 0 0 []).1
        + (importLoop eff (batch.filter isValidImport) 0 0 []).2.length = _
    rw [hspec]
    simp only [henum, Nat.zero_add, List.nil_append]
    rw [hlen, List.enum_length]

/-! ## Cascade delete (`deleteTask`, browserStorage.ts) -/

/-- `findIndex` + `splice(index, 1)`: remove the first task whose id is
`i`, leave the list unchanged if there is none. -/
def rmvFirst (i : Int) : List Task → List Task
  | [] => []
  | t :: ts => if t.id == i then ts else t :: rmvFirst i ts

/-- `removeTaskAndDescendants` of `deleteTask`, with an explicit
recursion budget.  One call: snapshot `toRemove` (every task whose id is
the target), and for each, splice out the first task with that id, then
recursively delete every current task whose `parent_id` is the target.
In the source the recursion needs no budget because every recursive call
is on a child that the call itself removes first, so the nesting depth
never exceeds the collection size; `delGo` is run with budget
`length + 1`, which that argument shows is never exhausted. -/
def delGo : Nat → List Task → Int → List Task
  | 0, ts, _ => ts
  | fuel + 1, ts, taskId =>
    let toRemove := ts.filter (fun t => t.id == taskId)
    toRemove.foldl
      (fun acc task =>
        let acc1 := rmvFirst task.id acc
        let children := acc1.filter (fun t => t.parent_id == some taskId)
        children.foldl (fun acc2 c => delGo fuel acc2 c.id) acc1)
      ts

/-- `deleteTask`: run the cascade removal. -/
def deleteTask (ts : List Task) (i : Int) : List Task :=
  delGo (ts.length + 1) ts i

/-- The boolean `deleteTask` returns:
`tasks.length < initialLength` after the cascade. -/
def deleteTaskB (ts : List Task) (i : Int) : Bool :=
  decide ((deleteTask ts i).length < ts.length)

theorem rmvFirst_length_le (i : Int) (ts : List Task) :
    (rmvFirst i ts).length ≤ ts.length := by
  induction ts with
  | nil => simp [rmvFirst]
  | cons t ts ih =>
    simp only [rmvFirst]
    split
    · exact Nat.le_succ ts.length
    · simp only [List.length_cons]
      exact Nat.succ_le_succ ih

theorem rmvFirst_length_lt (i : Int) (ts : List Task)
    (h : ∃ t ∈ ts, t.id = i) : (rmvFirst i ts).length < ts.length := by
  induction ts with
  | nil => simp at h
  | cons t ts ih =>
    simp only [rmvFirst]
    split
    · exact Nat.lt_succ_self ts.length
    · next hne =>
      have hts : ∃ u ∈ ts, u.id = i := by
        rcases h with ⟨u, hu, hui⟩
        rcases List.mem_cons.mp hu with h1 | h1
        · subst h1
          exact absurd (by simp [hui]) hne
        · exact ⟨u, h1, hui⟩
      simp only [List.length_cons]
      exact Nat.succ_lt_succ (ih hts)

/-- A fold whose every step can only shrink the list can only shrink
the list. -/
theorem foldl_length_le {α : Type} (f : List Task → α → List Task)
    (h : ∀ acc x, (f acc x).length ≤ acc.length) :
    ∀ (l : List α) (a : List Task), (l.foldl f a).length ≤ a.length := by
  intro l
  induction l with
  | nil => intro a; simp
  | cons x xs ih =>
    intro a
    calc (List.foldl f (f a x) xs).length ≤ (f a x).length := ih (f a x)
    _ ≤ a.length := h a x

theorem delGo_length_le :
    ∀ (fuel : Nat) (ts : List Task) (i : Int),
      (delGo fuel ts i).length ≤ ts.length := by
  intro fuel
  induction fuel with
  | zero => intro ts i; simp [delGo]
  | succ fuel ih =>
    intro ts i
    rw [delGo]
    refine le_trans (foldl_length_le _ ?_ _ ts) (le_refl _)
    intro acc task
    refine le_trans (foldl_length_le _ ?_ _ (rmvFirst task.id acc))
      (rmvFirst_length_le task.id acc)
    intro acc2 c
    exact ih acc2 c.id

/-- If the target id is absent, the cascade is a no-op. -/
theorem delGo_absent (fuel : Nat) (ts : List Task) (i : Int)
    (h : ¬ ∃ t ∈ ts, t.id = i) : delGo fuel ts i = ts := by
  cases fuel with
  | zero => rfl
  | succ fuel =>
    rw [delGo]
    have : ts.filter (fun t => t.id == i) = [] := by
      rw [List.filter_eq_nil_iff]
      intro t ht
      simp only [beq_iff_eq]
      exact fun he => h ⟨t, ht, he⟩
    rw [this]
    rfl

/-- If the target id is present, the cascade removes at least one task. -/
theorem delGo_present (fuel : Nat) (ts : List Task) (i : Int)
    (h : ∃ t ∈ ts, t.id = i) :
    (delGo (fuel + 1) ts i).length < ts.length := by
  have hunf : delGo (fuel + 1) ts i
      = (ts.filter (fun t => t.id == i)).foldl
          (fun acc task =>
            ((rmvFirst task.id acc).filter
                (fun t => t.parent_id == some i)).foldl
              (fun acc2 c => delGo fuel acc2 c.id)
              (rmvFirst task.id acc))
          ts := rfl
  rw [hunf]
  rcases hf : ts.filter (fun t => t.id == i) with _ | ⟨t0, rest⟩
  · exfalso
    rcases h with ⟨t, ht, hi⟩
    have : t ∈ ts.filter (fun t => t.id == i) :=
      List.mem_filter.mpr ⟨ht, by simp [hi]⟩
    rw [hf] at this
    simp at this
  · have ht0 : t0 ∈ ts.filter (fun t => t.id == i) := by rw [hf]; simp
    have ht0id : t0.id = i := by
      have := (List.mem_filter.mp ht0).2
      simpa using this
    have ht0mem : t0 ∈ ts := (List.mem_filter.mp ht0).1
    rw [hf, List.foldl_cons]
    have hstep_le : ∀ (acc : List Task) (task : Task),
        (((rmvFirst task.id acc).filter
            (fun t => t.parent_id == some i)).foldl
          (fun acc2 c => delGo fuel acc2 c.id)
          (rmvFirst task.id acc)).length ≤ acc.length := by
      intro acc task
      refine le_trans
        (foldl_length_le _ (fun (acc2 : List Task) (c : Task) => delGo_length_le fuel acc2 c.id) _
          (rmvFirst task.id acc))
        (rmvFirst_length_le task.id acc)
    have h1 : (((rmvFirst t0.id ts).filter
          (fun t => t.parent_id == some i)).foldl
        (fun acc2 c => delGo fuel acc2 c.id)
        (rmvFirst t0.id ts)).length < ts.length := by
      refine lt_of_le_of_lt
        (foldl_length_le _ (fun (acc2 : List Task) (c : Task) => delGo_length_le fuel acc2 c.id) _
          (rmvFirst t0.id ts)) ?_
      exact rmvFirst_length_lt t0.id ts ⟨t0, ht0mem, rfl⟩
    exact lt_of_le_of_lt (foldl_length_le _ hstep_le rest _) h1

/-- The boolean result of the browser `deleteTask` is `true` exactly
when the cascade removed at least one record (the collection changed),
which happens exactly when a task with the target id existed; in
particular it is `false` when the target id is absent. -/
theorem deleteTaskB_spec (ts : List Task) (i : Int) :
    (deleteTaskB ts i = true ↔ deleteTask ts i ≠ ts) ∧
      (deleteTaskB ts i = true ↔ ∃ t ∈ ts, t.id = i) := by
  have hiff : deleteTaskB ts i = true ↔ ∃ t ∈ ts, t.id = i := by
    constructor
    · intro hb
      by_contra h
      have := delGo_absent (ts.length + 1) ts i h
      simp only [deleteTaskB, deleteTask, this, decide_eq_true_eq] at hb
      omega
    · intro h
      simp only [deleteTaskB, deleteTask, decide_eq_true_eq]
      exact delGo_present ts.length ts i h
  refine ⟨?_, hiff⟩
  rw [hiff]
  constructor
  · intro h heq
    have := delGo_present ts.length ts i h
    rw [show delGo (ts.length + 1) ts i = deleteTask ts i from rfl, heq] at this
    omega
  · intro hne
    by_contra h
    exact hne (delGo_absent (ts.length + 1) ts i h)

/-- `deleteTaskAndChildren` of `supabaseStorage.deleteTask`, over the
same store model (the `tasks` table as a list of rows): fetch the
children rows (`eq('parent_id', taskId)`), recursively delete each
child's subtree against the then-current table, then delete every row
whose id is the target.  The source recursion is unguarded; as with
`delGo`, a budget of `length + 1` is never exhausted on acyclic data,
and the claim-relevant behaviour (the returned boolean) does not depend
on the budget at all. -/
def sbDeleteGo : Nat → List Task → Int → List Task
  | 0, ts, _ => ts
  | fuel + 1, ts, taskId =>
    let children := ts.filter (fun c => c.parent_id = some taskId)
    let ts2 := children.foldl (fun acc c => sbDeleteGo fuel acc c.id) ts
    ts2.filter (fun t => ! (t.id = taskId))

/-- `supabaseStorage.deleteTask` on a connected client: run the
recursive deletion and return `true`.  The supabase-js query builder
resolves with a `{ data, error }` result instead of throwing, and
`deleteTaskAndChildren` never reads the result of its `.delete()`
call, so a delete that matches zero rows still completes normally; the
`catch` branch returning `false` is reachable only through a thrown
exception (e.g. a transport failure), never through a missing id. -/
def sbDeleteTask (ts : List Task) (i : Int) : Bool × List Task :=
  (true, sbDeleteGo (ts.length + 1) ts i)

/-- C7 counterexample data: a store holding a single task with id 1. -/
def c7ex : List Task :=
  [{ id := 1, title := "only", description := "", status := "not_started",
     deadline := none, parent_id := none, created_at := 0,
     updated_at := 0, labels := [], priority := 0 }]

/-- C7: the claim is false for the cited supabase implementation:
deleting id 9 from a store that has no task with id 9 removes nothing
and still returns `true`, because the function only reports whether an
exception was thrown, never whether a row was deleted — while the
browser implementation returns `false` on the same input. -/
theorem c7_counterexample :
    (sbDeleteTask c7ex 9).1 = true
    ∧ (sbDeleteTask c7ex 9).2 = c7ex
    ∧ (∀ t ∈ c7ex, ¬ t.id = 9)
    ∧ deleteTaskB c7ex 9 = false := by
  refine ⟨rfl, rfl, by decide, rfl⟩

/-- C7 (amended): the two cited `deleteTask` implementations diverge.
The browser implementation's boolean is `true` exactly when the
cascade removed at least one record — equivalently, exactly when a
task with the target id existed — and `false` otherwise.  The supabase
implementation's boolean carries no such information: whenever the
deletion completes without an exception it returns `true`
unconditionally, including when no task with the target id exists. -/
theorem c7_amended (ts : List Task) (i : Int) :
    ((deleteTaskB ts i = true ↔ deleteTask ts i ≠ ts) ∧
      (deleteTaskB ts i = true ↔ ∃ t ∈ ts, t.id = i)) ∧
    (sbDeleteTask ts i).1 = true :=
  ⟨deleteTaskB_spec ts i, rfl⟩

/-! ### The descendant relation -/

/-- Reachability along `parent_id` edges (the descendant-or-self
relation of the spec): `Desc ts root t` holds when following
`parent_id` links upward from `t` through members of `ts` reaches a
task whose id is `root`. -/
inductive Desc (ts : List Task) (root : Int) : Task → Prop where
  | base (t : Task) (h : t.id = root) : Desc ts root t
  | step (t u : Task) (p : Int) (hp : t.parent_id = some p) (hu : u ∈ ts)
      (hup : u.id = p) (hd : Desc ts root u) : Desc ts root t

/-- Budget-bounded decision procedure for `Desc`. -/
def inSubF : Nat → List Task → Int → Task → Bool
  | 0, _, _, _ => false
  | fuel + 1, ts, root, t =>
    t.id == root ||
      ((t.parent_id.map
        (fun p => ts.any (fun u => u.id == p && inSubF fuel ts root u))).getD
        false)

/-- The executable descendant test used in the claim statements: budget
`ts.length` suffices because a shortest witness chain repeats no task. -/
def isDesc (ts : List Task) (root : Int) (t : Task) : Bool :=
  inSubF ts.length ts root t

/-- An explicit ancestor chain: `chainB ts root t c` says that the
tasks in `c` are successive parents of `t` inside `ts` and the last one
(or `t` itself when `c = []`) has id `root`. -/
def chainB (ts : List Task) (root : Int) : Task → List Task → Bool
  | t, [] => t.id == root
  | t, u :: c =>
    (match t.parent_id with
     | none => false
     | some p => decide (u ∈ ts) && u.id == p && chainB ts root u c)

theorem chainB_nil_iff (ts : List Task) (root : Int) (t : Task) :
    chainB ts root t [] = true ↔ t.id = root := by
  simp [chainB]

theorem chainB_cons_iff (ts : List Task) (root : Int) (t u : Task)
    (c : List Task) :
    chainB ts root t (u :: c) = true ↔
      ∃ p, t.parent_id = some p ∧ u ∈ ts ∧ u.id = p ∧
        chainB ts root u c = true := by
  cases hp : t.parent_id with
  | none => simp [chainB, hp]
  | some p => simp [chainB, hp, and_assoc]

theorem inSubF_to_desc :
    ∀ (n : Nat) (ts : List Task) (root : Int) (t : Task),
      inSubF n ts root t = true → Desc ts root t := by
  intro n
  induction n with
  | zero => intro ts root t h; simp [inSubF] at h
  | succ n ih =>
    intro ts root t h
    rw [inSubF, Bool.or_eq_true] at h
    rcases h with h | h
    · exact Desc.base t (by simpa using h)
    · cases hp : t.parent_id with
      | none => rw [hp] at h; simp at h
      | some p =>
        rw [hp] at h
        simp only [Option.map_some', Option.getD_some, List.any_eq_true] at h
        obtain ⟨u, hu, hup⟩ := h
        rw [Bool.and_eq_true] at hup
        exact Desc.step t u p hp hu (by simpa using hup.1) (ih ts root u hup.2)

theorem desc_to_chain (ts : List Task) (root : Int) (t : Task)
    (h : Desc ts root t) : ∃ c, chainB ts root t c = true := by
  induction h with
  | base t ht => exact ⟨[], (chainB_nil_iff ts root t).mpr ht⟩
  | step t u p hp hu hup _ ih =>
    obtain ⟨c, hc⟩ := ih
    exact ⟨u :: c, (chainB_cons_iff ts root t u c).mpr ⟨p, hp, hu, hup, hc⟩⟩

theorem chain_to_inSubF (ts : List Task) (root : Int) :
    ∀ (c : List Task) (t : Task), chainB ts root t c = true →
      inSubF (c.length + 1) ts root t = true := by
  intro c
  induction c with
  | nil =>
    intro t hc
    rw [chainB_nil_iff] at hc
    simp [inSubF, hc]
  | cons u c ih =>
    intro t hc
    obtain ⟨p, hp, hu, hup, hcu⟩ := (chainB_cons_iff ts root t u c).mp hc
    rw [inSubF, Bool.or_eq_true]
    right
    rw [hp]
    simp only [Option.map_some', Option.getD_some, List.any_eq_true]
    exact ⟨u, hu, by rw [Bool.and_eq_true]; exact ⟨by simp [hup], ih u hcu⟩⟩

theorem inSubF_mono :
    ∀ (m n : Nat) (ts : List Task) (root : Int) (t : Task), m ≤ n →
      inSubF m ts root t = true → inSubF n ts root t = true := by
  intro m
  induction m with
  | zero => intro n ts root t _ h; simp [inSubF] at h
  | succ m ih =>
    intro n ts root t hmn h
    cases n with
    | zero => omega
    | succ n =>
      rw [inSubF, Bool.or_eq_true] at h ⊢
      rcases h with h | h
      · exact Or.inl h
      · right
        cases hp : t.parent_id with
        | none => rw [hp] at h; simp at h
        | some p =>
          rw [hp] at h
          simp only [Option.map_some', Option.getD_some,
            List.any_eq_true] at h ⊢
          obtain ⟨u, hu, hup⟩ := h
          rw [Bool.and_eq_true] at hup
          refine ⟨u, hu, ?_⟩
          rw [Bool.and_eq_true]
          exact ⟨hup.1, ih n ts root u (by omega) hup.2⟩

theorem chain_mem (ts : List Task) (root : Int) :
    ∀ (c : List Task) (t : Task), chainB ts root t c = true →
      ∀ u ∈ c, u ∈ ts := by
  intro c
  induction c with
  | nil => intro t _ u hu; simp at hu
  | cons v c ih =>
    intro t hc u hu
    obtain ⟨p, _, hv, _, hcv⟩ := (chainB_cons_iff ts root t v c).mp hc
    rcases List.mem_cons.mp hu with h | h
    · exact h ▸ hv
    · exact ih v hcv u h

theorem chain_drop (ts : List Task) (root : Int) :
    ∀ (c : List Task) (t : Task), chainB ts root t c = true →
      ∀ (j : Fin c.length),
        chainB ts root (c.get j) (c.drop (j.1 + 1)) = true := by
  intro c
  induction c with
  | nil => intro t _ j; exact absurd j.2 (by simp)
  | cons u c ih =>
    intro t hc j
    obtain ⟨p, _, _, _, hcu⟩ := (chainB_cons_iff ts root t u c).mp hc
    match j with
    | ⟨0, _⟩ => simpa using hcu
    | ⟨j + 1, hj⟩ =>
      have := ih u hcu ⟨j, by simpa using Nat.lt_of_succ_lt_succ hj⟩
      simpa using this

theorem chain_prune (ts : List Task) (root : Int) :
    ∀ (n : Nat) (t : Task) (c : List Task), c.length ≤ n →
      chainB ts root t c = true →
      ∃ c2, chainB ts root t c2 = true ∧ (t :: c2).Nodup ∧ c2 ⊆ c := by
  intro n
  induction n with
  | zero =>
    intro t c hlen hc
    have : c = [] := List.length_eq_zero.mp (Nat.le_zero.mp hlen)
    subst this
    exact ⟨[], hc, by simp, by simp⟩
  | succ n ih =>
    intro t c hlen hc
    by_cases hmem : t ∈ c
    · obtain ⟨j, hj⟩ := List.mem_iff_get.mp hmem
      have hcd := chain_drop ts root c t hc j
      rw [hj] at hcd
      have hdl : (c.drop (j.1 + 1)).length ≤ n := by
        have h1 := j.2
        rw [List.length_drop]
        omega
      obtain ⟨c2, h1, h2, h3⟩ := ih t (c.drop (j.1 + 1)) hdl hcd
      exact ⟨c2, h1, h2, h3.trans (List.drop_subset _ c)⟩
    · cases c with
      | nil => exact ⟨[], hc, by simp, by simp⟩
      | cons u c =>
        obtain ⟨p, hp, hu, hup, hcu⟩ := (chainB_cons_iff ts root t u c).mp hc
        have hcn : c.length ≤ n := by
          simp only [List.length_cons] at hlen
          omega
        obtain ⟨c2, h1, h2, h3⟩ := ih u c hcn hcu
        refine ⟨u :: c2,
          (chainB_cons_iff ts root t u c2).mpr ⟨p, hp, hu, hup, h1⟩, ?_, ?_⟩
        · rw [List.nodup_cons]
          refine ⟨?_, h2⟩
          intro hin
          rcases List.mem_cons.mp hin with h | h
          · exact hmem (h ▸ List.mem_cons_self u c)
          · exact hmem (List.mem_cons_of_mem u (h3 h))
        · intro x hx
          rcases List.mem_cons.mp hx with h | h
          · exact h ▸ List.mem_cons_self u c
          · exact List.mem_cons_of_mem u (h3 h)

/-- Adequacy of the executable test: for members of the collection,
`isDesc` decides `Desc`. -/
theorem isDesc_iff_desc (ts : List Task) (root : Int) (t : Task)
    (ht : t ∈ ts) : isDesc ts root t = true ↔ Desc ts root t := by
  constructor
  · exact inSubF_to_desc ts.length ts root t
  · intro hd
    obtain ⟨c, hc⟩ := desc_to_chain ts root t hd
    obtain ⟨c2, hc2, hnd, _⟩ :=
      chain_prune ts root c.length t c (Nat.le_refl _) hc
    have hsubset : (t :: c2) ⊆ ts := by
      intro u hu
      rcases List.mem_cons.mp hu with h | h
      · exact h ▸ ht
      · exact chain_mem ts root c2 t hc2 u h
    have hlen : (t :: c2).length ≤ ts.length :=
      (List.Nodup.subperm hnd hsubset).length_le
    exact inSubF_mono (c2.length + 1) ts.length ts root t
      (by simpa using hlen) (chain_to_inSubF ts root c2 t hc2)

/-! ### Cascade delete removes exactly the descendant subtree -/

/-- With distinct ids, id equality is task equality. -/
theorem id_inj {ts : List Task} (hnd : (taskIds ts).Nodup) {a b : Task}
    (ha : a ∈ ts) (hb : b ∈ ts) (h : a.id = b.id) : a = b :=
  List.inj_on_of_nodup_map hnd ha hb h

/-- Descendant chains transport to any superset collection. -/
theorem desc_mono {ts1 ts2 : List Task} (hsub : ∀ x ∈ ts1, x ∈ ts2)
    {root : Int} {t : Task} (h : Desc ts1 root t) : Desc ts2 root t := by
  induction h with
  | base t ht => exact Desc.base t ht
  | step t u p hp hu hup _ ih => exact Desc.step t u p hp (hsub u hu) hup ih

/-- No member is a descendant of an absent id. -/
theorem desc_absent {ts : List Task} {i : Int}
    (habs : ¬ ∃ r ∈ ts, r.id = i) {t : Task} (ht : t ∈ ts)
    (hd : Desc ts i t) : False := by
  induction hd with
  | base t hb => exact habs ⟨t, ht, hb⟩
  | step t u p hp hu hup _ ih => exact ih hu

/-- Transitivity of descent through a member (needs distinct ids so
that reaching `u.id` means reaching `u`). -/
theorem desc_compose {ts : List Task} (hnd : (taskIds ts).Nodup)
    {root : Int} {u : Task} (hu : u ∈ ts) (h2 : Desc ts root u) :
    ∀ t : Task, t ∈ ts → Desc ts u.id t → Desc ts root t := by
  intro t ht h1
  induction h1 with
  | base t2 hb => exact (id_inj hnd ht hu hb) ▸ h2
  | step t2 w p hp hw hwp _ ih => exact Desc.step t2 w p hp hw hwp (ih hw)

/-- `taskIds` unfolds over `cons`. -/
theorem taskIds_cons (t : Task) (ts : List Task) :
    taskIds (t :: ts) = t.id :: taskIds ts := rfl

theorem mem_taskIds_of_mem {ts : List Task} {u : Task} (hu : u ∈ ts) :
    u.id ∈ taskIds ts := List.mem_map_of_mem (·.id) hu

/-- Filtering preserves distinctness of ids. -/
theorem taskIds_filter_nodup {ts : List Task} (hnd : (taskIds ts).Nodup)
    (p : Task → Bool) : (taskIds (ts.filter p)).Nodup := by
  unfold taskIds at hnd ⊢
  exact List.Nodup.sublist (List.Sublist.map (·.id) (List.filter_sublist ts)) hnd

/-- With distinct ids, filtering for the present id `i` yields exactly
the one task carrying it. -/
theorem filter_id_single {i : Int} {ts : List Task}
    (hnd : (taskIds ts).Nodup) {r : Task} (hr : r ∈ ts) (hri : r.id = i) :
    ts.filter (fun t => t.id == i) = [r] := by
  induction ts with
  | nil => simp at hr
  | cons t ts ih =>
    rw [taskIds_cons, List.nodup_cons] at hnd
    obtain ⟨htid, hnd2⟩ := hnd
    rcases List.mem_cons.mp hr with h | h
    · subst h
      rw [List.filter_cons, if_pos (by simp [hri])]
      have hnil : ts.filter (fun t2 => t2.id == i) = [] := by
        rw [List.filter_eq_nil_iff]
        intro u hu
        simp only [beq_iff_eq]
        intro he
        apply htid
        have hid : r.id = u.id := by rw [hri, he]
        rw [hid]
        exact mem_taskIds_of_mem hu
      rw [hnil]
    · have htne : (t.id == i) = false := by
        simp only [beq_eq_false_iff_ne, ne_eq]
        intro he
        apply htid
        have hid : t.id = r.id := by rw [he, hri]
        rw [hid]
        exact mem_taskIds_of_mem h
      have hrest := ih hnd2 h
      rw [List.filter_cons, htne]
      simpa using hrest

/-- With distinct ids, splicing out the first task with id `i` is the
same as filtering it away. -/
theorem rmvFirst_eq_filter {ts : List Task} (hnd : (taskIds ts).Nodup)
    (i : Int) : rmvFirst i ts = ts.filter (fun t => t.id != i) := by
  induction ts with
  | nil => rfl
  | cons t ts ih =>
    rw [taskIds_cons, List.nodup_cons] at hnd
    obtain ⟨htid, hnd2⟩ := hnd
    by_cases h : (t.id == i) = true
    · have h1 : rmvFirst i (t :: ts) = ts := by simp [rmvFirst, h]
      have h3 : ts.filter (fun t2 => t2.id != i) = ts := by
        rw [List.filter_eq_self]
        intro u hu
        simp only [bne_iff_ne, ne_eq]
        intro he
        apply htid
        have hid : t.id = u.id := by rw [beq_iff_eq] at h; rw [h, he]
        rw [hid]
        exact mem_taskIds_of_mem hu
      rw [h1, List.filter_cons]
      have hcond : (t.id != i) = false := by
        simp only [bne, h, Bool.not_true]
      rw [hcond]
      simpa using h3.symm
    · have h1 : rmvFirst i (t :: ts) = t :: rmvFirst i ts := by
        simp [rmvFirst, h]
      rw [h1, List.filter_cons]
      have hcond : (t.id != i) = true := by
        simp only [bne, Bool.not_eq_true']
        simpa using h
      rw [hcond]
      simp only [if_true]
      rw [ih hnd2]

/-- Pointwise `any` congruence. -/
theorem any_congr {α : Type} {p q : α → Bool} :
    ∀ {l : List α}, (∀ x ∈ l, p x = q x) → l.any p = l.any q := by
  intro l
  induction l with
  | nil => intro _; rfl
  | cons x xs ih =>
    intro h
    simp only [List.any_cons]
    rw [h x (List.mem_cons_self x xs), ih (fun y hy => h y (List.mem_cons_of_mem x hy))]

/-- Surviving a sibling subtree deletion does not change descent from
another root: chains of survivors consist of survivors. -/
theorem desc_restrict {acc : List Task}
    {cid : Int} {root2 : Int} {t : Task} (ht : t ∈ acc)
    (hts : ¬ Desc acc cid t) :
    (Desc (acc.filter (fun x => ! isDesc acc cid x)) root2 t ↔
      Desc acc root2 t) := by
  constructor
  · exact desc_mono (fun x hx => (List.mem_filter.mp hx).1)
  · intro hd
    induction hd with
    | base t2 hb => exact Desc.base t2 hb
    | step t2 u p hp hu hup hdu ih =>
      have hu2 : ¬ Desc acc cid u := by
        intro hcu
        exact hts (Desc.step t2 u p hp hu hup hcu)
      have hmemu : u ∈ acc.filter (fun x => ! isDesc acc cid x) := by
        rw [List.mem_filter]
        refine ⟨hu, ?_⟩
        simp only [Bool.not_eq_true']
        rw [← Bool.not_eq_true]
        intro hb
        exact hu2 ((isDesc_iff_desc acc cid u hu).mp hb)
      exact Desc.step t2 u p hp hmemu hup (ih hu hu2)

/-- A direct child of the (already removed) target id is a descendant
of a sibling child only if it is that sibling itself. -/
theorem child_not_desc {acc : List Task} {i : Int}
    (habs : ¬ ∃ r ∈ acc, r.id = i) {c2 t : Task}
    (htp : t.parent_id = some i) (hne : t.id ≠ c2.id)
    (hd : Desc acc c2.id t) : False := by
  cases hd with
  | base _ hb => exact hne hb
  | step _ u p hp hu hup _ =>
    rw [htp] at hp
    refine habs ⟨u, hu, ?_⟩
    rw [hup]
    exact (Option.some_inj.mp hp).symm

/-- Decomposition of the target subtree: with distinct ids and the
target id present, a member is a descendant of the target exactly when
it is the target itself or a descendant — inside the collection with
the target spliced out — of one of the target's direct children. -/
theorem desc_decomp {ts : List Task} (hnd : (taskIds ts).Nodup)
    {i : Int} {r : Task} (hr : r ∈ ts) (hri : r.id = i) (t : Task)
    (ht : t ∈ ts) :
    Desc ts i t ↔ t.id = i ∨
      ∃ c ∈ (ts.filter (fun x => x.id != i)).filter
          (fun x => x.parent_id == some i),
        Desc (ts.filter (fun x => x.id != i)) c.id t := by
  constructor
  · intro hd
    induction hd with
    | base t2 hb => exact Or.inl hb
    | step t2 u p hp hu hup hdu ih =>
      by_cases ht2 : t2.id = i
      · exact Or.inl ht2
      · right
        by_cases huid : u.id = i
        · have hpi : p = i := by rw [← hup, huid]
          refine ⟨t2, ?_, Desc.base t2 rfl⟩
          rw [List.mem_filter, List.mem_filter]
          exact ⟨⟨ht, by simpa using ht2⟩, by simp [hp, hpi]⟩
        · rcases ih hu with h | ⟨c, hc, hdc⟩
          · exact absurd h huid
          · refine ⟨c, hc, ?_⟩
            refine Desc.step t2 u p hp ?_ hup hdc
            rw [List.mem_filter]
            exact ⟨hu, by simpa using huid⟩
  · intro h
    rcases h with h | ⟨c, hc, hdc⟩
    · exact Desc.base t h
    · rw [List.mem_filter, List.mem_filter] at hc
      obtain ⟨⟨hcts, _⟩, hcpar⟩ := hc
      have hdc2 : Desc ts c.id t :=
        desc_mono (fun x hx => (List.mem_filter.mp hx).1) hdc
      have hcparent : c.parent_id = some i := by simpa using hcpar
      have hdescc : Desc ts i c :=
        Desc.step c r i hcparent hr hri (Desc.base r hri)
      exact desc_compose hnd hcts hdescc t ht hdc2

/-- The sequential child-subtree deletions of one cascade level remove
exactly the union of the children's subtrees. `Hrec` is the induction
hypothesis of `delGo_spec` for the (shared) inner budget. -/
theorem fold_children_spec (fuel : Nat)
    (Hrec : ∀ (ts2 : List Task) (j : Int), (taskIds ts2).Nodup →
      ts2.length < fuel →
      delGo fuel ts2 j = ts2.filter (fun t => ! isDesc ts2 j t)) :
    ∀ (cs acc : List Task) (i : Int),
      (taskIds acc).Nodup → acc.length < fuel →
      (¬ ∃ r ∈ acc, r.id = i) →
      (∀ c ∈ cs, c ∈ acc ∧ c.parent_id = some i) →
      (taskIds cs).Nodup →
      cs.foldl (fun a c => delGo fuel a c.id) acc
        = acc.filter (fun t => ! cs.any (fun c => isDesc acc c.id t)) := by
  intro cs
  induction cs with
  | nil =>
    intro acc i hnd hlen habs hcs hcnd
    simp only [List.foldl_nil, List.any_nil, Bool.not_false]
    exact (List.filter_eq_self.mpr (fun a _ => rfl)).symm
  | cons c cs ih =>
    intro acc i hnd hlen habs hcs hcnd
    obtain ⟨hcmem, hcpar⟩ := hcs c (List.mem_cons_self c cs)
    rw [taskIds_cons, List.nodup_cons] at hcnd
    obtain ⟨hcid, hcnd2⟩ := hcnd
    rw [List.foldl_cons, Hrec acc c.id hnd hlen]
    have hmemacc2 : ∀ c2 ∈ cs,
        c2 ∈ acc.filter (fun t => ! isDesc acc c.id t) ∧
          c2.parent_id = some i := by
      intro c2 hc2
      obtain ⟨hc2mem, hc2par⟩ := hcs c2 (List.mem_cons_of_mem c hc2)
      refine ⟨List.mem_filter.mpr ⟨hc2mem, ?_⟩, hc2par⟩
      simp only [Bool.not_eq_eq_eq_not, Bool.not_true]
      rw [← Bool.not_eq_true]
      intro hb
      have hne : c2.id ≠ c.id := by
        intro he
        exact hcid (he ▸ mem_taskIds_of_mem hc2)
      exact child_not_desc habs hc2par hne
        ((isDesc_iff_desc acc c.id c2 hc2mem).mp hb)
    have hres := ih (acc.filter (fun t => ! isDesc acc c.id t)) i
      (taskIds_filter_nodup hnd _)
      (lt_of_le_of_lt (List.length_filter_le _ acc) hlen)
      (fun ⟨r2, hr2, hr2i⟩ => habs ⟨r2, (List.mem_filter.mp hr2).1, hr2i⟩)
      hmemacc2 hcnd2
    rw [hres, List.filter_filter]
    apply List.filter_congr
    intro t htacc
    cases hb : isDesc acc c.id t with
    | true =>
        simp only [List.any_cons, hb, Bool.true_or, Bool.not_true,
          Bool.and_false]
    | false =>
        have htnot : ¬ Desc acc c.id t := fun hd =>
          by rw [(isDesc_iff_desc acc c.id t htacc).mpr hd] at hb; cases hb
        have htacc2 : t ∈ acc.filter (fun x => ! isDesc acc c.id x) :=
          List.mem_filter.mpr ⟨htacc, by rw [hb]; rfl⟩
        have hany : cs.any
              (fun c2 => isDesc (acc.filter (fun x => ! isDesc acc c.id x))
                c2.id t)
            = cs.any (fun c2 => isDesc acc c2.id t) := by
          apply any_congr
          intro c2 _
          apply Bool.eq_iff_iff.mpr
          rw [isDesc_iff_desc _ c2.id t htacc2, isDesc_iff_desc acc c2.id t htacc]
          exact desc_restrict htacc htnot
        simp only [List.any_cons, hb, Bool.false_or, Bool.not_false,
          Bool.and_true, hany]

/-- The cascade removes exactly the descendant subtree of the target:
with distinct ids and enough budget, `delGo` equals filtering away the
descendants-or-self of the target id, in storage order. -/
theorem delGo_spec :
    ∀ (fuel : Nat) (ts : List Task) (i : Int),
      (taskIds ts).Nodup → ts.length < fuel →
      delGo fuel ts i = ts.filter (fun t => ! isDesc ts i t) := by
  intro fuel
  induction fuel with
  | zero => intro ts i _ h; omega
  | succ fuel ih =>
    intro ts i hnd hlen
    by_cases hpres : ∃ r ∈ ts, r.id = i
    · obtain ⟨r, hr, hri⟩ := hpres
      have hunf : delGo (fuel + 1) ts i
          = (ts.filter (fun t => t.id == i)).foldl
              (fun acc task =>
                ((rmvFirst task.id acc).filter
                    (fun t => t.parent_id == some i)).foldl
                  (fun acc2 c => delGo fuel acc2 c.id)
                  (rmvFirst task.id acc))
              ts := rfl
      rw [hunf, filter_id_single hnd hr hri, List.foldl_cons, List.foldl_nil,
        hri, rmvFirst_eq_filter hnd i]
      have hlt : (ts.filter (fun t => t.id != i)).length < ts.length := by
        rw [← rmvFirst_eq_filter hnd i]
        exact rmvFirst_length_lt i ts ⟨r, hr, hri⟩
      have habs1 : ¬ ∃ u ∈ ts.filter (fun t => t.id != i), u.id = i := by
        rintro ⟨u, hu, hui⟩
        have := (List.mem_filter.mp hu).2
        rw [hui] at this
        simp at this
      have hcs : ∀ c ∈ (ts.filter (fun t => t.id != i)).filter
            (fun t => t.parent_id == some i),
          c ∈ ts.filter (fun t => t.id != i) ∧ c.parent_id = some i := by
        intro c hc
        rw [List.mem_filter] at hc
        exact ⟨hc.1, by simpa using hc.2⟩
      have hfold := fold_children_spec fuel ih
        ((ts.filter (fun t => t.id != i)).filter
          (fun t => t.parent_id == some i))
        (ts.filter (fun t => t.id != i)) i
        (taskIds_filter_nodup hnd _)
        (lt_of_lt_of_le hlt (Nat.lt_succ_iff.mp hlen))
        habs1 hcs
        (taskIds_filter_nodup (taskIds_filter_nodup hnd _) _)
      rw [hfold, List.filter_filter]
      apply List.filter_congr
      intro t ht
      cases hb : (t.id == i) with
      | true =>
          have hdt : Desc ts i t := Desc.base t (by simpa using hb)
          rw [(isDesc_iff_desc ts i t ht).mpr hdt]
          simp only [bne, hb, Bool.not_true, Bool.and_false]
      | false =>
          have htacc1 : t ∈ ts.filter (fun x => x.id != i) :=
            List.mem_filter.mpr ⟨ht, by simp [bne, hb]⟩
          have hkey : ((ts.filter (fun x => x.id != i)).filter
                  (fun x => x.parent_id == some i)).any
                (fun c => isDesc (ts.filter (fun x => x.id != i)) c.id t)
              = isDesc ts i t := by
            apply Bool.eq_iff_iff.mpr
            rw [List.any_eq_true, isDesc_iff_desc ts i t ht]
            rw [desc_decomp hnd hr hri t ht]
            constructor
            · rintro ⟨c, hc, hdc⟩
              refine Or.inr ⟨c, hc, ?_⟩
              exact (isDesc_iff_desc _ c.id t htacc1).mp hdc
            · rintro (h | ⟨c, hc, hdc⟩)
              · rw [h] at hb; simp at hb
              · exact ⟨c, hc, (isDesc_iff_desc _ c.id t htacc1).mpr hdc⟩
          rw [hkey]
          simp [bne, hb]
    · rw [delGo_absent (fuel + 1) ts i hpres]
      symm
      rw [List.filter_eq_self]
      intro t ht
      simp only [Bool.not_eq_eq_eq_not, Bool.not_true]
      rw [← Bool.not_eq_true]
      intro hb
      exact desc_absent hpres ht ((isDesc_iff_desc ts i t ht).mp hb)

/-- C1: `deleteTask` removes exactly the target task (by id) and every
task reachable from it along `parent_id` edges — the result is the
stored collection filtered to the non-descendants, in storage order —
provided ids are distinct (the data-model invariant). -/
theorem c1_cascade_delete (ts : List Task) (i : Int)
    (hnd : (taskIds ts).Nodup) :
    deleteTask ts i = ts.filter (fun t => ! isDesc ts i t) :=
  delGo_spec (ts.length + 1) ts i hnd (Nat.lt_succ_self _)

/-- A concrete task for the delete scenarios. -/
def mkT (i : Int) (p : Option Int) : Task :=
  { id := i, title := "t", description := "", status := "not_started"
    deadline := none, parent_id := p, created_at := 0, updated_at := 0
    labels := [], priority := 0 }

/-- The spec scenario collection: a chain 1 ← 2 ← 3 plus a free root 9. -/
def c1ex : List Task := [mkT 1 none, mkT 2 (some 1), mkT 3 (some 2),
  mkT 9 none]

/-- C1 witness: deleting the chain root 1 removes the whole chain and
leaves exactly the unrelated root 9. -/
theorem c1_witness :
    (taskIds c1ex).Nodup ∧
      deleteTask c1ex 1 = c1ex.filter (fun t => ! isDesc c1ex 1 t) ∧
      deleteTask c1ex 1 = [mkT 9 none] :=
  ⟨by decide, c1_cascade_delete c1ex 1 (by decide), by decide⟩

/-! ## Tree Builder (`buildTaskTree`, App.tsx) -/

/-- The mutable node record of the builder: the wrapped task, the
children (by id — the map owns the one node per id, so an id is a
faithful stand-in for the object reference), and the level. -/
structure PreNode where
  task : Task
  children : List Int
  level : Nat
deriving Repr

/-- The id → node index (`Map<number, TaskTreeNode>`). -/
def NodeMap : Type := Int → Option PreNode

/-- `Map.set`. -/
def mupd (m : NodeMap) (k : Int) (v : PreNode) : NodeMap :=
  fun k2 => if k2 = k then some v else m k2

/-- The empty map. -/
def emptyMap : NodeMap := fun _ => none

/-- First pass of `buildTaskTree`: wrap every task in a fresh node with
no children at level 0 (`Map.set` in list order, a later duplicate id
overwriting an earlier one). -/
def pass1 (ts : List Task) : NodeMap :=
  ts.foldl (fun m t => mupd m t.id ⟨t, [], 0⟩) emptyMap

/-- One step of the second pass, for task `t`: if `task.parent_id` is
truthy (present and nonzero) and resolves in the index, push the node
onto the parent's children and set `level = parent.level + 1`;
if it is falsy, push the node onto the root list; a truthy but
unresolvable parent does nothing at all. -/
def pass2step (mr : NodeMap × List Int) (t : Task) : NodeMap × List Int :=
  match t.parent_id with
  | none => (mr.1, mr.2 ++ [t.id])
  | some pid =>
    if pid = 0 then (mr.1, mr.2 ++ [t.id])
    else
      match mr.1 pid with
      | none => mr
      | some parent =>
        let m1 := mupd mr.1 pid
          { parent with children := parent.children ++ [t.id] }
        match m1 t.id with
        | none => (m1, mr.2)
        | some node =>
          (mupd m1 t.id { node with level := parent.level + 1 }, mr.2)

/-- The second pass over the whole collection. -/
def pass2 (ts : List Task) : NodeMap × List Int :=
  ts.foldl pass2step (pass1 ts, [])

/-- The derived tree node (`TaskTreeNode` without the transient
`isExpanded` display flag, which the builder sets to the constant
`true`). -/
inductive TTree : Type where
  | node (task : Task) (level : Nat) (children : List TTree)

/-- Materialise the node graph reachable from id `i` (reading a node
reference at the end of the build); the budget bounds the depth. -/
def matN (m : NodeMap) : Nat → Int → Option TTree
  | 0, _ => none
  | fuel + 1, i =>
    match m i with
    | none => none
    | some pn => some (.node pn.task pn.level
        (pn.children.filterMap (matN m fuel)))

/-- `buildTaskTree`: both passes, then the root list read as a forest. -/
def buildTaskTree (ts : List Task) : List TTree :=
  (pass2 ts).2.filterMap (matN (pass2 ts).1 (ts.length + 1))

/-- Pre-order flattening of a tree into (task, level) pairs. -/
def TTree.flat : TTree → List (Task × Nat)
  | .node t lvl cs =>
    (t, lvl) :: (cs.attach.map (fun c => TTree.flat c.1)).flatten
termination_by tr => sizeOf tr
decreasing_by
  have := List.sizeOf_lt_of_mem c.2
  simp only [TTree.node.sizeOf_spec]
  omega

/-- Pre-order flattening of a forest. -/
def forestFlat (f : List TTree) : List (Task × Nat) :=
  (f.map TTree.flat).flatten

/-- The single-orphan collection of the C2 scenario: one task whose
`parent_id` names the nonexistent id 2. -/
def c2ex : List Task := [mkT 1 (some 2)]

/-- C2: a task with a present but dangling `parent_id` is NOT demoted
to a root — `buildTaskTree` drops it from the forest entirely. -/
theorem c2_counterexample :
    (mkT 1 (some 2)).parent_id = some 2 ∧
      (∀ t ∈ c2ex, t.id ≠ 2) ∧
      buildTaskTree c2ex = [] := by
  refine ⟨rfl, by decide, ?_⟩
  rfl

/-- `flat` unfolded to a plain `map`. -/
theorem TTree.flat_node (t : Task) (lvl : Nat) (cs : List TTree) :
    (TTree.node t lvl cs).flat = (t, lvl) :: (cs.map TTree.flat).flatten := by
  rw [TTree.flat]
  congr 1
  rw [List.attach_map_coe]

/-- Every map entry wraps a member task that carries the entry's key as
its id. -/
def MapTasksOk (ts : List Task) (m : NodeMap) : Prop :=
  ∀ i pn, m i = some pn → pn.task ∈ ts ∧ pn.task.id = i

/-- Every listed root id belongs to a member with falsy `parent_id`. -/
def RootsOk (ts : List Task) (roots : List Int) : Prop :=
  ∀ j ∈ roots, ∃ u ∈ ts, u.id = j ∧
    (u.parent_id = none ∨ u.parent_id = some 0)

/-- Every id in a children list belongs to a member whose truthy
`parent_id` resolved in the index. -/
def ChildOk (ts : List Task) (m : NodeMap) : Prop :=
  ∀ i pn, m i = some pn → ∀ j ∈ pn.children, ∃ u ∈ ts, u.id = j ∧
    ∃ p, u.parent_id = some p ∧ p ≠ 0 ∧ (m p).isSome = true

theorem pass1_tasks (ts : List Task) : MapTasksOk ts (pass1 ts) := by
  suffices h : ∀ (l : List Task) (m : NodeMap), (∀ t ∈ l, t ∈ ts) →
      MapTasksOk ts m →
      MapTasksOk ts (l.foldl (fun m t => mupd m t.id ⟨t, [], 0⟩) m) by
    exact h ts emptyMap (fun t h2 => h2) (fun i pn h2 => by
      simp [emptyMap] at h2)
  intro l
  induction l with
  | nil => intro m _ hm; exact hm
  | cons t l ih =>
    intro m hsub hm
    rw [List.foldl_cons]
    refine ih _ (fun u hu => hsub u (List.mem_cons_of_mem t hu)) ?_
    intro i pn h2
    rw [mupd] at h2
    by_cases he : i = t.id
    · rw [if_pos he] at h2
      cases h2
      exact ⟨hsub t (List.mem_cons_self t l), he.symm⟩
    · rw [if_neg he] at h2
      exact hm i pn h2

theorem pass1_children_nil (ts : List Task) :
    ∀ i pn, pass1 ts i = some pn → pn.children = [] := by
  suffices h : ∀ (l : List Task) (m : NodeMap),
      (∀ i pn, m i = some pn → pn.children = []) →
      ∀ i pn, (l.foldl (fun m t => mupd m t.id ⟨t, [], 0⟩) m) i = some pn →
        pn.children = [] by
    exact h ts emptyMap (fun i pn h2 => by simp [emptyMap] at h2)
  intro l
  induction l with
  | nil => intro m hm; exact hm
  | cons t l ih =>
    intro m hm
    rw [List.foldl_cons]
    refine ih _ ?_
    intro i pn h2
    rw [mupd] at h2
    by_cases he : i = t.id
    · rw [if_pos he] at h2; cases h2; rfl
    · rw [if_neg he] at h2; exact hm i pn h2

/-- Reduction: falsy (absent) parent pushes a root. -/
theorem pass2step_none (mr : NodeMap × List Int) (t : Task)
    (hp : t.parent_id = none) :
    pass2step mr t = (mr.1, mr.2 ++ [t.id]) := by
  simp only [pass2step, hp]

/-- Reduction: falsy (zero) parent pushes a root. -/
theorem pass2step_zero (mr : NodeMap × List Int) (t : Task)
    (hp : t.parent_id = some 0) :
    pass2step mr t = (mr.1, mr.2 ++ [t.id]) := by
  simp [pass2step, hp]

/-- Reduction: truthy but unresolvable parent does nothing. -/
theorem pass2step_unres (mr : NodeMap × List Int) (t : Task) (pid : Int)
    (hp : t.parent_id = some pid) (hz : ¬ pid = 0)
    (hm : mr.1 pid = none) :
    pass2step mr t = mr := by
  simp only [pass2step, hp, hz, hm, if_false]

/-- Reduction: resolvable parent, the wrapped node found (the always
case in a real build): push the child id and set its level. -/
theorem pass2step_some (mr : NodeMap × List Int) (t : Task) (pid : Int)
    (parent node : PreNode) (hp : t.parent_id = some pid)
    (hz : ¬ pid = 0) (hm : mr.1 pid = some parent)
    (hm1 : (mupd mr.1 pid
        { parent with children := parent.children ++ [t.id] }) t.id
      = some node) :
    pass2step mr t
      = (mupd (mupd mr.1 pid
            { parent with children := parent.children ++ [t.id] }) t.id
          { node with level := parent.level + 1 }, mr.2) := by
  simp only [pass2step, hp, hz, hm, hm1, if_false]

/-- Reduction: resolvable parent, wrapped node missing (unreachable in
a real build, kept for totality). -/
theorem pass2step_some_miss (mr : NodeMap × List Int) (t : Task)
    (pid : Int) (parent : PreNode) (hp : t.parent_id = some pid)
    (hz : ¬ pid = 0) (hm : mr.1 pid = some parent)
    (hm1 : (mupd mr.1 pid
        { parent with children := parent.children ++ [t.id] }) t.id
      = none) :
    pass2step mr t
      = (mupd mr.1 pid
          { parent with children := parent.children ++ [t.id] }, mr.2) := by
  simp only [pass2step, hp, hz, hm, hm1, if_false]

/-- `mupd` at a present key preserves key presence everywhere. -/
theorem mupd_isSome (m : NodeMap) (k : Int) (v : PreNode)
    (hk : (m k).isSome = true) (q : Int) :
    ((mupd m k v) q).isSome = (m q).isSome := by
  rw [mupd]
  by_cases he : q = k
  · rw [if_pos he, he, hk]
    rfl
  · rw [if_neg he]

/-- `pass2step` never changes which keys are present. -/
theorem pass2step_dom (mr : NodeMap × List Int) (t : Task) (i : Int) :
    ((pass2step mr t).1 i).isSome = (mr.1 i).isSome := by
  cases hp : t.parent_id with
  | none => rw [pass2step_none mr t hp]
  | some pid =>
    by_cases hz : pid = 0
    · rw [pass2step_zero mr t (by rw [hp, hz])]
    · cases hm : mr.1 pid with
      | none => rw [pass2step_unres mr t pid hp hz hm]
      | some parent =>
        have hkm : (mr.1 pid).isSome = true := by rw [hm]; rfl
        cases hm1 : (mupd mr.1 pid
            { parent with children := parent.children ++ [t.id] }) t.id with
        | none =>
          rw [pass2step_some_miss mr t pid parent hp hz hm hm1]
          exact mupd_isSome mr.1 pid _ hkm i
        | some node =>
          rw [pass2step_some mr t pid parent node hp hz hm hm1]
          have h1 : ((mupd mr.1 pid
              { parent with children := parent.children ++ [t.id] }) t.id).isSome
                = true := by rw [hm1]; rfl
          rw [mupd_isSome _ t.id _ h1 i]
          exact mupd_isSome mr.1 pid _ hkm i

theorem pass2step_inv (ts : List Task) (t : Task) (ht : t ∈ ts)
    (mr : NodeMap × List Int) (h1 : MapTasksOk ts mr.1)
    (h2 : RootsOk ts mr.2) (h3 : ChildOk ts mr.1) :
    MapTasksOk ts (pass2step mr t).1 ∧ RootsOk ts (pass2step mr t).2 ∧
      ChildOk ts (pass2step mr t).1 := by
  have hrootsnoc : RootsOk ts (mr.2 ++ [t.id]) → MapTasksOk ts mr.1 ∧
      RootsOk ts (mr.2 ++ [t.id]) ∧ ChildOk ts mr.1 :=
    fun hr => ⟨h1, hr, h3⟩
  cases hp : t.parent_id with
  | none =>
    rw [pass2step_none mr t hp]
    refine hrootsnoc ?_
    intro j hj
    rcases List.mem_append.mp hj with h | h
    · exact h2 j h
    · rw [List.mem_singleton] at h
      exact ⟨t, ht, h.symm, Or.inl hp⟩
  | some pid =>
    by_cases hz : pid = 0
    · rw [pass2step_zero mr t (by rw [hp, hz])]
      refine hrootsnoc ?_
      intro j hj
      rcases List.mem_append.mp hj with h | h
      · exact h2 j h
      · rw [List.mem_singleton] at h
        exact ⟨t, ht, h.symm, Or.inr (by rw [hp, hz])⟩
    · cases hm : mr.1 pid with
      | none => rw [pass2step_unres mr t pid hp hz hm]; exact ⟨h1, h2, h3⟩
      | some parent =>
        have hkm : (mr.1 pid).isSome = true := by rw [hm]; rfl
        have hm1tasks : MapTasksOk ts (mupd mr.1 pid
            { parent with children := parent.children ++ [t.id] }) := by
          intro i pn hpn
          simp only [mupd] at hpn
          by_cases he : i = pid
          · rw [if_pos he] at hpn
            cases hpn
            exact he ▸ h1 pid parent hm
          · rw [if_neg he] at hpn
            exact h1 i pn hpn
        have hm1child : ChildOk ts (mupd mr.1 pid
            { parent with children := parent.children ++ [t.id] }) := by
          intro i pn hpn j hj
          simp only [mupd] at hpn
          by_cases he : i = pid
          · rw [if_pos he] at hpn
            cases hpn
            rcases List.mem_append.mp hj with h | h
            · obtain ⟨u, hu, hid, p2, hps1, hps2, hps3⟩ :=
                h3 pid parent hm j h
              exact ⟨u, hu, hid, p2, hps1, hps2,
                by rw [mupd_isSome mr.1 pid _ hkm]; exact hps3⟩
            · rw [List.mem_singleton] at h
              exact ⟨t, ht, h.symm, pid, hp, hz,
                by rw [mupd_isSome mr.1 pid _ hkm]; exact hkm⟩
          · rw [if_neg he] at hpn
            obtain ⟨u, hu, hid, p2, hps1, hps2, hps3⟩ := h3 i pn hpn j hj
            exact ⟨u, hu, hid, p2, hps1, hps2,
              by rw [mupd_isSome mr.1 pid _ hkm]; exact hps3⟩
        cases hm1 : (mupd mr.1 pid
            { parent with children := parent.children ++ [t.id] }) t.id with
        | none =>
          rw [pass2step_some_miss mr t pid parent hp hz hm hm1]
          exact ⟨hm1tasks, h2, hm1child⟩
        | some node =>
          rw [pass2step_some mr t pid parent node hp hz hm hm1]
          have h1s : ((mupd mr.1 pid
              { parent with children := parent.children ++ [t.id] }) t.id).isSome
                = true := by rw [hm1]; rfl
          refine ⟨?_, h2, ?_⟩
          · intro i pn hpn
            simp only [mupd] at hpn
            by_cases he : i = t.id
            · rw [if_pos he] at hpn
              cases hpn
              exact he ▸ hm1tasks t.id node hm1
            · rw [if_neg he] at hpn
              exact hm1tasks i pn hpn
          · intro i pn hpn j hj
            simp only [mupd] at hpn
            by_cases he : i = t.id
            · rw [if_pos he] at hpn
              cases hpn
              obtain ⟨u, hu, hid, p2, hps1, hps2, hps3⟩ :=
                hm1child t.id node hm1 j hj
              exact ⟨u, hu, hid, p2, hps1, hps2,
                by rw [mupd_isSome _ t.id _ h1s]; exact hps3⟩
            · rw [if_neg he] at hpn
              obtain ⟨u, hu, hid, p2, hps1, hps2, hps3⟩ :=
                hm1child i pn hpn j hj
              exact ⟨u, hu, hid, p2, hps1, hps2,
                by rw [mupd_isSome _ t.id _ h1s]; exact hps3⟩

theorem pass2_inv (ts : List Task) :
    MapTasksOk ts (pass2 ts).1 ∧ RootsOk ts (pass2 ts).2 ∧
      ChildOk ts (pass2 ts).1 := by
  suffices h : ∀ (l : List Task) (mr : NodeMap × List Int),
      (∀ t ∈ l, t ∈ ts) → MapTasksOk ts mr.1 → RootsOk ts mr.2 →
      ChildOk ts mr.1 →
      MapTasksOk ts (l.foldl pass2step mr).1 ∧
        RootsOk ts (l.foldl pass2step mr).2 ∧
        ChildOk ts (l.foldl pass2step mr).1 by
    refine h ts (pass1 ts, []) (fun t h2 => h2) (pass1_tasks ts)
      (fun j hj => by simp at hj) ?_
    intro i pn hpn j hj
    rw [pass1_children_nil ts i pn hpn] at hj
    simp at hj
  intro l
  induction l with
  | nil => intro mr _ a b c; exact ⟨a, b, c⟩
  | cons t l ih =>
    intro mr hsub a b c
    rw [List.foldl_cons]
    obtain ⟨a2, b2, c2⟩ :=
      pass2step_inv ts t (hsub t (List.mem_cons_self t l)) mr a b c
    exact ih _ (fun u hu => hsub u (List.mem_cons_of_mem t hu)) a2 b2 c2

/-- Ids occurring in a materialised subtree: the root key itself or an
id listed in some children list of the map. -/
theorem flat_src (m : NodeMap)
    (hM : ∀ i pn, m i = some pn → pn.task.id = i) :
    ∀ (fuel : Nat) (i : Int) (tr : TTree), matN m fuel i = some tr →
      ∀ x ∈ tr.flat, x.1.id = i ∨
        ∃ i2 pn, m i2 = some pn ∧ x.1.id ∈ pn.children := by
  intro fuel
  induction fuel with
  | zero => intro i tr h; simp [matN] at h
  | succ fuel ih =>
    intro i tr h x hx
    rw [matN] at h
    cases hm : m i with
    | none => rw [hm] at h; cases h
    | some pn =>
      rw [hm] at h
      cases h
      rw [TTree.flat_node] at hx
      rcases List.mem_cons.mp hx with h | h
      · left
        rw [h]
        exact hM i pn hm
      · rw [List.mem_flatten] at h
        obtain ⟨l2, hl2, hxl2⟩ := h
        rw [List.mem_map] at hl2
        obtain ⟨tc, htc, rfl⟩ := hl2
        rw [List.mem_filterMap] at htc
        obtain ⟨c, hc, hmc⟩ := htc
        rcases ih c tc hmc x hxl2 with h | h
        · exact Or.inr ⟨i, pn, hm, h ▸ hc⟩
        · exact Or.inr h

/-- C2 (amended): a task whose `parent_id` is present, nonzero and
matches no id in the collection is silently dropped: it appears nowhere
in the output forest (in particular it is not made a root). -/
theorem c2_amended (ts : List Task) (t : Task)
    (hnd : (taskIds ts).Nodup) (ht : t ∈ ts) (pid : Int)
    (hp : t.parent_id = some pid) (hpz : pid ≠ 0)
    (hmiss : pid ∉ taskIds ts) :
    t.id ∉ (forestFlat (buildTaskTree ts)).map (fun x => x.1.id) := by
  obtain ⟨hM, hR, hC⟩ := pass2_inv ts
  intro hin
  rw [List.mem_map] at hin
  obtain ⟨x, hx, hxid⟩ := hin
  rw [forestFlat, List.mem_flatten] at hx
  obtain ⟨l2, hl2, hxl2⟩ := hx
  rw [List.mem_map] at hl2
  obtain ⟨tr, htr, rfl⟩ := hl2
  rw [buildTaskTree, List.mem_filterMap] at htr
  obtain ⟨r, hr, hmr⟩ := htr
  rcases flat_src (pass2 ts).1 (fun i pn h => (hM i pn h).2) _ r tr hmr x hxl2
    with h | ⟨i2, pn, hpn, hchild⟩
  · -- the task would have to be a listed root
    obtain ⟨u, hu, huid, hufalsy⟩ := hR r hr
    rw [hxid] at h
    have hut : u = t := id_inj hnd hu ht (by rw [huid, h])
    rcases hufalsy with h2 | h2
    · rw [hut, hp] at h2; cases h2
    · rw [hut, hp] at h2
      exact hpz (Option.some_inj.mp h2)
  · -- or be listed in some children list
    obtain ⟨u, hu, huid, p2, hup, hpz2, hpsome⟩ := hC i2 pn hpn x.1.id hchild
    have hut : u = t := id_inj hnd hu ht (by rw [huid, hxid])
    rw [hut, hp] at hup
    have hppid : p2 = pid := (Option.some_inj.mp hup).symm
    rw [hppid] at hpsome
    cases hsome : (pass2 ts).1 pid with
    | none => rw [hsome] at hpsome; cases hpsome
    | some pn2 =>
      obtain ⟨hmem2, hid2⟩ := hM pid pn2 hsome
      exact hmiss (hid2 ▸ mem_taskIds_of_mem hmem2)

/-- C2 amended witness: the concrete orphan is indeed absent. -/
theorem c2_witness :
    (taskIds c2ex).Nodup ∧ mkT 1 (some 2) ∈ c2ex ∧
      (mkT 1 (some 2)).parent_id = some 2 ∧ (2 : Int) ≠ 0 ∧
      (2 : Int) ∉ taskIds c2ex ∧
      (mkT 1 (some 2)).id ∉
        (forestFlat (buildTaskTree c2ex)).map (fun x => x.1.id) :=
  ⟨by decide, by decide, rfl, by decide, by decide,
    c2_amended c2ex (mkT 1 (some 2)) (by decide) (by decide) 2 rfl
      (by decide) (by decide)⟩

/-! ### Exact shape of the built forest (for C3) -/

theorem pass1_level_zero (ts : List Task) :
    ∀ i pn, pass1 ts i = some pn → pn.level = 0 := by
  suffices h : ∀ (l : List Task) (m : NodeMap),
      (∀ i pn, m i = some pn → pn.level = 0) →
      ∀ i pn, (l.foldl (fun m t => mupd m t.id ⟨t, [], 0⟩) m) i = some pn →
        pn.level = 0 by
    exact h ts emptyMap (fun i pn h2 => by simp [emptyMap] at h2)
  intro l
  induction l with
  | nil => intro m hm; exact hm
  | cons t l ih =>
    intro m hm
    rw [List.foldl_cons]
    refine ih _ ?_
    intro i pn h2
    rw [mupd] at h2
    by_cases he : i = t.id
    · rw [if_pos he] at h2; cases h2; rfl
    · rw [if_neg he] at h2; exact hm i pn h2

theorem pass1_dom (ts : List Task) (i : Int) :
    ((pass1 ts) i).isSome = true ↔ i ∈ taskIds ts := by
  suffices h : ∀ (l : List Task) (m : NodeMap) (i : Int),
      ((l.foldl (fun m t => mupd m t.id ⟨t, [], 0⟩) m) i).isSome = true ↔
        i ∈ taskIds l ∨ (m i).isSome = true by
    rw [pass1, h]
    simp [emptyMap]
  intro l
  induction l with
  | nil => intro m i; simp [taskIds]
  | cons t l ih =>
    intro m i
    rw [List.foldl_cons, ih, taskIds_cons]
    constructor
    · rintro (h | h)
      · exact Or.inl (List.mem_cons_of_mem _ h)
      · rw [mupd] at h
        by_cases he : i = t.id
        · exact Or.inl (he ▸ List.mem_cons_self t.id _)
        · rw [if_neg he] at h
          exact Or.inr h
    · rintro (h | h)
      · rcases List.mem_cons.mp h with h2 | h2
        · right
          rw [mupd, if_pos h2]
          rfl
        · exact Or.inl h2
      · by_cases he : i = t.id
        · right
          rw [mupd, if_pos he]
          rfl
        · right
          rw [mupd, if_neg he]
          exact h

/-- A member in the middle of a duplicate-free collection has an id
absent from the front part. -/
theorem nodup_middle (pre : List Task) (t : Task) (suf : List Task)
    (hnd : (taskIds (pre ++ t :: suf)).Nodup) : t.id ∉ taskIds pre := by
  have : taskIds (pre ++ t :: suf) = taskIds pre ++ t.id :: taskIds suf := by
    simp [taskIds]
  rw [this, List.nodup_append] at hnd
  intro hin
  exact hnd.2.2 hin (List.mem_cons_self t.id (taskIds suf))

/-- The full invariant of the second pass, after processing `pre`:
the index maps every id of the collection to its member task, the
children recorded so far are exactly the processed tasks naming that
parent (in processing order), a processed task's level is its depth,
an unprocessed one's 0, and the recorded roots are exactly the
processed tasks with absent parent. -/
def Inv3 (ts : List Task) (dep : Int → Nat) (pre : List Task)
    (mr : NodeMap × List Int) : Prop :=
  (∀ i : Int, ((mr.1 i).isSome = true) ↔ i ∈ taskIds ts) ∧
  MapTasksOk ts mr.1 ∧
  (∀ i pn, mr.1 i = some pn →
      pn.children
        = (pre.filter (fun u => u.parent_id == some i)).map (·.id)) ∧
  (∀ i pn, mr.1 i = some pn →
      pn.level = if i ∈ taskIds pre then dep i else 0) ∧
  (mr.2 = (pre.filter
      (fun u => u.parent_id == (none : Option Int))).map (·.id))

theorem pass2step_inv3 (ts : List Task) (dep : Int → Nat)
    (hnd : (taskIds ts).Nodup)
    (hpos : ∀ u ∈ ts, u.id ≠ 0)
    (hres : ∀ u ∈ ts, ∀ p, u.parent_id = some p → p ∈ taskIds ts)
    (hdep : ∀ u ∈ ts, (match u.parent_id with
      | some p => dep u.id = dep p + 1
      | none => dep u.id = 0))
    (pre suf : List Task) (t : Task) (hts : ts = pre ++ t :: suf)
    (htopo : ∀ p, t.parent_id = some p → p ∈ taskIds pre)
    (mr : NodeMap × List Int) (hinv : Inv3 ts dep pre mr) :
    Inv3 ts dep (pre ++ [t]) (pass2step mr t) := by
  obtain ⟨hdom, htasks, hchildren, hlevels, hroots⟩ := hinv
  have ht : t ∈ ts := by rw [hts]; exact List.mem_append_right pre (List.mem_cons_self t suf)
  have htpre : t.id ∉ taskIds pre := nodup_middle pre t suf (hts ▸ hnd)
  cases hp : t.parent_id with
  | none =>
    rw [pass2step_none mr t hp]
    refine ⟨hdom, htasks, ?_, ?_, ?_⟩
    · intro i pn hpn
      rw [hchildren i pn hpn, List.filter_append]
      have : [t].filter (fun u => u.parent_id == some i) = [] := by
        simp [hp]
      rw [this, List.append_nil]
    · intro i pn hpn
      rw [hlevels i pn hpn]
      by_cases he : i = t.id
      · subst he
        rw [if_neg htpre, if_pos (by simp [taskIds])]
        have h0 := hdep t ht
        rw [hp] at h0
        exact h0.symm
      · have hiff : (i ∈ taskIds (pre ++ [t])) ↔ i ∈ taskIds pre := by
          have happ : taskIds (pre ++ [t]) = taskIds pre ++ [t.id] := by
            simp [taskIds]
          rw [happ, List.mem_append, List.mem_singleton]
          constructor
          · rintro (h | h)
            · exact h
            · exact absurd h he
          · exact Or.inl
        rw [if_congr hiff rfl rfl]
    · rw [hroots, List.filter_append]
      have : [t].filter (fun u => u.parent_id == (none : Option Int)) = [t] := by
        simp [hp]
      rw [this]
      simp
  | some pid =>
    have hpid_ts : pid ∈ taskIds ts := hres t ht pid hp
    have hpz : ¬ pid = 0 := by
      rw [taskIds, List.mem_map] at hpid_ts
      obtain ⟨u, hu, hui⟩ := hpid_ts
      exact hui ▸ hpos u hu
    have hppre : pid ∈ taskIds pre := htopo pid hp
    have hpidne : ¬ (t.id = pid) := fun he => htpre (he ▸ hppre)
    have hdompid : (mr.1 pid).isSome = true := (hdom pid).mpr hpid_ts
    cases hm : mr.1 pid with
    | none => rw [hm] at hdompid; cases hdompid
    | some parent =>
      have hdomt : ((mupd mr.1 pid
          { parent with children := parent.children ++ [t.id] }) t.id).isSome
            = true := by
        rw [mupd_isSome mr.1 pid _ (by rw [hm]; rfl)]
        exact (hdom t.id).mpr (mem_taskIds_of_mem ht)
      cases hm1 : (mupd mr.1 pid
          { parent with children := parent.children ++ [t.id] }) t.id with
      | none => rw [hm1] at hdomt; cases hdomt
      | some node =>
        rw [pass2step_some mr t pid parent node hp hpz hm hm1]
        have hlook : ∀ i : Int,
            (mupd (mupd mr.1 pid
              { parent with children := parent.children ++ [t.id] }) t.id
                { node with level := parent.level + 1 }) i
            = if i = t.id then some { node with level := parent.level + 1 }
              else if i = pid then
                some { parent with children := parent.children ++ [t.id] }
              else mr.1 i := by
          intro i
          rw [mupd]
          by_cases he : i = t.id
          · rw [if_pos he, if_pos he]
          · rw [if_neg he, if_neg he, mupd]
        have hnode0 : mr.1 t.id = some node := by
          rw [mupd, if_neg hpidne] at hm1
          exact hm1
        refine ⟨?_, ?_, ?_, ?_, ?_⟩
        · intro i
          dsimp only
          rw [hlook i]
          by_cases he : i = t.id
          · rw [if_pos he]
            simp only [Option.isSome_some, true_iff]
            exact he ▸ mem_taskIds_of_mem ht
          · rw [if_neg he]
            by_cases he2 : i = pid
            · rw [if_pos he2]
              simp only [Option.isSome_some, true_iff]
              exact he2 ▸ hpid_ts
            · rw [if_neg he2]
              exact hdom i
        · intro i pn hpn
          rw [show (mupd (mupd mr.1 pid
              { parent with children := parent.children ++ [t.id] }) t.id
                { node with level := parent.level + 1 }, mr.2).1
              = mupd (mupd mr.1 pid
                { parent with children := parent.children ++ [t.id] }) t.id
                  { node with level := parent.level + 1 } from rfl] at hpn
          rw [hlook i] at hpn
          by_cases he : i = t.id
          · rw [if_pos he] at hpn
            cases hpn
            exact he ▸ htasks t.id node hnode0
          · rw [if_neg he] at hpn
            by_cases he2 : i = pid
            · rw [if_pos he2] at hpn
              cases hpn
              exact he2 ▸ htasks pid parent hm
            · rw [if_neg he2] at hpn
              exact htasks i pn hpn
        · intro i pn hpn
          rw [show (mupd (mupd mr.1 pid
              { parent with children := parent.children ++ [t.id] }) t.id
                { node with level := parent.level + 1 }, mr.2).1
              = mupd (mupd mr.1 pid
                { parent with children := parent.children ++ [t.id] }) t.id
                  { node with level := parent.level + 1 } from rfl] at hpn
          rw [hlook i] at hpn
          have hfilt : ∀ i2 : Int, ¬ (i2 = pid) →
              (pre ++ [t]).filter (fun u => u.parent_id == some i2)
                = pre.filter (fun u => u.parent_id == some i2) := by
            intro i2 hne
            rw [List.filter_append]
            have : [t].filter (fun u => u.parent_id == some i2) = [] := by
              simp only [List.filter, hp]
              have : (some pid == some i2) = false := by
                simp only [beq_eq_false_iff_ne, ne_eq, Option.some_inj]
                exact fun hcc => hne (hcc ▸ rfl)
              rw [this]
            rw [this, List.append_nil]
          by_cases he : i = t.id
          · rw [if_pos he] at hpn
            cases hpn
            rw [he, hfilt t.id hpidne]
            exact hchildren t.id node hnode0
          · rw [if_neg he] at hpn
            by_cases he2 : i = pid
            · rw [if_pos he2] at hpn
              cases hpn
              subst he2
              rw [List.filter_append]
              have : [t].filter (fun u => u.parent_id == some i) = [t] := by
                simp [hp]
              rw [this, List.map_append]
              rw [hchildren i parent hm]
              rfl
            · rw [if_neg he2] at hpn
              rw [hfilt i he2]
              exact hchildren i pn hpn
        · intro i pn hpn
          rw [show (mupd (mupd mr.1 pid
              { parent with children := parent.children ++ [t.id] }) t.id
                { node with level := parent.level + 1 }, mr.2).1
              = mupd (mupd mr.1 pid
                { parent with children := parent.children ++ [t.id] }) t.id
                  { node with level := parent.level + 1 } from rfl] at hpn
          rw [hlook i] at hpn
          have hmempre : ∀ i2 : Int, ¬ (i2 = t.id) →
              ((i2 ∈ taskIds (pre ++ [t])) ↔ i2 ∈ taskIds pre) := by
            intro i2 hne
            simp only [taskIds, List.map_append, List.mem_append]
            constructor
            · rintro (h | h)
              · exact h
              · simp only [List.map_cons, List.map_nil,
                  List.mem_singleton] at h
                exact absurd h hne
            · exact Or.inl
          by_cases he : i = t.id
          · rw [if_pos he] at hpn
            cases hpn
            subst he
            rw [if_pos (by simp [taskIds])]
            have hlvlpar : parent.level = dep pid := by
              rw [hlevels pid parent hm, if_pos hppre]
            have hdt : dep t.id = dep pid + 1 := by
              have h0 := hdep t ht
              rw [hp] at h0
              exact h0
            show parent.level + 1 = dep t.id
            rw [hlvlpar, hdt]
          · rw [if_neg he] at hpn
            rw [if_congr (hmempre i he) rfl rfl]
            by_cases he2 : i = pid
            · rw [if_pos he2] at hpn
              cases hpn
              exact hlevels i parent (he2 ▸ hm)
            · rw [if_neg he2] at hpn
              exact hlevels i pn hpn
        · rw [hroots, List.filter_append]
          have : [t].filter
              (fun u => u.parent_id == (none : Option Int)) = [] := by
            simp [hp]
          rw [this, List.append_nil]

theorem pass2_inv3 (ts : List Task) (dep : Int → Nat)
    (hnd : (taskIds ts).Nodup)
    (hpos : ∀ u ∈ ts, u.id ≠ 0)
    (hres : ∀ u ∈ ts, ∀ p, u.parent_id = some p → p ∈ taskIds ts)
    (hdep : ∀ u ∈ ts, (match u.parent_id with
      | some p => dep u.id = dep p + 1
      | none => dep u.id = 0))
    (htopoIdx : ∀ (j : Nat) (hj : j < ts.length) (p : Int),
      (ts.get ⟨j, hj⟩).parent_id = some p → p ∈ taskIds (ts.take j)) :
    Inv3 ts dep ts (pass2 ts) := by
  have htopo : ∀ (pre2 : List Task) (t2 : Task) (suf2 : List Task),
      ts = pre2 ++ t2 :: suf2 → ∀ p, t2.parent_id = some p →
        p ∈ taskIds pre2 := by
    intro pre2 t2 suf2 hts p hp
    subst hts
    have hj : pre2.length < (pre2 ++ t2 :: suf2).length := by
      rw [List.length_append, List.length_cons]
      omega
    have hget : (pre2 ++ t2 :: suf2).get ⟨pre2.length, hj⟩ = t2 := by
      show (pre2 ++ t2 :: suf2)[pre2.length] = t2
      rw [List.getElem_append_right (Nat.le_refl pre2.length)]
      simp
    have htake : (pre2 ++ t2 :: suf2).take pre2.length = pre2 :=
      List.take_left pre2 (t2 :: suf2)
    have hh := htopoIdx pre2.length hj p (by rw [hget]; exact hp)
    rw [htake] at hh
    exact hh
  suffices h : ∀ (suf pre : List Task) (mr : NodeMap × List Int),
      ts = pre ++ suf → Inv3 ts dep pre mr →
      Inv3 ts dep (pre ++ suf) (suf.foldl pass2step mr) by
    have h0 : Inv3 ts dep [] (pass1 ts, []) := by
      refine ⟨pass1_dom ts, pass1_tasks ts, ?_, ?_, rfl⟩
      · intro i pn hpn
        rw [pass1_children_nil ts i pn hpn]
        rfl
      · intro i pn hpn
        rw [pass1_level_zero ts i pn hpn]
        simp [taskIds]
    have hfin := h ts [] (pass1 ts, []) rfl h0
    simpa [pass2] using hfin
  intro suf
  induction suf with
  | nil =>
    intro pre mr hts hinv
    simpa using hinv
  | cons t suf ih =>
    intro pre mr hts hinv
    rw [List.foldl_cons]
    have hstep := pass2step_inv3 ts dep hnd hpos hres hdep pre suf t hts
      (htopo pre t suf hts) mr hinv
    have hrest := ih (pre ++ [t]) (pass2step mr t) (by rw [hts]; simp) hstep
    rw [List.append_assoc] at hrest
    simpa using hrest

/-- Reachability along the recorded children lists, from node `i` down
to node `j`. -/
inductive CMem (m : NodeMap) : Int → Int → Prop where
  | refl (i : Int) : CMem m i i
  | step (i k j : Int) (pn : PreNode) (hm : m i = some pn)
      (hk : k ∈ pn.children) (h : CMem m k j) : CMem m i j

theorem cmem_snoc (m : NodeMap) (i j : Int) (h : CMem m i j) :
    ∀ (pn : PreNode) (k : Int), m j = some pn → k ∈ pn.children →
      CMem m i k := by
  induction h with
  | refl i =>
    intro pn k hm hk
    exact CMem.step i k k pn hm hk (CMem.refl k)
  | step i k2 j pn hm hk _ ih =>
    intro pn2 k hm2 hk2
    exact CMem.step i k2 k pn hm hk (ih pn2 k hm2 hk2)

/-- After the build, a recorded child is one level deeper. -/
theorem children_dep (ts : List Task) (dep : Int → Nat)
    (hdep : ∀ u ∈ ts, (match u.parent_id with
      | some p => dep u.id = dep p + 1
      | none => dep u.id = 0))
    (hinv : Inv3 ts dep ts (pass2 ts)) :
    ∀ i pn, (pass2 ts).1 i = some pn → ∀ k ∈ pn.children,
      dep k = dep i + 1 := by
  intro i pn hpn k hk
  rw [hinv.2.2.1 i pn hpn, List.mem_map] at hk
  obtain ⟨u, hu, huk⟩ := hk
  rw [List.mem_filter] at hu
  have hupar : u.parent_id = some i := by simpa using hu.2
  have h0 := hdep u hu.1
  rw [hupar] at h0
  rw [← huk]
  exact h0

theorem cmem_dep_le (ts : List Task) (dep : Int → Nat)
    (hdep : ∀ u ∈ ts, (match u.parent_id with
      | some p => dep u.id = dep p + 1
      | none => dep u.id = 0))
    (hinv : Inv3 ts dep ts (pass2 ts)) (i j : Int)
    (h : CMem (pass2 ts).1 i j) : dep i ≤ dep j := by
  induction h with
  | refl i => exact Nat.le_refl _
  | step i k j pn hm hk _ ih =>
    have := children_dep ts dep hdep hinv i pn hm k hk
    omega

/-- A recorded child id is an id of the collection. -/
theorem children_mem_ids (ts : List Task) (dep : Int → Nat)
    (hinv : Inv3 ts dep ts (pass2 ts)) :
    ∀ i pn, (pass2 ts).1 i = some pn → ∀ k ∈ pn.children,
      k ∈ taskIds ts := by
  intro i pn hpn k hk
  rw [hinv.2.2.1 i pn hpn, List.mem_map] at hk
  obtain ⟨u, hu, huk⟩ := hk
  rw [List.mem_filter] at hu
  exact huk ▸ mem_taskIds_of_mem hu.1

/-- Everything `CMem`-reachable shows up in the materialised subtree,
given enough budget relative to the depth difference. -/
theorem flat_contains (ts : List Task) (dep : Int → Nat)
    (hdep : ∀ u ∈ ts, (match u.parent_id with
      | some p => dep u.id = dep p + 1
      | none => dep u.id = 0))
    (hinv : Inv3 ts dep ts (pass2 ts)) :
    ∀ (i j : Int), CMem (pass2 ts).1 i j →
      ∀ (n : Nat), ((pass2 ts).1 i).isSome = true → dep j < dep i + n →
        ∃ tr, matN (pass2 ts).1 n i = some tr ∧
          j ∈ tr.flat.map (fun x => x.1.id) := by
  intro i j hcm
  induction hcm with
  | refl i =>
    intro n hi hn
    cases n with
    | zero => omega
    | succ n =>
      cases hmi : (pass2 ts).1 i with
      | none => rw [hmi] at hi; cases hi
      | some pn =>
        refine ⟨_, by rw [matN, hmi], ?_⟩
        rw [TTree.flat_node, List.map_cons, List.mem_cons]
        exact Or.inl (hinv.2.1 i pn hmi).2.symm
  | step i k j pn hm hk hsub ih =>
    intro n hi hn
    have hdk : dep k = dep i + 1 := children_dep ts dep hdep hinv i pn hm k hk
    have hkj : dep k ≤ dep j := cmem_dep_le ts dep hdep hinv k j hsub
    have hkdom : ((pass2 ts).1 k).isSome = true :=
      (hinv.1 k).mpr (children_mem_ids ts dep hinv i pn hm k hk)
    cases n with
    | zero => omega
    | succ n =>
      obtain ⟨trk, htrk, hjk⟩ := ih n hkdom (by omega)
      refine ⟨_, by rw [matN, hm], ?_⟩
      rw [TTree.flat_node, List.map_cons, List.mem_cons]
      right
      rw [List.mem_map] at hjk
      obtain ⟨x, hx, hxj⟩ := hjk
      rw [List.mem_map]
      refine ⟨x, ?_, hxj⟩
      rw [List.mem_flatten]
      refine ⟨trk.flat, ?_, hx⟩
      rw [List.mem_map]
      refine ⟨trk, ?_, rfl⟩
      rw [List.mem_filterMap]
      exact ⟨k, hk, htrk⟩

/-- Every member is reachable from some recorded root. -/
theorem root_reach (ts : List Task) (dep : Int → Nat)
    (hres : ∀ u ∈ ts, ∀ p, u.parent_id = some p → p ∈ taskIds ts)
    (hdep : ∀ u ∈ ts, (match u.parent_id with
      | some p => dep u.id = dep p + 1
      | none => dep u.id = 0))
    (hinv : Inv3 ts dep ts (pass2 ts)) :
    ∀ (n : Nat) (t : Task), t ∈ ts → dep t.id ≤ n →
      ∃ r ∈ (pass2 ts).2, CMem (pass2 ts).1 r t.id := by
  intro n
  induction n with
  | zero =>
    intro t ht hd
    cases hp : t.parent_id with
    | some p =>
      have h0 := hdep t ht
      rw [hp] at h0
      omega
    | none =>
      refine ⟨t.id, ?_, CMem.refl t.id⟩
      rw [hinv.2.2.2.2, List.mem_map]
      exact ⟨t, List.mem_filter.mpr ⟨ht, by simp [hp]⟩, rfl⟩
  | succ n ih =>
    intro t ht hd
    cases hp : t.parent_id with
    | none =>
      refine ⟨t.id, ?_, CMem.refl t.id⟩
      rw [hinv.2.2.2.2, List.mem_map]
      exact ⟨t, List.mem_filter.mpr ⟨ht, by simp [hp]⟩, rfl⟩
    | some p =>
      have h0 := hdep t ht
      rw [hp] at h0
      have hpids := hres t ht p hp
      rw [taskIds, List.mem_map] at hpids
      obtain ⟨u, hu, hup⟩ := hpids
      have hdepu : dep u.id ≤ n := by rw [hup]; omega
      obtain ⟨r, hr, hcm⟩ := ih u hu hdepu
      have hdomu : ((pass2 ts).1 u.id).isSome = true :=
        (hinv.1 u.id).mpr (mem_taskIds_of_mem hu)
      cases hmu : (pass2 ts).1 u.id with
      | none => rw [hmu] at hdomu; cases hdomu
      | some pnu =>
        have htc : t.id ∈ pnu.children := by
          rw [hinv.2.2.1 u.id pnu hmu, List.mem_map]
          refine ⟨t, List.mem_filter.mpr ⟨ht, ?_⟩, rfl⟩
          simp [hp, hup]
        exact ⟨r, hr, cmem_snoc (pass2 ts).1 r u.id hcm pnu t.id hmu htc⟩

/-- Ancestor chain with strictly decreasing depths, for the depth
bound. -/
theorem dep_chain (ts : List Task) (dep : Int → Nat)
    (hres : ∀ u ∈ ts, ∀ p, u.parent_id = some p → p ∈ taskIds ts)
    (hdep : ∀ u ∈ ts, (match u.parent_id with
      | some p => dep u.id = dep p + 1
      | none => dep u.id = 0)) :
    ∀ (n : Nat) (t : Task), t ∈ ts → dep t.id = n →
      ∃ c : List Task, (∀ u ∈ c, u ∈ ts) ∧
        c.map (fun u => dep u.id) = (List.range (n + 1)).reverse := by
  intro n
  induction n with
  | zero =>
    intro t ht hd
    exact ⟨[t], fun u hu => (List.mem_singleton.mp hu) ▸ ht,
      by simp [hd, List.range_succ]⟩
  | succ n ih =>
    intro t ht hd
    cases hp : t.parent_id with
    | none =>
      have h0 := hdep t ht
      rw [hp] at h0
      omega
    | some p =>
      have h0 := hdep t ht
      rw [hp] at h0
      have hpids := hres t ht p hp
      rw [taskIds, List.mem_map] at hpids
      obtain ⟨u, hu, hup⟩ := hpids
      have hdepu : dep u.id = n := by rw [hup]; omega
      obtain ⟨c, hc1, hc2⟩ := ih u hu hdepu
      refine ⟨t :: c, ?_, ?_⟩
      · intro v hv
        rcases List.mem_cons.mp hv with h | h
        · exact h ▸ ht
        · exact hc1 v h
      · rw [List.map_cons, hc2, hd]
        rw [show List.range (n + 1 + 1) = List.range (n + 1) ++ [n + 1]
          from List.range_succ (n + 1)]
        rw [List.reverse_append]
        rfl

/-- The depth of any member is below the collection size. -/
theorem dep_bound (ts : List Task) (dep : Int → Nat)
    (hres : ∀ u ∈ ts, ∀ p, u.parent_id = some p → p ∈ taskIds ts)
    (hdep : ∀ u ∈ ts, (match u.parent_id with
      | some p => dep u.id = dep p + 1
      | none => dep u.id = 0))
    (t : Task) (ht : t ∈ ts) : dep t.id < ts.length := by
  obtain ⟨c, hc1, hc2⟩ := dep_chain ts dep hres hdep (dep t.id) t ht rfl
  have hlenc : c.length = dep t.id + 1 := by
    have := congrArg List.length hc2
    simpa using this
  have hnodc : c.Nodup := by
    have : (c.map (fun u => dep u.id)).Nodup := by
      rw [hc2, List.nodup_reverse]
      exact List.nodup_range _
    exact List.Nodup.of_map _ this
  have hsub : c ⊆ ts := fun u hu => hc1 u hu
  have := (List.Nodup.subperm hnodc hsub).length_le
  omega

/-- Every pair in a materialised subtree is a member task at its
depth. -/
theorem flat_props (ts : List Task) (dep : Int → Nat)
    (hinv : Inv3 ts dep ts (pass2 ts)) :
    ∀ (fuel : Nat) (i : Int) (tr : TTree),
      matN (pass2 ts).1 fuel i = some tr →
      ∀ x ∈ tr.flat, x.1 ∈ ts ∧ x.2 = dep x.1.id := by
  intro fuel
  induction fuel with
  | zero => intro i tr h; simp [matN] at h
  | succ fuel ih =>
    intro i tr h x hx
    cases hm : (pass2 ts).1 i with
    | none => rw [matN, hm] at h; cases h
    | some pn =>
      rw [matN, hm] at h
      cases h
      rw [TTree.flat_node] at hx
      rcases List.mem_cons.mp hx with h | h
      · subst h
        refine ⟨(hinv.2.1 i pn hm).1, ?_⟩
        have hdomi : i ∈ taskIds ts := (hinv.1 i).mp (by rw [hm]; rfl)
        show pn.level = dep (pn.task.id)
        rw [hinv.2.2.2.1 i pn hm, if_pos hdomi, (hinv.2.1 i pn hm).2]
      · rw [List.mem_flatten] at h
        obtain ⟨l2, hl2, hxl2⟩ := h
        rw [List.mem_map] at hl2
        obtain ⟨tc, htc, rfl⟩ := hl2
        rw [List.mem_filterMap] at htc
        obtain ⟨c, _, hmc⟩ := htc
        exact ih c tc hmc x hxl2

/-- C3 (amended): for a duplicate-free, nonzero-id, fully resolvable,
acyclic collection (witnessed by a depth function `dep` satisfying the
ancestor-count recurrence) whose tasks are listed parents-first, the
pre-order flattening of the built forest carries exactly the input ids,
and every flattened node sits at `level = dep id` — its number of
ancestors.  (Without the parents-first ordering the id-set statement
still holds but the level statement fails, see the counterexample.) -/
theorem c3_amended (ts : List Task) (dep : Int → Nat)
    (hnd : (taskIds ts).Nodup)
    (hpos : ∀ u ∈ ts, u.id ≠ 0)
    (hres : ∀ u ∈ ts, ∀ p, u.parent_id = some p → p ∈ taskIds ts)
    (hdep : ∀ u ∈ ts, (match u.parent_id with
      | some p => dep u.id = dep p + 1
      | none => dep u.id = 0))
    (htopoIdx : ∀ (j : Nat) (hj : j < ts.length) (p : Int),
      (ts.get ⟨j, hj⟩).parent_id = some p → p ∈ taskIds (ts.take j)) :
    (∀ j : Int, j ∈ (forestFlat (buildTaskTree ts)).map (fun x => x.1.id)
        ↔ j ∈ taskIds ts) ∧
      (∀ x ∈ forestFlat (buildTaskTree ts), x.2 = dep x.1.id) := by
  have hinv := pass2_inv3 ts dep hnd hpos hres hdep htopoIdx
  have hdecomp : ∀ x, x ∈ forestFlat (buildTaskTree ts) ↔
      ∃ r ∈ (pass2 ts).2, ∃ tr,
        matN (pass2 ts).1 (ts.length + 1) r = some tr ∧ x ∈ tr.flat := by
    intro x
    rw [forestFlat, List.mem_flatten]
    constructor
    · rintro ⟨l2, hl2, hx⟩
      rw [List.mem_map] at hl2
      obtain ⟨tr, htr, rfl⟩ := hl2
      rw [buildTaskTree, List.mem_filterMap] at htr
      obtain ⟨r, hr, hmr⟩ := htr
      exact ⟨r, hr, tr, hmr, hx⟩
    · rintro ⟨r, hr, tr, hmr, hx⟩
      refine ⟨tr.flat, ?_, hx⟩
      rw [List.mem_map]
      refine ⟨tr, ?_, rfl⟩
      rw [buildTaskTree, List.mem_filterMap]
      exact ⟨r, hr, hmr⟩
  constructor
  · intro j
    constructor
    · intro hj
      rw [List.mem_map] at hj
      obtain ⟨x, hx, rfl⟩ := hj
      obtain ⟨r, _, tr, hmr, hxtr⟩ := (hdecomp x).mp hx
      exact mem_taskIds_of_mem (flat_props ts dep hinv _ r tr hmr x hxtr).1
    · intro hj
      rw [taskIds, List.mem_map] at hj
      obtain ⟨u, hu, rfl⟩ := hj
      obtain ⟨r, hr, hcm⟩ := root_reach ts dep hres hdep hinv
        (dep u.id) u hu (Nat.le_refl _)
      have hrdom : ((pass2 ts).1 r).isSome = true := by
        rw [hinv.2.2.2.2, List.mem_map] at hr
        obtain ⟨w, hw, hwr⟩ := hr
        rw [List.mem_filter] at hw
        exact (hinv.1 r).mpr (hwr ▸ mem_taskIds_of_mem hw.1)
      have hbound : dep u.id < dep r + (ts.length + 1) := by
        have := dep_bound ts dep hres hdep u hu
        omega
      obtain ⟨tr, hmr, hjtr⟩ := flat_contains ts dep hdep hinv r u.id hcm
        (ts.length + 1) hrdom hbound
      rw [List.mem_map] at hjtr
      obtain ⟨x, hx, hxu⟩ := hjtr
      rw [List.mem_map]
      -- hr was consumed above; re-derive membership of the root list
      obtain ⟨r2, hr2, hcm2⟩ := root_reach ts dep hres hdep hinv
        (dep u.id) u hu (Nat.le_refl _)
      exact ⟨x, (hdecomp x).mpr ⟨r, by
        rw [hinv.2.2.2.2]
        rw [hinv.2.2.2.2] at hr
        exact hr, tr, hmr, hx⟩, hxu⟩
  · intro x hx
    obtain ⟨r, _, tr, hmr, hxtr⟩ := (hdecomp x).mp hx
    exact (flat_props ts dep hinv _ r tr hmr x hxtr).2

/-- The out-of-order chain: the child 3 and the middle task 2 precede
their parents in the list. -/
def c3ex : List Task := [mkT 3 (some 2), mkT 2 (some 1), mkT 1 none]

/-- The ancestor-count function of `c3ex`. -/
def c3dep : Int → Nat := fun i => if i = 3 then 2 else if i = 2 then 1 else 0

/-- C3: on an acyclic, fully resolvable collection (ids distinct and
nonzero, depths witnessed by `c3dep`), the flattened forest does carry
exactly the input ids — but the node with id 3 gets `level` 1 although
it has 2 ancestors: the builder reads the parent's level before that
parent has been processed. -/
theorem c3_counterexample :
    (taskIds c3ex).Nodup ∧ (∀ u ∈ c3ex, u.id ≠ 0) ∧
      (∀ u ∈ c3ex, ∀ p, u.parent_id = some p → p ∈ taskIds c3ex) ∧
      (∀ u ∈ c3ex, (match u.parent_id with
        | some p => c3dep u.id = c3dep p + 1
        | none => c3dep u.id = 0)) ∧
      (forestFlat (buildTaskTree c3ex)).map (fun x => (x.1.id, x.2))
        = [(1, 0), (2, 1), (3, 1)] ∧
      c3dep 3 = 2 ∧ (1 : Nat) ≠ 2 := by
  refine ⟨by decide, by decide, by decide, ?_, ?_, by decide, by decide⟩
  · intro u hu
    fin_cases hu <;> simp [mkT, c3dep]
  · have hbt : buildTaskTree c3ex
        = [TTree.node (mkT 1 none) 0
            [TTree.node (mkT 2 (some 1)) 1
              [TTree.node (mkT 3 (some 2)) 1 []]]] := by rfl
    rw [forestFlat, hbt]
    simp [TTree.flat_node, mkT, c3dep]

/-- The parents-first chain for the C3 witness. -/
def c3exW : List Task := [mkT 1 none, mkT 2 (some 1), mkT 3 (some 2)]

/-- C3 amended witness: on the parents-first chain the flattening is
exact in ids and levels. -/
theorem c3_witness :
    (taskIds c3exW).Nodup ∧
      ((∀ j : Int, j ∈ (forestFlat (buildTaskTree c3exW)).map
            (fun x => x.1.id) ↔ j ∈ taskIds c3exW) ∧
        (∀ x ∈ forestFlat (buildTaskTree c3exW), x.2 = c3dep x.1.id)) ∧
      (forestFlat (buildTaskTree c3exW)).map (fun x => (x.1.id, x.2))
        = [(1, 0), (2, 1), (3, 2)] := by
  refine ⟨by decide, ?_, ?_⟩
  · refine c3_amended c3exW c3dep (by decide) (by decide) (by decide) ?_ ?_
    · intro u hu
      fin_cases hu <;> simp [mkT, c3dep]
    · decide
  · have hbt : buildTaskTree c3exW
        = [TTree.node (mkT 1 none) 0
            [TTree.node (mkT 2 (some 1)) 1
              [TTree.node (mkT 3 (some 2)) 2 []]]] := by rfl
    rw [forestFlat, hbt]
    simp [TTree.flat_node, mkT, c3dep]

/-! ## JavaScript string model for the codecs

The codec functions only split on single characters, concatenate,
globally remove `"`, trim, and run one fixed regular expression, so
JavaScript strings are modelled as plain character lists. -/

/-- A JavaScript string. -/
abbrev JStr := List Char

/-- Literal helper. -/
def str (s : String) : JStr := s.toList

/-- `String.prototype.split` with a single-character separator (JS
semantics: `"".split(c) = [""]`, trailing separators produce empty
pieces). -/
def splitOnChar (sep : Char) : JStr → List JStr
  | [] => [[]]
  | c :: cs =>
    match splitOnChar sep cs with
    | [] => [[]]
    | h :: t => if c = sep then [] :: h :: t else (c :: h) :: t

/-- The whitespace class of `trim` / `parseInt` (ASCII part of `\s`). -/
def isWSChar (c : Char) : Bool :=
  c = ' ' || c = '\t' || c = '\n' || c = '\r' || c = '\x0b' || c = '\x0c'

/-- Truthiness of `s.trim()`: some non-whitespace character remains. -/
def trimTruthy (l : JStr) : Bool := l.any (fun c => ! isWSChar c)

/-- The digit prefix value. -/
def digitsToNat (l : JStr) : Nat :=
  l.foldl (fun a c => a * 10 + (c.toNat - 48)) 0

/-- JavaScript `parseInt` in base 10: skip whitespace, optional sign,
then the digit prefix; `none` models `NaN`. -/
def parseIntJS (l : JStr) : Option Int :=
  let l1 := l.dropWhile isWSChar
  match l1 with
  | '-' :: rest =>
    let d := rest.takeWhile Char.isDigit
    if d = [] then none else some (-(digitsToNat d : Int))
  | '+' :: rest =>
    let d := rest.takeWhile Char.isDigit
    if d = [] then none else some ((digitsToNat d : Int))
  | _ =>
    let d := l1.takeWhile Char.isDigit
    if d = [] then none else some ((digitsToNat d : Int))

/-- `String(n)` for an integral JavaScript number. -/
def intToJStr (n : Int) : JStr := (toString n).toList

/-! ## CSV codec (`convertToCSV` / `parseCSV`, ExportImport.tsx) -/

/-- `Array.prototype.join` with separator `sep` (join of `[]` is `""`). -/
def joinSep (sep : JStr) : List JStr → JStr
  | [] => []
  | [p] => p
  | p :: q :: rest => p ++ sep ++ joinSep sep (q :: rest)

/-- `"${String(field).replace(/"/g, '""')}"`: RFC-4180 quoting. -/
def quoteField (f : JStr) : JStr :=
  '"' :: (f.map (fun c => if c = '"' then ['"', '"'] else [c])).flatten
    ++ ['"']

/-- The seven cell values of a task's CSV row, in column order.  The
date serialisation (`Date.prototype.toISOString`) is passed in as
`toISO`; `task.parent_id || ''` makes a zero parent id falsy. -/
def csvFieldsOf (toISO : Int → JStr) (t : Task) : List JStr :=
  [t.title.toList,
   t.description.toList,
   t.status.toList,
   (match t.deadline with | some d => toISO d | none => []),
   (match t.parent_id with
    | some p => if p = 0 then [] else intToJStr p
    | none => []),
   joinSep [';'] (t.labels.map String.toList),
   intToJStr t.priority]

/-- The header row cells. -/
def csvHeaders : List JStr :=
  [str "Title", str "Description", str "Status", str "Deadline",
   str "Parent ID", str "Labels", str "Priority"]

/-- `convertToCSV`: header row plus one quoted row per task, comma
separated cells, newline separated rows. -/
def convertToCSV (toISO : Int → JStr) (tasks : List Task) : JStr :=
  joinSep ['\n']
    ((csvHeaders :: tasks.map (csvFieldsOf toISO)).map
      (fun row => joinSep [','] (row.map quoteField)))

/-- A decoded CSV record (the dynamic `task: any` object).  A column
that never occurs leaves the JavaScript field `undefined`; since every
downstream read of these fields is either a truthiness test or has a
`|| default`, `undefined` is behaviourally identical to the defaults
chosen here (empty string, `none`, `[]`, `0`).  A non-numeric nonempty
`Parent ID` cell gives JavaScript `NaN` (falsy downstream), modelled as
`none`; the claims never touch that cell. -/
structure RawRec where
  title : JStr
  description : JStr
  status : JStr
  deadline : Option Int
  parent_id : Option Int
  labels : List JStr
  priority : Int
deriving DecidableEq, Repr

/-- The all-`undefined` record `{}`. -/
def emptyRaw : RawRec :=
  { title := [], description := [], status := [], deadline := none
    parent_id := none, labels := [], priority := 0 }

/-- One arm of the `switch (header.toLowerCase())`. -/
def applyHeader (fromISO : JStr → Int) (rec : RawRec) (hdr : JStr)
    (value : JStr) : RawRec :=
  let lower := hdr.map Char.toLower
  if lower = str "title" then { rec with title := value }
  else if lower = str "description" then { rec with description := value }
  else if lower = str "status" then { rec with status := value }
  else if lower = str "deadline" then
    { rec with deadline := if value = [] then none else some (fromISO value) }
  else if lower = str "parent id" then
    { rec with parent_id := if value = [] then none else parseIntJS value }
  else if lower = str "labels" then
    { rec with labels := if value = [] then [] else splitOnChar ';' value }
  else if lower = str "priority" then
    { rec with priority := (parseIntJS value).getD 0 }
  else rec

/-- Build one record from the header row and a value row
(`headers.forEach((header, index) => ...)`). -/
def buildRec (fromISO : JStr → Int) (headers values : List JStr) : RawRec :=
  headers.enum.foldl
    (fun rec p => applyHeader fromISO rec p.2 (values.getD p.1 []))
    emptyRaw

/-- The body of the `parseCSV` row loop: a nonblank row is naively
split on commas, all quotes are stripped, and the record is kept when
its title cell is truthy. -/
def csvStep (fromISO : JStr → Int) (headers : List JStr)
    (acc : List RawRec) (line : JStr) : List RawRec :=
  if trimTruthy line then
    let values := (splitOnChar ',' line).map
      (fun v => v.filter (fun c => ! (c = '"')))
    let rec2 := buildRec fromISO headers values
    if rec2.title ≠ [] then acc ++ [rec2] else acc
  else acc

/-- `parseCSV`: the header row decides the columns; every later
nonblank row yields at most one record. -/
def parseCSV (fromISO : JStr → Int) (content : JStr) : List RawRec :=
  let lines := splitOnChar '\n' content
  let headers := (splitOnChar ',' (lines.headD [])).map
    (fun h => h.filter (fun c => ! (c = '"')))
  (lines.drop 1).foldl (csvStep fromISO headers) []

/-- `split` never returns an empty list. -/
theorem splitOnChar_ne_nil (sep : Char) (l : JStr) : splitOnChar sep l ≠ [] := by
  cases l with
  | nil => simp [splitOnChar]
  | cons c cs =>
    simp only [splitOnChar]
    cases splitOnChar sep cs with
    | nil => simp
    | cons a t => by_cases hc : c = sep <;> simp [hc]

/-- Splitting a separator-free string is the identity. -/
theorem splitOnChar_sepfree (sep : Char) (l : JStr) (h : sep ∉ l) :
    splitOnChar sep l = [l] := by
  induction l with
  | nil => rfl
  | cons c cs ih =>
    have hc : ¬ c = sep := by intro he; exact h (by simp [he])
    have hcs : sep ∉ cs := fun hm => h (List.mem_cons_of_mem _ hm)
    simp only [splitOnChar, ih hcs]
    simp [hc]

/-- Splitting peels off a separator-free prefix. -/
theorem splitOnChar_append (sep : Char) (a b : JStr) (h : sep ∉ a) :
    splitOnChar sep (a ++ sep :: b) = a :: splitOnChar sep b := by
  induction a with
  | nil =>
    simp only [List.nil_append, splitOnChar]
    cases hs : splitOnChar sep b with
    | nil => exact absurd hs (splitOnChar_ne_nil sep b)
    | cons x t => simp
  | cons c cs ih =>
    have hc : ¬ c = sep := by intro he; exact h (by simp [he])
    have hcs : sep ∉ cs := fun hm => h (List.mem_cons_of_mem _ hm)
    simp only [List.cons_append, splitOnChar, List.append_eq]
    rw [ih hcs]
    simp [hc]

/-- `split` inverts `join` when the pieces are separator-free. -/
theorem splitOnChar_joinSep (sep : Char) :
    ∀ ps : List JStr, ps ≠ [] → (∀ p ∈ ps, sep ∉ p) →
      splitOnChar sep (joinSep [sep] ps) = ps
  | [], h, _ => absurd rfl h
  | [p], _, hps => by
      simp only [joinSep]
      exact splitOnChar_sepfree sep p (hps p (by simp))
  | p :: q :: rest, _, hps => by
      simp only [joinSep]
      have ha : p ++ [sep] ++ joinSep [sep] (q :: rest)
          = p ++ sep :: joinSep [sep] (q :: rest) := by simp
      rw [ha, splitOnChar_append sep p _ (hps p (by simp))]
      rw [splitOnChar_joinSep sep (q :: rest) (by simp)
        (fun x hx => hps x (List.mem_cons_of_mem _ hx))]

/-- Characters of a join come from the separator or from a piece. -/
theorem mem_joinSep {c : Char} (sep : JStr) :
    ∀ ps : List JStr, c ∈ joinSep sep ps → c ∈ sep ∨ ∃ p ∈ ps, c ∈ p
  | [], h => absurd h (List.not_mem_nil c)
  | [p], h => Or.inr ⟨p, by simp, h⟩
  | p :: q :: rest, h => by
      simp only [joinSep, List.mem_append] at h
      rcases h with (h | h) | h
      · exact Or.inr ⟨p, by simp, h⟩
      · exact Or.inl h
      · rcases mem_joinSep sep (q :: rest) h with h2 | ⟨x, hx, hcx⟩
        · exact Or.inl h2
        · exact Or.inr ⟨x, List.mem_cons_of_mem _ hx, hcx⟩

/-- A join starts with its first piece. -/
theorem joinSep_cons_head (sep : JStr) (p : JStr) (ps : List JStr) :
    ∃ r, joinSep sep (p :: ps) = p ++ r := by
  cases ps with
  | nil => exact ⟨[], by simp [joinSep]⟩
  | cons q rest => exact ⟨sep ++ joinSep sep (q :: rest), by simp [joinSep]⟩

/-- Quote doubling is the identity on a quote-free field. -/
theorem dupQuotes_noquote (f : JStr) (h : '"' ∉ f) :
    (f.map (fun c => if c = '"' then ['"', '"'] else [c])).flatten = f := by
  induction f with
  | nil => rfl
  | cons c cs ih =>
    have hc : ¬ c = '"' := by intro he; exact h (by simp [he])
    have hcs : '"' ∉ cs := fun hm => h (List.mem_cons_of_mem _ hm)
    simp [hc, ih hcs]

/-- On a quote-free field the CSV quoting just wraps in quotes. -/
theorem quoteField_noquote (f : JStr) (h : '"' ∉ f) :
    quoteField f = '"' :: f ++ ['"'] := by
  simp only [quoteField, dupQuotes_noquote f h]

/-- Stripping all quotes undoes the quoting of a quote-free field. -/
theorem strip_quoteField (f : JStr) (h : '"' ∉ f) :
    (quoteField f).filter (fun c => ! (c = '"')) = f := by
  rw [quoteField_noquote f h]
  have hf : f.filter (fun c => ! (c = '"')) = f :=
    List.filter_eq_self.mpr (fun a ha => by
      simp only [Bool.not_eq_true', decide_eq_false_iff_not]
      intro he; exact h (he ▸ ha))
  simp [List.filter_cons, List.filter_append, hf]

/-- Characters of a quoted field are quotes or field characters. -/
theorem mem_quoteField {c : Char} {f : JStr} (h : c ∈ quoteField f) :
    c = '"' ∨ c ∈ f := by
  simp only [quoteField, List.mem_append, List.mem_cons] at h
  rcases h with (h | h) | h | h
  · exact Or.inl h
  · rcases List.mem_flatten.mp h with ⟨l, hl, hcl⟩
    rcases List.mem_map.mp hl with ⟨x, hx, hxl⟩
    by_cases hq : x = '"'
    · rw [← hxl, if_pos hq] at hcl
      rcases List.mem_cons.mp hcl with h2 | h2
      · exact Or.inl h2
      · exact Or.inl (by simpa using h2)
    · rw [← hxl, if_neg hq] at hcl
      have hcx : c = x := by simpa using hcl
      exact Or.inr (hcx ▸ hx)
  · exact Or.inl h
  · exact absurd h (List.not_mem_nil c)

/-- `Nat.toDigitsCore` only ever emits decimal digit characters (base
10, accumulator aside). -/
theorem mem_toDigitsCore : ∀ (fuel n : Nat) (acc : List Char) (c : Char),
    c ∈ Nat.toDigitsCore 10 fuel n acc → c ∈ acc ∨ c.isDigit = true := by
  intro fuel
  induction fuel with
  | zero => intro n acc c h; simp [Nat.toDigitsCore] at h; exact Or.inl h
  | succ f ih =>
    intro n acc c h
    simp only [Nat.toDigitsCore] at h
    by_cases hz : n / 10 = 0
    · rw [if_pos hz] at h
      rcases List.mem_cons.mp h with h | h
      · right
        have hm : n % 10 < 10 := Nat.mod_lt n (by decide)
        interval_cases hd : (n % 10) <;> (rw [h]; decide)
      · exact Or.inl h
    · rw [if_neg hz] at h
      rcases ih (n / 10) (Nat.digitChar (n % 10) :: acc) c h with h | h
      · rcases List.mem_cons.mp h with h | h
        · right
          have hm : n % 10 < 10 := Nat.mod_lt n (by decide)
          interval_cases hd : (n % 10) <;> (rw [h]; decide)
        · exact Or.inl h
      · exact Or.inr h

/-- The decimal rendering of an integer consists of digits and `-`. -/
theorem mem_intToJStr {c : Char} {n : Int} (h : c ∈ intToJStr n) :
    c.isDigit = true ∨ c = '-' := by
  cases n with
  | ofNat m =>
    have h2 : c ∈ Nat.toDigits 10 m := h
    rcases mem_toDigitsCore (m + 1) m [] c h2 with h3 | h3
    · exact absurd h3 (List.not_mem_nil c)
    · exact Or.inl h3
  | negSucc m =>
    have h2 : c ∈ '-' :: Nat.toDigits 10 (m + 1) := h
    rcases List.mem_cons.mp h2 with h3 | h3
    · exact Or.inr h3
    · rcases mem_toDigitsCore (m + 2) (m + 1) [] c h3 with h4 | h4
      · exact absurd h4 (List.not_mem_nil c)
      · exact Or.inl h4

/-- Cell safety for the naive CSV parser: no separator, quote or
newline characters. -/
def csvSafeCell (l : JStr) : Bool :=
  l.all (fun c => ! (c = ',') && ! (c = '"') && ! (c = '\n'))

/-- Unpacking cell safety for one character. -/
theorem csvSafeCell_mem {l : JStr} (h : csvSafeCell l = true) {c : Char}
    (hc : c ∈ l) : ¬ c = ',' ∧ ¬ c = '"' ∧ ¬ c = '\n' := by
  simp only [csvSafeCell, List.all_eq_true] at h
  have h2 := h c hc
  simp only [Bool.and_eq_true, Bool.not_eq_true',
    decide_eq_false_iff_not] at h2
  exact ⟨h2.1.1, h2.1.2, h2.2⟩

/-- An integer rendering is a safe cell. -/
theorem intToJStr_safe (n : Int) : csvSafeCell (intToJStr n) = true := by
  simp only [csvSafeCell, List.all_eq_true]
  intro c hc
  simp only [Bool.and_eq_true, Bool.not_eq_true', decide_eq_false_iff_not]
  rcases mem_intToJStr hc with h | h
  · have hd : 48 ≤ c.val ∧ c.val ≤ 57 := by
      simpa [Char.isDigit, ge_iff_le] using h
    refine ⟨⟨fun he => ?_, fun he => ?_⟩, fun he => ?_⟩ <;>
      (rw [he] at hd; exact absurd hd.1 (by decide))
  · refine ⟨⟨fun he => ?_, fun he => ?_⟩, fun he => ?_⟩ <;>
      (rw [he] at h; exact absurd h (by decide))

/-- The round-trip hypotheses for one task: safe characters in the text
fields, a nonempty title, a status the import validation accepts,
labels that are nonempty and free of the label separator `;`, and a
priority in the UI range 0..5. -/
def csvSafe (t : Task) : Bool :=
  csvSafeCell t.title.toList && csvSafeCell t.description.toList &&
  csvSafeCell t.status.toList &&
  ! (t.title = "") && validStatuses.contains t.status &&
  t.labels.all (fun s =>
    ! (s = "") && ! (';' ∈ s.toList) && csvSafeCell s.toList) &&
  0 ≤ t.priority && t.priority ≤ 5

/-- The parsed `any` record viewed as a `Task`, the shape in which the
`importTasks` validation reads it (fields the CSV columns never set
keep their JavaScript-falsy defaults). -/
def rawTask (r : RawRec) : Task :=
  { id := 0
    title := String.mk r.title
    description := String.mk r.description
    status := String.mk r.status
    deadline := r.deadline
    parent_id := r.parent_id
    created_at := 0
    updated_at := 0
    labels := r.labels.map String.mk
    priority := r.priority }

/-- The record the CSV round trip produces for one safe task. -/
def csvRec (toISO : Int → JStr) (fromISO : JStr → Int) (t : Task) :
    RawRec :=
  { title := t.title.toList
    description := t.description.toList
    status := t.status.toList
    deadline := match t.deadline with
      | some d => if toISO d = [] then none else some (fromISO (toISO d))
      | none => none
    parent_id := match t.parent_id with
      | some p => if p = 0 then none else parseIntJS (intToJStr p)
      | none => none
    labels := if t.labels = [] then [] else t.labels.map String.toList
    priority := (parseIntJS (intToJStr t.priority)).getD 0 }

/-- The `createTask` payload the import loop builds from a decoded
record (`ExportImport.importTasks`). -/
def toCreateData (r : RawRec) : CreateTaskData :=
  { title := String.mk r.title
    description := some (String.mk r.description)
    status := some (String.mk r.status)
    deadline := r.deadline
    parent_id := r.parent_id
    labels := some (r.labels.map String.mk)
    priority := some r.priority }

/-- One row of the exported CSV, before joining with newlines. -/
def rowLine (toISO : Int → JStr) (t : Task) : JStr :=
  joinSep [','] ((csvFieldsOf toISO t).map quoteField)

/-- The exported header row. -/
def headerLine : JStr := joinSep [','] (csvHeaders.map quoteField)

/-- Map two functions that agree on a list. -/
theorem map_congr_mem {α β : Type} {f g : α → β} :
    ∀ {l : List α}, (∀ a ∈ l, f a = g a) → l.map f = l.map g
  | [], _ => rfl
  | a :: l, h => by
    simp only [List.map_cons]
    rw [h a (by simp),
      map_congr_mem (fun x hx => h x (List.mem_cons_of_mem _ hx))]

/-- Cell safety as three non-membership facts. -/
theorem csvSafeCell_props {l : JStr} (h : csvSafeCell l = true) :
    ',' ∉ l ∧ '"' ∉ l ∧ '\n' ∉ l := by
  refine ⟨fun hm => ?_, fun hm => ?_, fun hm => ?_⟩
  · exact (csvSafeCell_mem h hm).1 rfl
  · exact (csvSafeCell_mem h hm).2.1 rfl
  · exact (csvSafeCell_mem h hm).2.2 rfl

/-- `Nat.toDigitsCore` never returns an empty list when it has fuel. -/
theorem toDigitsCore_ne_nil : ∀ (fuel n : Nat) (acc : List Char),
    Nat.toDigitsCore 10 (fuel + 1) n acc ≠ [] := by
  intro fuel
  induction fuel with
  | zero =>
    intro n acc
    simp only [Nat.toDigitsCore]
    by_cases hz : n / 10 = 0 <;> simp [hz, Nat.toDigitsCore]
  | succ f ih =>
    intro n acc
    simp only [Nat.toDigitsCore]
    by_cases hz : n / 10 = 0
    · simp [hz]
    · rw [if_neg hz]
      exact ih (n / 10) (Nat.digitChar (n % 10) :: acc)

/-- The decimal rendering of an integer is never the empty string. -/
theorem intToJStr_ne_nil (n : Int) : intToJStr n ≠ [] := by
  cases n with
  | ofNat m =>
    have he : intToJStr (Int.ofNat m) = Nat.toDigitsCore 10 (m + 1) m [] :=
      rfl
    rw [he]
    exact toDigitsCore_ne_nil m m []
  | negSucc m =>
    have he : intToJStr (Int.negSucc m)
        = '-' :: Nat.toDigits 10 (m + 1) := rfl
    rw [he]
    simp

/-- All seven cells of a safe task's row are safe. -/
theorem csvFieldsOf_safe (toISO : Int → JStr) (t : Task)
    (hs : csvSafe t = true)
    (hdl : ∀ d, t.deadline = some d → csvSafeCell (toISO d) = true) :
    ∀ f ∈ csvFieldsOf toISO t, ',' ∉ f ∧ '"' ∉ f ∧ '\n' ∉ f := by
  simp only [csvSafe, Bool.and_eq_true] at hs
  obtain ⟨⟨⟨⟨⟨⟨⟨hti, hde⟩, hst⟩, _⟩, _⟩, hlab⟩, _⟩, _⟩ := hs
  intro f hf
  simp only [csvFieldsOf, List.mem_cons] at hf
  rcases hf with hf | hf | hf | hf | hf | hf | hf | hf
  · exact hf ▸ csvSafeCell_props hti
  · exact hf ▸ csvSafeCell_props hde
  · exact hf ▸ csvSafeCell_props hst
  · subst hf
    cases ht : t.deadline with
    | none => simp
    | some d => exact csvSafeCell_props (hdl d ht)
  · subst hf
    cases hp : t.parent_id with
    | none => simp
    | some p =>
      by_cases hz : p = 0
      · simp [hz]
      · simp only [hz, if_false]
        exact csvSafeCell_props (intToJStr_safe p)
  · subst hf
    refine ⟨fun hm => ?_, fun hm => ?_, fun hm => ?_⟩ <;>
    · rcases mem_joinSep [';'] _ hm with h | ⟨p, hp, hcp⟩
      · simp at h
      · rcases List.mem_map.mp hp with ⟨s, hsmem, rfl⟩
        have hsl := List.all_eq_true.mp hlab s hsmem
        simp only [Bool.and_eq_true] at hsl
        have := csvSafeCell_props hsl.2
        first
          | exact this.1 hcp
          | exact this.2.1 hcp
          | exact this.2.2 hcp
  · exact hf ▸ csvSafeCell_props (intToJStr_safe t.priority)
  · simp at hf

/-- Stripping quotes after the naive comma split recovers the cells of
one quoted row when every cell is comma- and quote-free. -/
theorem row_roundtrip (cells : List JStr) (hne : cells ≠ [])
    (hsafe : ∀ f ∈ cells, ',' ∉ f ∧ '"' ∉ f) :
    (splitOnChar ',' (joinSep [','] (cells.map quoteField))).map
      (fun v => v.filter (fun c => ! (c = '"'))) = cells := by
  have hsplit : splitOnChar ',' (joinSep [','] (cells.map quoteField))
      = cells.map quoteField := by
    apply splitOnChar_joinSep
    · simpa using hne
    · intro p hp
      rcases List.mem_map.mp hp with ⟨f, hf, rfl⟩
      intro hcm
      rcases mem_quoteField hcm with h | h
      · exact absurd h (by decide)
      · exact (hsafe f hf).1 h
  rw [hsplit, List.map_map]
  have hmap : cells.map
        ((fun v => v.filter (fun c => ! (c = '"'))) ∘ quoteField)
      = cells.map id :=
    map_congr_mem (fun f hf => strip_quoteField f (hsafe f hf).2)
  rw [hmap, List.map_id]

/-- `buildRec` over the exported header row reads the seven columns
positionally. -/
theorem buildRec_headers (f : JStr → Int) (v : List JStr) :
    buildRec f csvHeaders v =
      { title := v.getD 0 []
        description := v.getD 1 []
        status := v.getD 2 []
        deadline := if v.getD 3 [] = [] then none
          else some (f (v.getD 3 []))
        parent_id := if v.getD 4 [] = [] then none
          else parseIntJS (v.getD 4 [])
        labels := if v.getD 5 [] = [] then []
          else splitOnChar ';' (v.getD 5 [])
        priority := (parseIntJS (v.getD 6 [])).getD 0 } := by
  rfl

/-- A row is never blank: it starts with a quote. -/
theorem trimTruthy_rowLine (toISO : Int → JStr) (t : Task) :
    trimTruthy (rowLine toISO t) = true := by
  obtain ⟨r, hr⟩ := joinSep_cons_head [','] (quoteField t.title.toList)
    (((csvFieldsOf toISO t).map quoteField).tail)
  have hrl : rowLine toISO t = quoteField t.title.toList ++ r := by
    rw [rowLine]
    have hm : (csvFieldsOf toISO t).map quoteField
        = quoteField t.title.toList
          :: ((csvFieldsOf toISO t).map quoteField).tail := rfl
    rw [hm, hr]
  rw [hrl, quoteField]
  simp [trimTruthy, isWSChar]

/-- A safe task's row contains no newline. -/
theorem rowLine_nl_free (toISO : Int → JStr) (t : Task)
    (hs : csvSafe t = true)
    (hdl : ∀ d, t.deadline = some d → csvSafeCell (toISO d) = true) :
    '\n' ∉ rowLine toISO t := by
  intro hm
  rcases mem_joinSep [','] _ hm with h | ⟨p, hp, hcp⟩
  · simp at h
  · rcases List.mem_map.mp hp with ⟨f, hf, rfl⟩
    rcases mem_quoteField hcp with h | h
    · exact absurd h (by decide)
    · exact (csvFieldsOf_safe toISO t hs hdl f hf).2.2 h

/-- Processing a safe task's row appends exactly its record. -/
theorem csvStep_row (toISO : Int → JStr) (fromISO : JStr → Int) (t : Task)
    (hs : csvSafe t = true)
    (hdl : ∀ d, t.deadline = some d → csvSafeCell (toISO d) = true)
    (acc : List RawRec) :
    csvStep fromISO csvHeaders acc (rowLine toISO t)
      = acc ++ [csvRec toISO fromISO t] := by
  have hs2 := hs
  simp only [csvSafe, Bool.and_eq_true] at hs2
  obtain ⟨⟨⟨⟨⟨⟨⟨_, _⟩, _⟩, htne⟩, _⟩, hlab⟩, _⟩, _⟩ := hs2
  have htne2 : ¬ t.title = "" := by simpa using htne
  have htl : t.title.toList ≠ [] := by
    intro h0
    have hs0 : t.title = String.mk t.title.toList := rfl
    rw [h0] at hs0
    exact htne2 hs0
  have hvals : (splitOnChar ',' (rowLine toISO t)).map
      (fun v => v.filter (fun c => ! (c = '"'))) = csvFieldsOf toISO t := by
    apply row_roundtrip
    · simp [csvFieldsOf]
    · intro f hf
      have hsafe := csvFieldsOf_safe toISO t hs hdl f hf
      exact ⟨hsafe.1, hsafe.2.1⟩
  have hgd0 : (csvFieldsOf toISO t).getD 0 [] = t.title.toList := rfl
  have hgd1 : (csvFieldsOf toISO t).getD 1 [] = t.description.toList := rfl
  have hgd2 : (csvFieldsOf toISO t).getD 2 [] = t.status.toList := rfl
  have hgd3 : (csvFieldsOf toISO t).getD 3 []
      = (match t.deadline with | some d => toISO d | none => []) := rfl
  have hgd4 : (csvFieldsOf toISO t).getD 4 []
      = (match t.parent_id with
         | some p => if p = 0 then [] else intToJStr p
         | none => []) := rfl
  have hgd5 : (csvFieldsOf toISO t).getD 5 []
      = joinSep [';'] (t.labels.map String.toList) := rfl
  have hgd6 : (csvFieldsOf toISO t).getD 6 [] = intToJStr t.priority := rfl
  have hrec : buildRec fromISO csvHeaders (csvFieldsOf toISO t)
      = csvRec toISO fromISO t := by
    rw [buildRec_headers, hgd0, hgd1, hgd2, hgd3, hgd4, hgd5, hgd6]
    simp only [csvRec]
    rw [RawRec.mk.injEq]
    refine ⟨rfl, rfl, rfl, ?_, ?_, ?_, rfl⟩
    · cases ht : t.deadline with
      | none => simp
      | some d => rfl
    · cases hp : t.parent_id with
      | none => simp
      | some p =>
        by_cases hz : p = 0
        · simp [hz]
        · simp only [hz, if_false, if_neg (intToJStr_ne_nil p)]
    · cases hl : t.labels with
      | nil => simp [joinSep]
      | cons s ls =>
        have hsl := List.all_eq_true.mp hlab s (by rw [hl]; simp)
        simp only [Bool.and_eq_true] at hsl
        have hsne : ¬ s = "" := by simpa using hsl.1.1
        have hstl : s.toList ≠ [] := by
          intro h0
          have hs0 : s = String.mk s.toList := rfl
          rw [h0] at hs0
          exact hsne hs0
        obtain ⟨r, hr⟩ := joinSep_cons_head [';'] s.toList (ls.map String.toList)
        have hjners : joinSep [';'] ((s :: ls).map String.toList) ≠ [] := by
          simp only [List.map_cons, hr]
          intro h0
          rcases List.append_eq_nil.mp h0 with ⟨h1, _⟩
          exact hstl h1
        rw [if_neg hjners, if_neg (by simp)]
        apply splitOnChar_joinSep
        · simp
        · intro p hp
          rcases List.mem_map.mp hp with ⟨x, hx, rfl⟩
          have hxl := List.all_eq_true.mp hlab x (by rw [hl]; exact hx)
          simp only [Bool.and_eq_true] at hxl
          have := hxl.1.2
          simpa using this
  simp only [csvStep, trimTruthy_rowLine toISO t, if_true]
  rw [hvals, hrec]
  rw [if_pos (by simpa [csvRec] using htl)]

/-- Folding the row loop over safe rows collects all records in order. -/
theorem csv_fold (toISO : Int → JStr) (fromISO : JStr → Int) :
    ∀ (ts : List Task) (acc : List RawRec),
      (∀ t ∈ ts, csvSafe t = true) →
      (∀ t ∈ ts, ∀ d, t.deadline = some d →
        csvSafeCell (toISO d) = true) →
      (ts.map (rowLine toISO)).foldl (csvStep fromISO csvHeaders) acc
        = acc ++ ts.map (csvRec toISO fromISO)
  | [], acc, _, _ => by simp
  | t :: ts, acc, hs, hdl => by
    simp only [List.map_cons, List.foldl_cons]
    rw [csvStep_row toISO fromISO t (hs t (by simp))
      (fun d hd => hdl t (by simp) d hd) acc]
    rw [csv_fold toISO fromISO ts (acc ++ [csvRec toISO fromISO t])
      (fun x hx => hs x (List.mem_cons_of_mem _ hx))
      (fun x hx => hdl x (List.mem_cons_of_mem _ hx))]
    simp

/-- `parseCSV` unfolded. -/
theorem parseCSV_eq (fromISO : JStr → Int) (content : JStr) :
    parseCSV fromISO content
      = ((splitOnChar '\n' content).drop 1).foldl
          (csvStep fromISO
            ((splitOnChar ',' ((splitOnChar '\n' content).headD [])).map
              (fun h => h.filter (fun c => ! (c = '"'))))) [] := rfl

/-- Decoding an encoded safe task set recovers one record per task, in
order, with the fields `csvRec` describes. -/
theorem parseCSV_convertToCSV (toISO : Int → JStr) (fromISO : JStr → Int)
    (ts : List Task) (hs : ∀ t ∈ ts, csvSafe t = true)
    (hdl : ∀ t ∈ ts, ∀ d, t.deadline = some d →
      csvSafeCell (toISO d) = true) :
    parseCSV fromISO (convertToCSV toISO ts)
      = ts.map (csvRec toISO fromISO) := by
  have hcontent : convertToCSV toISO ts
      = joinSep ['\n'] (headerLine :: ts.map (rowLine toISO)) := by
    simp only [convertToCSV, List.map_cons, List.map_map]
    rfl
  have hlines : splitOnChar '\n' (convertToCSV toISO ts)
      = headerLine :: ts.map (rowLine toISO) := by
    rw [hcontent]
    apply splitOnChar_joinSep
    · simp
    · intro p hp
      rcases List.mem_cons.mp hp with hp | hp
      · subst hp; decide
      · rcases List.mem_map.mp hp with ⟨x, hx, rfl⟩
        exact rowLine_nl_free toISO x (hs x hx)
          (fun d hd => hdl x hx d hd)
  rw [parseCSV_eq, hlines]
  simp only [List.headD_cons, List.drop_succ_cons, List.drop_zero]
  have hhd : (splitOnChar ',' headerLine).map
      (fun h => h.filter (fun c => ! (c = '"'))) = csvHeaders := by
    have := row_roundtrip csvHeaders (by simp [csvHeaders]) (by decide)
    exact this
  rw [hhd]
  simpa using csv_fold toISO fromISO ts [] hs hdl

/-- A safe task's status is one of the three enum values. -/
theorem status_mem_of_safe {t : Task} (hs : csvSafe t = true) :
    t.status ∈ validStatuses := by
  simp only [csvSafe, Bool.and_eq_true] at hs
  have hc := hs.1.1.1.2
  simpa using hc

/-- A safe task's status is nonempty. -/
theorem status_ne_empty_of_safe {t : Task} (hs : csvSafe t = true) :
    t.status ≠ "" := by
  have hm := status_mem_of_safe hs
  simp only [validStatuses, List.mem_cons] at hm
  rcases hm with h | h | h | h <;> simp_all

/-- The round-trip record of a safe task carries the task's title,
status, priority, labels and deadline. -/
theorem csvRec_fields (toISO : Int → JStr) (fromISO : JStr → Int)
    (t : Task) (hs : csvSafe t = true)
    (hdl : ∀ d, t.deadline = some d →
      fromISO (toISO d) = d ∧ toISO d ≠ []) :
    String.mk (csvRec toISO fromISO t).title = t.title
    ∧ String.mk (csvRec toISO fromISO t).status = t.status
    ∧ (csvRec toISO fromISO t).priority = t.priority
    ∧ (csvRec toISO fromISO t).labels.map String.mk = t.labels
    ∧ (csvRec toISO fromISO t).deadline = t.deadline := by
  have hs2 := hs
  simp only [csvSafe, Bool.and_eq_true] at hs2
  obtain ⟨⟨⟨⟨⟨⟨⟨_, _⟩, _⟩, _⟩, _⟩, hlab⟩, hp0⟩, hp5⟩ := hs2
  refine ⟨rfl, rfl, ?_, ?_, ?_⟩
  · simp only [csvRec]
    have hb0 : (0 : Int) ≤ t.priority := by simpa using hp0
    have hb5 : t.priority ≤ 5 := by simpa using hp5
    have hcases : t.priority = 0 ∨ t.priority = 1 ∨ t.priority = 2
        ∨ t.priority = 3 ∨ t.priority = 4 ∨ t.priority = 5 := by omega
    rcases hcases with h | h | h | h | h | h <;> rw [h] <;> decide
  · simp only [csvRec]
    cases hl : t.labels with
    | nil => simp
    | cons s ls =>
      rw [if_neg (by simp), List.map_map]
      have hid : (s :: ls).map (String.mk ∘ String.toList)
          = (s :: ls).map id := map_congr_mem (fun x _ => rfl)
      rw [hid, List.map_id]
  · simp only [csvRec]
    cases ht : t.deadline with
    | none => rfl
    | some d =>
      obtain ⟨hrt, hne⟩ := hdl d ht
      show (if toISO d = [] then none else some (fromISO (toISO d)))
          = some d
      rw [if_neg hne, hrt]

/-- The round-trip record of a safe task passes the import validation. -/
theorem csvRec_valid (toISO : Int → JStr) (fromISO : JStr → Int)
    (t : Task) (hs : csvSafe t = true) :
    isValidImport (rawTask (csvRec toISO fromISO t)) = true := by
  have hs2 := hs
  simp only [csvSafe, Bool.and_eq_true] at hs2
  have htne : ¬ t.title = "" := by simpa using hs2.1.1.1.1.2
  have hcontain := hs2.1.1.1.2
  simp only [isValidImport, rawTask]
  rw [Bool.and_eq_true]
  constructor
  · show (t.title != "") = true
    simpa [bne_iff_ne] using htne
  · show validStatuses.contains t.status = true
    exact hcontain

/-- `createTask` passes a record's title, status (nonempty), priority,
labels and deadline through unchanged. -/
theorem createTask_fields_of_rec (now : Int) (r : RawRec)
    (hst : ¬ String.mk r.status = "") :
    (createTask now (toCreateData r) []).1.title = String.mk r.title
    ∧ (createTask now (toCreateData r) []).1.status = String.mk r.status
    ∧ (createTask now (toCreateData r) []).1.priority = r.priority
    ∧ (createTask now (toCreateData r) []).1.labels
        = r.labels.map String.mk
    ∧ (createTask now (toCreateData r) []).1.deadline = r.deadline := by
  refine ⟨rfl, ?_, ?_, rfl, rfl⟩
  · simp only [createTask, toCreateData]
    simp [hst]
  · simp only [createTask, toCreateData]
    by_cases h : r.priority = 0 <;> simp [h]

/-- C6 counterexample data: a single well-formed task whose title
contains a comma. -/
def c6ts : List Task :=
  [{ id := 1, title := "a,b", description := "", status := "not_started",
     deadline := none, parent_id := none, created_at := 0,
     updated_at := 0, labels := [], priority := 0 }]

/-- C6: the claim that export-then-import preserves every valid task's
title is false as stated: `parseCSV` splits rows naively on every
comma, so the exported title `"a,b"` comes back as `"a"` (the quoted
cell is torn apart and every later column shifts). -/
theorem c6_counterexample :
    (parseCSV (fun _ => 0) (convertToCSV (fun _ => []) c6ts)).map
        (fun r => String.mk r.title) = ["a"]
      ∧ c6ts.map Task.title = ["a,b"] := by
  constructor
  · rfl
  · rfl

/-- C6 (amended): restricted to tasks whose text fields are free of
commas, quotes and newlines, with a nonempty title, a status in
the import enum, nonempty `;`-free labels and a priority in the UI range
0..5, and given a deadline serialisation that round-trips to a
nonempty safe string, CSV export followed by import yields exactly one
record per task, in order, with identical title, status, priority,
labels and deadline; each record passes the import validation, and
re-creating it via `createTask` (with a fresh id and timestamps from
the creation clock) again preserves those five fields. -/
theorem c6_amended (toISO : Int → JStr) (fromISO : JStr → Int)
    (now : Int) (ts : List Task)
    (hs : ∀ t ∈ ts, csvSafe t = true)
    (hdl : ∀ t ∈ ts, ∀ d, t.deadline = some d →
      fromISO (toISO d) = d ∧ toISO d ≠ []
        ∧ csvSafeCell (toISO d) = true) :
    (parseCSV fromISO (convertToCSV toISO ts)).map
        (fun r => (String.mk r.title, String.mk r.status, r.priority,
          r.labels.map String.mk, r.deadline))
      = ts.map (fun t => (t.title, t.status, t.priority,
          t.labels, t.deadline))
    ∧ (∀ r ∈ parseCSV fromISO (convertToCSV toISO ts),
        isValidImport (rawTask r) = true)
    ∧ (parseCSV fromISO (convertToCSV toISO ts)).map
        (fun r =>
          ((createTask now (toCreateData r) []).1.title,
           (createTask now (toCreateData r) []).1.status,
           (createTask now (toCreateData r) []).1.priority,
           (createTask now (toCreateData r) []).1.labels,
           (createTask now (toCreateData r) []).1.deadline))
      = ts.map (fun t => (t.title, t.status, t.priority,
          t.labels, t.deadline)) := by
  have hparse := parseCSV_convertToCSV toISO fromISO ts hs
    (fun t ht d hd => (hdl t ht d hd).2.2)
  refine ⟨?_, ?_, ?_⟩
  · rw [hparse, List.map_map]
    apply map_congr_mem
    intro t ht
    have hf := csvRec_fields toISO fromISO t (hs t ht)
      (fun d hd => ⟨(hdl t ht d hd).1, (hdl t ht d hd).2.1⟩)
    simp only [Function.comp_apply]
    rw [hf.1, hf.2.1, hf.2.2.1, hf.2.2.2.1, hf.2.2.2.2]
  · rw [hparse]
    intro r hr
    rcases List.mem_map.mp hr with ⟨t, ht, rfl⟩
    exact csvRec_valid toISO fromISO t (hs t ht)
  · rw [hparse, List.map_map]
    apply map_congr_mem
    intro t ht
    have hf := csvRec_fields toISO fromISO t (hs t ht)
      (fun d hd => ⟨(hdl t ht d hd).1, (hdl t ht d hd).2.1⟩)
    have hstne : ¬ String.mk (csvRec toISO fromISO t).status = "" := by
      rw [hf.2.1]
      exact status_ne_empty_of_safe (hs t ht)
    have hc := createTask_fields_of_rec now (csvRec toISO fromISO t) hstne
    simp only [Function.comp_apply]
    rw [hc.1, hc.2.1, hc.2.2.1, hc.2.2.2.1, hc.2.2.2.2]
    rw [hf.1, hf.2.1, hf.2.2.1, hf.2.2.2.1, hf.2.2.2.2]

/-- C6 witness data: the spec's two-task export scenario. -/
def c6wt1 : Task :=
  { id := 1, title := "Write spec", description := "first draft",
    status := "not_started", deadline := some 7, parent_id := none,
    created_at := 0, updated_at := 0, labels := ["docs", "urgent"],
    priority := 3 }

/-- C6 witness data: the second task. -/
def c6wt2 : Task :=
  { id := 2, title := "Review", description := "", status := "done",
    deadline := none, parent_id := some 1, created_at := 0,
    updated_at := 0, labels := [], priority := 0 }

/-- C6 witness deadline serialiser. -/
def c6toISO : Int → JStr := fun _ => str "D7"

/-- C6 witness deadline parser. -/
def c6fromISO : JStr → Int := fun _ => 7

/-- The amended C6 theorem applied to the concrete two-task scenario. -/
theorem c6_witness :
    (∀ t ∈ [c6wt1, c6wt2], csvSafe t = true)
    ∧ (∀ t ∈ [c6wt1, c6wt2], ∀ d, t.deadline = some d →
        c6fromISO (c6toISO d) = d ∧ c6toISO d ≠ []
          ∧ csvSafeCell (c6toISO d) = true)
    ∧ ((parseCSV c6fromISO (convertToCSV c6toISO [c6wt1, c6wt2])).map
          (fun r => (String.mk r.title, String.mk r.status, r.priority,
            r.labels.map String.mk, r.deadline))
        = [c6wt1, c6wt2].map (fun t => (t.title, t.status, t.priority,
            t.labels, t.deadline))
      ∧ (∀ r ∈ parseCSV c6fromISO (convertToCSV c6toISO [c6wt1, c6wt2]),
          isValidImport (rawTask r) = true)
      ∧ (parseCSV c6fromISO (convertToCSV c6toISO [c6wt1, c6wt2])).map
          (fun r =>
            ((createTask 99 (toCreateData r) []).1.title,
             (createTask 99 (toCreateData r) []).1.status,
             (createTask 99 (toCreateData r) []).1.priority,
             (createTask 99 (toCreateData r) []).1.labels,
             (createTask 99 (toCreateData r) []).1.deadline))
        = [c6wt1, c6wt2].map (fun t => (t.title, t.status, t.priority,
            t.labels, t.deadline))) := by
  have h1 : ∀ t ∈ [c6wt1, c6wt2], csvSafe t = true := by decide
  have h2 : ∀ t ∈ [c6wt1, c6wt2], ∀ d, t.deadline = some d →
      c6fromISO (c6toISO d) = d ∧ c6toISO d ≠ []
        ∧ csvSafeCell (c6toISO d) = true := by
    intro t ht d hd
    fin_cases ht
    · have hd7 : d = 7 := by simpa [c6wt1] using hd.symm
      subst hd7
      exact ⟨by decide, by decide, by decide⟩
    · exact absurd hd (by simp [c6wt2])
  exact ⟨h1, h2, c6_amended c6toISO c6fromISO 99 [c6wt1, c6wt2] h1 h2⟩

/-! ## Markdown codec (`convertToMarkdown` / `parseMarkdown`,
ExportImport.tsx)

Strings are the character lists of the JStr model; `\s` of the two
regular expressions is modelled by its ASCII part (the encoder only
ever indents with plain spaces). -/

/-- The `exportOptions` toggles read by `convertToMarkdown`. -/
structure ExportOptions where
  includeDescription : Bool
  includeLabels : Bool
deriving DecidableEq, Repr

/-- The status-to-emoji object lookup; a status outside the enum gives
`undefined`, which the template literal interpolates as the string
`"undefined"`. -/
def statusEmoji (s : String) : JStr :=
  if s = "not_started" then ['⏳']
  else if s = "in_progress" then ['🔄']
  else if s = "done" then ['✅']
  else str "undefined"

/-- `formatTask`: the bullet line (`indent + "- " + emoji + " **" +
title + "**"`), optional description / labels / deadline sub-lines, a
closing newline, then the blocks of the children
(`tasks.filter(t => t.parent_id === task.id)`, strict equality, so a
`some` parent only).  `dLoc` abstracts `Date.prototype.toLocaleDateString`.
The source recursion has no guard; the fuel argument only truncates
below the actual recursion depth, and the caller passes
`tasks.length + 1`, which under acyclic parent links is never reached. -/
def formatTask (opts : ExportOptions) (dLoc : Int → JStr)
    (tasks : List Task) : Nat → Task → Nat → JStr
  | 0, _, _ => []
  | fuel + 1, task, level =>
    let indent : JStr := List.replicate (2 * level) ' '
    let head := indent ++ str "- " ++ statusEmoji task.status
      ++ str " **" ++ task.title.toList ++ str "**"
    let t1 := if opts.includeDescription && ! (task.description = "")
      then head ++ '\n' :: (indent ++ str "  " ++ task.description.toList)
      else head
    let t2 := if opts.includeLabels && ! (task.labels = [])
      then t1 ++ '\n' :: (indent ++ str "  *Labels: "
        ++ joinSep (str ", ") (task.labels.map String.toList) ++ ['*'])
      else t1
    let t3 := match task.deadline with
      | some d => t2 ++ '\n' :: (indent ++ str "  *Deadline: "
          ++ dLoc d ++ ['*'])
      | none => t2
    let base := t3 ++ ['\n']
    (tasks.filter (fun c => c.parent_id = some task.id)).foldl
      (fun acc c => acc ++ formatTask opts dLoc tasks fuel c (level + 1))
      base

/-- `convertToMarkdown`: the fixed header, then one block per root
(`!task.parent_id`, so an absent or zero parent id).  `genDate` is the
`new Date().toLocaleString()` text. -/
def convertToMarkdown (opts : ExportOptions) (dLoc : Int → JStr)
    (genDate : JStr) (tasks : List Task) : JStr :=
  let header := str "# Task Export" ++ '\n' :: '\n'
    :: (str "Generated on: " ++ genDate ++ ['\n', '\n'])
  let rootTasks := tasks.filter (fun t => ! optTruthy t.parent_id)
  rootTasks.foldl
    (fun acc t => acc ++ formatTask opts dLoc tasks (tasks.length + 1) t 0)
    header

/-- The bullet regular expression `/^(\s*)- (.+)$/`: the maximal
whitespace prefix, then `"- "`, then a nonempty remainder. -/
def matchBullet (l : JStr) : Option (Nat × JStr) :=
  let ws := l.takeWhile isWSChar
  match l.drop ws.length with
  | '-' :: ' ' :: c :: cs => some (ws.length, c :: cs)
  | _ => none

/-- The lazy group of `\*\*(.+?)\*\*`: scanning left to right with the
accumulated (reversed) title, report at the earliest `**`; the part of
the line after it is dropped (the regular expression is unanchored at
the end). -/
def splitStar : JStr → JStr → Option JStr
  | acc, c :: r =>
    if c = '*' then
      match r with
      | '*' :: _ => some acc.reverse
      | _ => splitStar (c :: acc) r
    else splitStar (c :: acc) r
  | _, [] => none

/-- The status pattern `/^(⏳|🔄|✅)\s*\*\*(.+?)\*\*/` applied to the
content after `"- "`. -/
def matchStatus (l : JStr) : Option (Char × JStr) :=
  match l with
  | e :: rest =>
    if e = '⏳' ∨ e = '🔄' ∨ e = '✅' then
      let ws := rest.takeWhile isWSChar
      match rest.drop ws.length with
      | '*' :: '*' :: r3 =>
        match r3 with
        | c :: r4 => (splitStar [c] r4).map (fun title => (e, title))
        | [] => none
      | _ => none
    else none
  | [] => none

/-- The `while (stack.length > 0 && top.level >= level) pop` loop.  The
source stores `indent.length / 2`, a JavaScript float only ever used in
these order comparisons; since `x / 2 ≥ y / 2 ↔ x ≥ y`, the raw
indentation width is kept as a `Nat` instead. -/
def dropStack : List (Task × Nat) → Nat → List (Task × Nat)
  | [], _ => []
  | (t, l) :: rest, lvl =>
    if lvl ≤ l then dropStack rest lvl else (t, l) :: rest

/-- One line of `parseMarkdown`'s `forEach`.  The state is the parent
stack plus the collected tasks; `nowAt k` is the `new Date()` value
when the `k`-th task of the file is decoded.  Every decoded task gets
the placeholder `id = 0`, so a recorded parent reference is always
`some 0`. -/
def mdStep (nowAt : Nat → Int) (st : List (Task × Nat) × List Task)
    (line : JStr) : List (Task × Nat) × List Task :=
  match matchBullet line with
  | none => st
  | some (lvl, content) =>
    match matchStatus content with
    | none => st
    | some (emoji, title) =>
      let status := if emoji = '⏳' then "not_started"
        else if emoji = '🔄' then "in_progress" else "done"
      let stack2 := dropStack st.1 lvl
      let task : Task :=
        { id := 0
          title := String.mk title
          description := ""
          status := status
          deadline := none
          parent_id := match stack2 with
            | [] => none
            | (p, _) :: _ => some p.id
          created_at := nowAt st.2.length
          updated_at := nowAt st.2.length
          labels := []
          priority := 0 }
      ((task, lvl) :: stack2, st.2 ++ [task])

/-- `parseMarkdown`: run the line machine over the split content. -/
def parseMarkdown (nowAt : Nat → Int) (content : JStr) : List Task :=
  ((splitOnChar '\n' content).foldl (mdStep nowAt) ([], [])).2

/-- C5 counterexample data: a root task and its child. -/
def c5ex : List Task :=
  [{ id := 1, title := "A", description := "", status := "not_started",
     deadline := none, parent_id := none, created_at := 0,
     updated_at := 0, labels := [], priority := 0 },
   { id := 2, title := "B", description := "", status := "done",
     deadline := none, parent_id := some 1, created_at := 0,
     updated_at := 0, labels := [], priority := 0 }]

/-- The decode of the encode of the C5 counterexample data. -/
def c5dec : List Task :=
  parseMarkdown (fun _ => 0)
    (convertToMarkdown ⟨true, true⟩ (fun _ => str "1/1/2024")
      (str "today") c5ex)

/-- C5: the round-trip hierarchy claim is false: `parseMarkdown` reads
every parent reference from the placeholder `task.id = 0`, so the
child decodes with `parent_id = some 0` — not a reference to its
parent's bullet, and a JavaScript-falsy value that this code base's
own root test (`!task.parent_id`, used by `convertToMarkdown` and
`buildTaskTree`) treats as having no parent.  The original pair has
one root; the decoded pair has two, so the parent/child hierarchy is
not reconstructed. -/
theorem c5_counterexample :
    c5dec.map (fun t => (t.title, t.status, t.parent_id))
      = [("A", "not_started", none), ("B", "done", some 0)]
    ∧ (c5ex.filter (fun t => ! optTruthy t.parent_id)).length = 1
    ∧ (c5dec.filter (fun t => ! optTruthy t.parent_id)).length = 2 := by
  refine ⟨rfl, rfl, rfl⟩

/-- The encoder's pre-order traversal of one subtree, with the logical
level of each visited task (mirrors the recursion of `formatTask`). -/
def preT (tasks : List Task) : Nat → Task → Nat → List (Task × Nat)
  | 0, _, _ => []
  | fuel + 1, t, lvl =>
    (t, lvl) :: (tasks.filter (fun c => c.parent_id = some t.id)).foldl
      (fun acc c => acc ++ preT tasks fuel c (lvl + 1)) []

/-- The encoder's traversal of the whole forest (mirrors
`convertToMarkdown`). -/
def preForest (tasks : List Task) : List (Task × Nat) :=
  (tasks.filter (fun t => ! optTruthy t.parent_id)).foldl
    (fun acc t => acc ++ preT tasks (tasks.length + 1) t 0) []

/-- The task `parseMarkdown` produces for the `k`-th bullet when the
encoder produced it for `p.1` at level `p.2`. -/
def decTask (nowAt : Nat → Int) (k : Nat) (p : Task × Nat) : Task :=
  { id := 0
    title := p.1.title
    description := ""
    status := p.1.status
    deadline := none
    parent_id := if p.2 = 0 then none else some 0
    created_at := nowAt k
    updated_at := nowAt k
    labels := []
    priority := 0 }

/-- The decoded task list of a traversal, starting at index `k`. -/
def decList (nowAt : Nat → Int) : Nat → List (Task × Nat) → List Task
  | _, [] => []
  | k, p :: ps => decTask nowAt k p :: decList nowAt (k + 1) ps

/-- A text block does not look like a bullet: after its leading
whitespace it does not continue with `"- "` plus a nonempty rest. -/
def noBullet (l : JStr) : Bool :=
  match l.dropWhile isWSChar with
  | '-' :: ' ' :: _ :: _ => false
  | _ => true

/-- The Markdown round-trip hypotheses for one task: nonempty title
free of newlines and asterisks, a status in the enum, newline-free
description that does not look like a bullet, and newline-free
labels. -/
def mdSafe (t : Task) : Bool :=
  ! (t.title = "") && ('\n' ∉ t.title.toList) && ('*' ∉ t.title.toList)
  && validStatuses.contains t.status
  && ('\n' ∉ t.description.toList) && noBullet t.description.toList
  && t.labels.all (fun s => '\n' ∉ s.toList)

/-- Lines joined with a terminating newline each. -/
def joinNL (lines : List JStr) : JStr :=
  (lines.map (fun l => l ++ ['\n'])).flatten

/-- The lines of `formatTask`'s output, in order: the bullet, the
optional sub-lines, then the children's lines. -/
def fmtLines (opts : ExportOptions) (dLoc : Int → JStr)
    (tasks : List Task) : Nat → Task → Nat → List JStr
  | 0, _, _ => []
  | fuel + 1, task, level =>
    let indent : JStr := List.replicate (2 * level) ' '
    let bullet := indent ++ str "- " ++ statusEmoji task.status
      ++ str " **" ++ task.title.toList ++ str "**"
    let ls1 := if opts.includeDescription && ! (task.description = "")
      then [indent ++ str "  " ++ task.description.toList] else []
    let ls2 := if opts.includeLabels && ! (task.labels = [])
      then [indent ++ str "  *Labels: "
        ++ joinSep (str ", ") (task.labels.map String.toList) ++ ['*']]
      else []
    let ls3 := match task.deadline with
      | some d => [indent ++ str "  *Deadline: " ++ dLoc d ++ ['*']]
      | none => []
    bullet :: (ls1 ++ ls2 ++ ls3)
      ++ (tasks.filter (fun c => c.parent_id = some task.id)).foldl
        (fun acc c => acc ++ fmtLines opts dLoc tasks fuel c (level + 1))
        []

/-- Folding list append is flattening. -/
theorem foldl_append_flatten {α β : Type} (g : α → List β) :
    ∀ (l : List α) (acc : List β),
      l.foldl (fun a c => a ++ g c) acc = acc ++ (l.map g).flatten
  | [], acc => by simp
  | c :: l, acc => by
    simp only [List.foldl_cons, List.map_cons, List.flatten_cons]
    rw [foldl_append_flatten g l (acc ++ g c)]
    simp

/-- `preT` unfolded to the flatten form. -/
theorem preT_succ (tasks : List Task) (fuel : Nat) (t : Task) (lvl : Nat) :
    preT tasks (fuel + 1) t lvl = (t, lvl) ::
      ((tasks.filter (fun c => c.parent_id = some t.id)).map
        (fun c => preT tasks fuel c (lvl + 1))).flatten := by
  simp only [preT]
  rw [foldl_append_flatten]
  simp

/-- `fmtLines` unfolded to the flatten form. -/
theorem fmtLines_succ (opts : ExportOptions) (dLoc : Int → JStr)
    (tasks : List Task) (fuel : Nat) (task : Task) (level : Nat) :
    fmtLines opts dLoc tasks (fuel + 1) task level =
      (List.replicate (2 * level) ' ' ++ str "- "
          ++ statusEmoji task.status ++ str " **" ++ task.title.toList
          ++ str "**")
        :: ((if opts.includeDescription && ! (task.description = "")
            then [List.replicate (2 * level) ' ' ++ str "  "
              ++ task.description.toList] else [])
          ++ (if opts.includeLabels && ! (task.labels = [])
            then [List.replicate (2 * level) ' ' ++ str "  *Labels: "
              ++ joinSep (str ", ") (task.labels.map String.toList)
              ++ ['*']] else [])
          ++ (match task.deadline with
            | some d => [List.replicate (2 * level) ' '
                ++ str "  *Deadline: " ++ dLoc d ++ ['*']]
            | none => []))
      ++ ((tasks.filter (fun c => c.parent_id = some task.id)).map
          (fun c => fmtLines opts dLoc tasks fuel c (level + 1))).flatten := by
  simp only [fmtLines]
  rw [foldl_append_flatten]
  simp

/-- `decList` distributes over append, shifting the index. -/
theorem decList_append (nowAt : Nat → Int) :
    ∀ (a b : List (Task × Nat)) (k : Nat),
      decList nowAt k (a ++ b)
        = decList nowAt k a ++ decList nowAt (k + a.length) b
  | [], b, k => by simp [decList]
  | p :: a, b, k => by
    simp only [List.cons_append, decList, List.append_eq]
    rw [decList_append nowAt a b (k + 1)]
    simp only [List.length_cons]
    rw [Nat.add_assoc, Nat.add_comm 1 a.length]

/-- `decList` preserves length. -/
theorem decList_length (nowAt : Nat → Int) :
    ∀ (ps : List (Task × Nat)) (k : Nat),
      (decList nowAt k ps).length = ps.length
  | [], _ => rfl
  | p :: ps, k => by
    simp only [decList, List.length_cons, decList_length nowAt ps (k + 1)]

/-- Popping to level 0 empties the stack. -/
theorem dropStack_zero : ∀ S : List (Task × Nat), dropStack S 0 = []
  | [] => rfl
  | (t, l) :: rest => by
    simp [dropStack, dropStack_zero rest]

/-- `dropStack` keeps a suffix of the stack. -/
theorem dropStack_mem : ∀ (S : List (Task × Nat)) (lvl : Nat) (e),
    e ∈ dropStack S lvl → e ∈ S
  | [], _, e, h => absurd h (List.not_mem_nil e)
  | (t, l) :: rest, lvl, e, h => by
    simp only [dropStack] at h
    by_cases hc : lvl ≤ l
    · rw [if_pos hc] at h
      exact List.mem_cons_of_mem _ (dropStack_mem rest lvl e h)
    · rw [if_neg hc] at h
      exact h

/-- Popping skips a prefix whose levels are all at least the target. -/
theorem dropStack_append_ge :
    ∀ (A B : List (Task × Nat)) (lvl : Nat),
      (∀ e ∈ A, lvl ≤ e.2) →
      dropStack (A ++ B) lvl = dropStack B lvl
  | [], B, lvl, _ => rfl
  | (t, l) :: A, B, lvl, h => by
    simp only [List.cons_append, dropStack,
      if_pos (h (t, l) (by simp) : lvl ≤ l)]
    exact dropStack_append_ge A B lvl
      (fun e he => h e (List.mem_cons_of_mem _ he))

/-- Dropping after the maximal `takeWhile` prefix is `dropWhile`. -/
theorem drop_takeWhile_length (p : Char → Bool) (l : JStr) :
    l.drop (l.takeWhile p).length = l.dropWhile p := by
  induction l with
  | nil => rfl
  | cons c r ih =>
    by_cases h : p c
    · simp [List.takeWhile_cons, List.dropWhile_cons, h, ih]
    · simp [List.takeWhile_cons, List.dropWhile_cons, h]

/-- `matchBullet` through `dropWhile`. -/
theorem matchBullet_eq (l : JStr) :
    matchBullet l = match l.dropWhile isWSChar with
      | '-' :: ' ' :: c :: cs =>
          some ((l.takeWhile isWSChar).length, c :: cs)
      | _ => none := by
  simp only [matchBullet]
  rw [drop_takeWhile_length]

/-- Splitting a whitespace prefix before a non-whitespace character. -/
theorem takeWhile_ws_all :
    ∀ (w : JStr), (∀ c ∈ w, isWSChar c = true) →
      ∀ (c : Char), isWSChar c = false → ∀ (r : JStr),
        (w ++ c :: r).takeWhile isWSChar = w
        ∧ (w ++ c :: r).dropWhile isWSChar = c :: r
  | [], _, c, hc, r => by
    simp [List.takeWhile_cons, List.dropWhile_cons, hc]
  | a :: w, hw, c, hc, r => by
    have ha : isWSChar a = true := hw a (by simp)
    have hrec := takeWhile_ws_all w
      (fun x hx => hw x (List.mem_cons_of_mem _ hx)) c hc r
    simp only [List.cons_append, List.takeWhile_cons,
      List.dropWhile_cons, ha]
    simp [hrec.1, hrec.2]

/-- A whitespace prefix does not change `dropWhile`. -/
theorem dropWhile_ws_append :
    ∀ (w : JStr), (∀ c ∈ w, isWSChar c = true) → ∀ (l : JStr),
      (w ++ l).dropWhile isWSChar = l.dropWhile isWSChar
  | [], _, l => rfl
  | a :: w, hw, l => by
    have ha : isWSChar a = true := hw a (by simp)
    simp only [List.cons_append, List.dropWhile_cons, ha, if_true]
    exact dropWhile_ws_append w
      (fun x hx => hw x (List.mem_cons_of_mem _ hx)) l

/-- A line that does not look like a bullet is skipped even behind
extra whitespace. -/
theorem matchBullet_ws_none (w l : JStr)
    (hw : ∀ c ∈ w, isWSChar c = true) (hnb : noBullet l = true) :
    matchBullet (w ++ l) = none := by
  rw [matchBullet_eq, dropWhile_ws_append w hw l]
  unfold noBullet at hnb
  split
  · next heq =>
    rw [heq] at hnb
    simp at hnb
  · rfl

/-- A line whose first non-blank character is not a dash is no
bullet. -/
theorem noBullet_cons {c : Char} {r : JStr} (hws : isWSChar c = false)
    (hd : ¬ c = '-') : noBullet (c :: r) = true := by
  unfold noBullet
  simp only [List.dropWhile_cons, hws]
  split
  · next h =>
    rw [if_neg (by simp)] at h
    injection h with h1 _
    exact absurd h1 hd
  · rfl

/-- `splitStar` finds the first `**` after an asterisk-free prefix. -/
theorem splitStar_clean (rest : JStr) :
    ∀ (pre acc : JStr), '*' ∉ pre →
      splitStar acc (pre ++ '*' :: '*' :: rest)
        = some (acc.reverse ++ pre)
  | [], acc, _ => by simp [splitStar]
  | c :: pre, acc, h => by
    have hc : ¬ c = '*' := by intro he; exact h (by simp [he])
    have hpre : '*' ∉ pre := fun hm => h (List.mem_cons_of_mem _ hm)
    simp only [List.cons_append, splitStar, if_neg hc, List.append_eq]
    rw [splitStar_clean rest pre (c :: acc) hpre]
    simp

/-- The emoji text never contains a newline. -/
theorem statusEmoji_nl (s : String) : '\n' ∉ statusEmoji s := by
  unfold statusEmoji
  split_ifs <;> decide

/-- A non-bullet line leaves the parser state unchanged. -/
theorem mdStep_none (nowAt : Nat → Int)
    (st : List (Task × Nat) × List Task) (l : JStr)
    (h : matchBullet l = none) : mdStep nowAt st l = st := by
  simp [mdStep, h]

/-- A run of non-bullet lines is a no-op. -/
theorem mdRun_noop (nowAt : Nat → Int) :
    ∀ (ls : List JStr) (st : List (Task × Nat) × List Task),
      (∀ l ∈ ls, matchBullet l = none) →
      ls.foldl (mdStep nowAt) st = st
  | [], st, _ => rfl
  | l :: ls, st, h => by
    simp only [List.foldl_cons, mdStep_none nowAt st l (h l (by simp))]
    exact mdRun_noop nowAt ls st
      (fun x hx => h x (List.mem_cons_of_mem _ hx))

/-- A nonempty title cannot be the empty string's characters. -/
theorem title_toList_ne_nil {t : Task} (h : ¬ t.title = "") :
    t.title.toList ≠ [] := by
  intro h0
  apply h
  have hs0 : t.title = String.mk t.title.toList := rfl
  rw [h0] at hs0
  exact hs0

/-- Stepping the canonical bullet line: pop the stack to the line's
indentation, decode the task, link its parent to the stack top (always
the placeholder id 0), and push. -/
theorem mdStep_bullet_core (nowAt : Nat → Int) (e : Char)
    (he : e = '⏳' ∨ e = '🔄' ∨ e = '✅') (t : Task) (lvl : Nat)
    (S : List (Task × Nat)) (acc : List Task)
    (hst : (if e = '⏳' then "not_started"
      else if e = '🔄' then "in_progress" else "done") = t.status)
    (t0 : Char) (tr : JStr) (htl : t.title.toList = t0 :: tr)
    (hstar : '*' ∉ t.title.toList)
    (hS : ∀ x ∈ S, x.1.id = 0)
    (hpop : lvl ≠ 0 → dropStack S (2 * lvl) ≠ []) :
    mdStep nowAt (S, acc)
        (List.replicate (2 * lvl) ' '
          ++ '-' :: ' ' :: e :: ' ' :: '*' :: '*'
            :: (t.title.toList ++ '*' :: '*' :: []))
      = ((decTask nowAt acc.length (t, lvl), 2 * lvl)
            :: dropStack S (2 * lvl),
         acc ++ [decTask nowAt acc.length (t, lvl)]) := by
  have hws : ∀ c ∈ List.replicate (2 * lvl) ' ', isWSChar c = true := by
    intro c hc
    rw [List.eq_of_mem_replicate hc]
    decide
  have hsplit := takeWhile_ws_all (List.replicate (2 * lvl) ' ') hws '-'
    (by decide)
    (' ' :: e :: ' ' :: '*' :: '*' :: (t.title.toList ++ '*' :: '*' :: []))
  have hmb : matchBullet
      (List.replicate (2 * lvl) ' '
        ++ '-' :: ' ' :: e :: ' ' :: '*' :: '*'
          :: (t.title.toList ++ '*' :: '*' :: []))
      = some (2 * lvl,
          e :: ' ' :: '*' :: '*' :: (t.title.toList ++ '*' :: '*' :: [])) := by
    rw [matchBullet_eq]
    rw [hsplit.2, hsplit.1, List.length_replicate]
    rfl
  have htr : '*' ∉ tr := by
    intro hm
    exact hstar (by rw [htl]; exact List.mem_cons_of_mem _ hm)
  have hms : matchStatus
      (e :: ' ' :: '*' :: '*' :: (t.title.toList ++ '*' :: '*' :: []))
      = some (e, t.title.toList) := by
    simp only [matchStatus]
    rw [if_pos he]
    have htw : (' ' :: '*' :: '*'
        :: (t.title.toList ++ '*' :: '*' :: [])).takeWhile isWSChar
        = [' '] := by
      simp [List.takeWhile_cons, isWSChar]
    rw [htw]
    simp only [List.length_cons, List.length_nil, List.drop_succ_cons,
      List.drop_zero]
    rw [htl]
    simp only [List.cons_append]
    rw [splitStar_clean [] tr [t0] htr]
    simp
  simp only [mdStep, hmb, hms]
  have htask : (⟨0, String.mk t.title.toList, "",
      (if e = '⏳' then "not_started"
        else if e = '🔄' then "in_progress" else "done"), none,
      (match dropStack S (2 * lvl) with
        | [] => none
        | (p, _) :: _ => some p.id),
      nowAt acc.length, nowAt acc.length, [], 0⟩ : Task)
      = decTask nowAt acc.length (t, lvl) := by
    simp only [decTask]
    rw [Task.mk.injEq]
    refine ⟨rfl, rfl, rfl, hst, rfl, ?_, rfl, rfl, rfl, rfl⟩
    by_cases hlvl : lvl = 0
    · subst hlvl
      rw [dropStack_zero S]
      simp
    · rw [if_neg hlvl]
      cases hd : dropStack S (2 * lvl) with
      | nil => exact absurd hd (hpop hlvl)
      | cons p rest =>
        have hp : p ∈ S := dropStack_mem S (2 * lvl) p
          (by rw [hd]; exact List.mem_cons_self p rest)
        obtain ⟨q, ql⟩ := p
        simp only []
        rw [hS (q, ql) hp]
  rw [htask]

/-- Stepping a safe task's bullet line. -/
theorem mdStep_bullet (nowAt : Nat → Int) (t : Task) (lvl : Nat)
    (S : List (Task × Nat)) (acc : List Task)
    (hsafe : mdSafe t = true)
    (hS : ∀ x ∈ S, x.1.id = 0)
    (hpop : lvl ≠ 0 → dropStack S (2 * lvl) ≠ []) :
    mdStep nowAt (S, acc)
        (List.replicate (2 * lvl) ' ' ++ str "- " ++ statusEmoji t.status
          ++ str " **" ++ t.title.toList ++ str "**")
      = ((decTask nowAt acc.length (t, lvl), 2 * lvl)
            :: dropStack S (2 * lvl),
         acc ++ [decTask nowAt acc.length (t, lvl)]) := by
  have hs2 := hsafe
  simp only [mdSafe, Bool.and_eq_true] at hs2
  obtain ⟨⟨⟨⟨⟨⟨htne, _⟩, hstar⟩, hmem⟩, _⟩, _⟩, _⟩ := hs2
  have htne2 : ¬ t.title = "" := by simpa using htne
  have hstar2 : '*' ∉ t.title.toList := by simpa using hstar
  have hmem2 : t.status ∈ validStatuses := by simpa using hmem
  obtain ⟨t0, tr, htl⟩ : ∃ a b, t.title.toList = a :: b := by
    cases hx : t.title.toList with
    | nil => exact absurd hx (title_toList_ne_nil htne2)
    | cons a b => exact ⟨a, b, rfl⟩
  have hb1 : str "- " = ['-', ' '] := rfl
  have hb2 : str " **" = [' ', '*', '*'] := rfl
  have hb3 : str "**" = ['*', '*'] := rfl
  simp only [validStatuses, List.mem_cons, List.not_mem_nil, or_false]
    at hmem2
  rcases hmem2 with hst | hst | hst
  · have hemoji : statusEmoji t.status = ['⏳'] := by rw [hst]; rfl
    have hline : List.replicate (2 * lvl) ' ' ++ str "- "
        ++ statusEmoji t.status ++ str " **" ++ t.title.toList
        ++ str "**"
        = List.replicate (2 * lvl) ' '
          ++ '-' :: ' ' :: '⏳' :: ' ' :: '*' :: '*'
            :: (t.title.toList ++ '*' :: '*' :: []) := by
      rw [hemoji, hb1, hb2, hb3]
      simp
    rw [hline]
    exact mdStep_bullet_core nowAt '⏳' (by decide) t lvl S acc
      (by rw [hst]; decide) t0 tr htl hstar2 hS hpop
  · have hemoji : statusEmoji t.status = ['🔄'] := by rw [hst]; rfl
    have hline : List.replicate (2 * lvl) ' ' ++ str "- "
        ++ statusEmoji t.status ++ str " **" ++ t.title.toList
        ++ str "**"
        = List.replicate (2 * lvl) ' '
          ++ '-' :: ' ' :: '🔄' :: ' ' :: '*' :: '*'
            :: (t.title.toList ++ '*' :: '*' :: []) := by
      rw [hemoji, hb1, hb2, hb3]
      simp
    rw [hline]
    exact mdStep_bullet_core nowAt '🔄' (by decide) t lvl S acc
      (by rw [hst]; decide) t0 tr htl hstar2 hS hpop
  · have hemoji : statusEmoji t.status = ['✅'] := by rw [hst]; rfl
    have hline : List.replicate (2 * lvl) ' ' ++ str "- "
        ++ statusEmoji t.status ++ str " **" ++ t.title.toList
        ++ str "**"
        = List.replicate (2 * lvl) ' '
          ++ '-' :: ' ' :: '✅' :: ' ' :: '*' :: '*'
            :: (t.title.toList ++ '*' :: '*' :: []) := by
      rw [hemoji, hb1, hb2, hb3]
      simp
    rw [hline]
    exact mdStep_bullet_core nowAt '✅' (by decide) t lvl S acc
      (by rw [hst]; decide) t0 tr htl hstar2 hS hpop

/-- None of the sub-lines of a safe task's block parses as a bullet. -/
theorem subLines_none (opts : ExportOptions) (dLoc : Int → JStr)
    (t : Task) (lvl : Nat) (hsafe : mdSafe t = true) :
    ∀ l ∈ ((if opts.includeDescription && ! (t.description = "")
        then [List.replicate (2 * lvl) ' ' ++ str "  "
          ++ t.description.toList] else [])
      ++ (if opts.includeLabels && ! (t.labels = [])
        then [List.replicate (2 * lvl) ' ' ++ str "  *Labels: "
          ++ joinSep (str ", ") (t.labels.map String.toList) ++ ['*']]
        else [])
      ++ (match t.deadline with
        | some d => [List.replicate (2 * lvl) ' ' ++ str "  *Deadline: "
            ++ dLoc d ++ ['*']]
        | none => [])),
      matchBullet l = none := by
  have hs2 := hsafe
  simp only [mdSafe, Bool.and_eq_true] at hs2
  obtain ⟨⟨⟨⟨⟨⟨_, _⟩, _⟩, _⟩, _⟩, hnb⟩, _⟩ := hs2
  have hws2 : ∀ c ∈ List.replicate (2 * lvl) ' ' ++ [' ', ' '],
      isWSChar c = true := by
    intro c hc
    rcases List.mem_append.mp hc with h | h
    · rw [List.eq_of_mem_replicate h]; decide
    · rcases List.mem_cons.mp h with h | h
      · rw [h]; decide
      · rcases List.mem_cons.mp h with h | h
        · rw [h]; decide
        · exact absurd h (List.not_mem_nil c)
  intro l hl
  rcases List.mem_append.mp hl with hl | hl
  · rcases List.mem_append.mp hl with hl | hl
    · by_cases hcond : opts.includeDescription
          && ! (t.description = "")
      · rw [if_pos hcond] at hl
        have hleq : l = List.replicate (2 * lvl) ' ' ++ str "  "
            ++ t.description.toList := by simpa using hl
        have hss : str "  " = [' ', ' '] := rfl
        rw [hleq, hss]
        exact matchBullet_ws_none _ _ hws2 hnb
      · rw [if_neg hcond] at hl
        exact absurd hl (List.not_mem_nil l)
    · by_cases hcond : opts.includeLabels && ! (t.labels = [])
      · rw [if_pos hcond] at hl
        have hleq : l = List.replicate (2 * lvl) ' ' ++ str "  *Labels: "
            ++ joinSep (str ", ") (t.labels.map String.toList) ++ ['*'] := by
          simpa using hl
        have hlab1 : str "  *Labels: " = [' ', ' ']
            ++ '*' :: str "Labels: " := rfl
        have hre : List.replicate (2 * lvl) ' ' ++ str "  *Labels: "
            ++ joinSep (str ", ") (t.labels.map String.toList) ++ ['*']
            = (List.replicate (2 * lvl) ' ' ++ [' ', ' '])
              ++ ('*' :: (str "Labels: "
                ++ joinSep (str ", ") (t.labels.map String.toList)
                ++ ['*'])) := by
          rw [hlab1]
          simp
        rw [hleq, hre]
        exact matchBullet_ws_none _ _ hws2
          (noBullet_cons (by decide) (by decide))
      · rw [if_neg hcond] at hl
        exact absurd hl (List.not_mem_nil l)
  · cases ht : t.deadline with
    | none =>
      rw [ht] at hl
      exact absurd hl (List.not_mem_nil l)
    | some d =>
      rw [ht] at hl
      have hleq : l = List.replicate (2 * lvl) ' ' ++ str "  *Deadline: "
          ++ dLoc d ++ ['*'] := by simpa using hl
      have hdl1 : str "  *Deadline: " = [' ', ' ']
          ++ '*' :: str "Deadline: " := rfl
      have hre : List.replicate (2 * lvl) ' ' ++ str "  *Deadline: "
          ++ dLoc d ++ ['*']
          = (List.replicate (2 * lvl) ' ' ++ [' ', ' '])
            ++ ('*' :: (str "Deadline: " ++ dLoc d ++ ['*'])) := by
        rw [hdl1]
        simp
      rw [hleq, hre]
      exact matchBullet_ws_none _ _ hws2
        (noBullet_cons (by decide) (by decide))

/-- Running the parser over one safe task's block: starting from any
stack (of placeholder-id entries) and any collected tasks, the block
appends exactly the decoded pre-order of its subtree, and leaves on the
stack the block's own spine on top of what its bullet popped. -/
theorem mdRun_block (opts : ExportOptions) (dLoc : Int → JStr)
    (nowAt : Nat → Int) (tasks : List Task)
    (hsafe : ∀ t ∈ tasks, mdSafe t = true) :
    ∀ (fuel : Nat) (t : Task) (lvl : Nat) (S : List (Task × Nat))
      (acc : List Task), t ∈ tasks →
      (∀ x ∈ S, x.1.id = 0) →
      (lvl ≠ 0 → dropStack S (2 * lvl) ≠ []) →
      ∃ S2 : List (Task × Nat),
        (fmtLines opts dLoc tasks (fuel + 1) t lvl).foldl (mdStep nowAt)
            (S, acc)
          = (S2 ++ dropStack S (2 * lvl),
             acc ++ decList nowAt acc.length
               (preT tasks (fuel + 1) t lvl))
        ∧ (∀ x ∈ S2, x.1.id = 0 ∧ 2 * lvl ≤ x.2) ∧ S2 ≠ [] := by
  intro fuel
  induction fuel using Nat.strong_induction_on with
  | _ fuel ih =>
  intro t lvl S acc ht hS hpop
  rw [fmtLines_succ, preT_succ]
  rw [List.foldl_append, List.foldl_cons]
  rw [mdStep_bullet nowAt t lvl S acc (hsafe t ht) hS hpop]
  rw [mdRun_noop nowAt _ _ (subLines_none opts dLoc t lvl (hsafe t ht))]
  cases fuel with
  | zero =>
    have hkid0 : ((tasks.filter (fun c => c.parent_id = some t.id)).map
        (fun c => fmtLines opts dLoc tasks 0 c (lvl + 1))).flatten
        = [] := by
      rw [show (fun c => fmtLines opts dLoc tasks 0 c (lvl + 1))
        = (fun _ => ([] : List JStr)) from rfl]
      simp
    have hpre0 : ((tasks.filter (fun c => c.parent_id = some t.id)).map
        (fun c => preT tasks 0 c (lvl + 1))).flatten = [] := by
      rw [show (fun c => preT tasks 0 c (lvl + 1))
        = (fun _ => ([] : List (Task × Nat))) from rfl]
      simp
    rw [hkid0, hpre0]
    refine ⟨[(decTask nowAt acc.length (t, lvl), 2 * lvl)], ?_, ?_, by simp⟩
    · simp [decList]
    · intro x hx
      have hx2 : x = (decTask nowAt acc.length (t, lvl), 2 * lvl) := by
        simpa using hx
      rw [hx2]
      exact ⟨rfl, Nat.le_refl _⟩
  | succ m =>
    have hkids : ∀ (cs : List Task), (∀ c ∈ cs, c ∈ tasks) →
        ∀ (S2p : List (Task × Nat)) (acc2 : List Task),
        (∀ x ∈ S2p, x.1.id = 0 ∧ 2 * (lvl + 1) ≤ x.2) →
        ∃ S2f,
          ((cs.map (fun c => fmtLines opts dLoc tasks (m + 1) c
              (lvl + 1))).flatten).foldl (mdStep nowAt)
              (S2p ++ (decTask nowAt acc.length (t, lvl), 2 * lvl)
                 :: dropStack S (2 * lvl), acc2)
            = (S2f ++ (decTask nowAt acc.length (t, lvl), 2 * lvl)
                 :: dropStack S (2 * lvl),
               acc2 ++ decList nowAt acc2.length
                 ((cs.map (fun c => preT tasks (m + 1) c
                   (lvl + 1))).flatten))
          ∧ ∀ x ∈ S2f, x.1.id = 0 ∧ 2 * (lvl + 1) ≤ x.2 := by
      intro cs
      induction cs with
      | nil =>
        intro _ S2p acc2 hS2p
        exact ⟨S2p, by simp [decList], hS2p⟩
      | cons c cs ihc =>
        intro hcs S2p acc2 hS2p
        simp only [List.map_cons, List.flatten_cons]
        rw [List.foldl_append]
        have hstk : ∀ x ∈ S2p
            ++ (decTask nowAt acc.length (t, lvl), 2 * lvl)
              :: dropStack S (2 * lvl), x.1.id = 0 := by
          intro x hx
          rcases List.mem_append.mp hx with hx | hx
          · exact (hS2p x hx).1
          · rcases List.mem_cons.mp hx with hx | hx
            · rw [hx]; rfl
            · exact hS x (dropStack_mem S (2 * lvl) x hx)
        have hdropc : dropStack (S2p
            ++ (decTask nowAt acc.length (t, lvl), 2 * lvl)
              :: dropStack S (2 * lvl)) (2 * (lvl + 1))
            = (decTask nowAt acc.length (t, lvl), 2 * lvl)
              :: dropStack S (2 * lvl) := by
          rw [dropStack_append_ge _ _ _ (fun x hx => (hS2p x hx).2)]
          simp only [dropStack]
          rw [if_neg (by omega)]
        obtain ⟨S2c, hc1, hc2, _⟩ := ih m (by omega) c (lvl + 1)
          (S2p ++ (decTask nowAt acc.length (t, lvl), 2 * lvl)
            :: dropStack S (2 * lvl)) acc2 (hcs c (by simp)) hstk
          (fun _ => by rw [hdropc]; simp)
        rw [hc1, hdropc]
        obtain ⟨S2f, hf1, hf2⟩ := ihc
          (fun x hx => hcs x (List.mem_cons_of_mem _ hx)) S2c
          (acc2 ++ decList nowAt acc2.length
            (preT tasks (m + 1) c (lvl + 1))) hc2
        rw [hf1]
        refine ⟨S2f, ?_, hf2⟩
        rw [decList_append]
        simp [decList_length, List.append_assoc]
    obtain ⟨S2f, hf1, hf2⟩ := hkids
      (tasks.filter (fun c => c.parent_id = some t.id))
      (fun c hc => List.mem_of_mem_filter hc) []
      (acc ++ [decTask nowAt acc.length (t, lvl)])
      (fun x hx => absurd hx (List.not_mem_nil x))
    rw [List.nil_append] at hf1
    rw [hf1]
    refine ⟨S2f ++ [(decTask nowAt acc.length (t, lvl), 2 * lvl)],
      ?_, ?_, by simp⟩
    · simp only [Prod.mk.injEq]
      constructor
      · simp [List.append_assoc]
      · simp [decList, List.length_append, List.append_assoc]
    · intro x hx
      rcases List.mem_append.mp hx with hx | hx
      · obtain ⟨h1, h2⟩ := hf2 x hx
        exact ⟨h1, by omega⟩
      · have hx2 : x = (decTask nowAt acc.length (t, lvl), 2 * lvl) := by
          simpa using hx
        rw [hx2]
        exact ⟨rfl, Nat.le_refl _⟩

/-- `joinNL` of a cons. -/
theorem joinNL_cons (l : JStr) (L : List JStr) :
    joinNL (l :: L) = l ++ '\n' :: joinNL L := by
  simp [joinNL]

/-- `joinNL` distributes over append. -/
theorem joinNL_append (a b : List JStr) :
    joinNL (a ++ b) = joinNL a ++ joinNL b := by
  simp [joinNL]

/-- `joinNL` of a flatten. -/
theorem joinNL_flatten : ∀ ll : List (List JStr),
    joinNL ll.flatten = (ll.map joinNL).flatten
  | [] => rfl
  | l :: ll => by
    simp only [List.flatten_cons, joinNL_append, List.map_cons]
    rw [joinNL_flatten ll]

/-- `formatTask` emits exactly its lines, each newline-terminated. -/
theorem formatTask_joinNL (opts : ExportOptions) (dLoc : Int → JStr)
    (tasks : List Task) :
    ∀ (fuel : Nat) (t : Task) (lvl : Nat),
      formatTask opts dLoc tasks fuel t lvl
        = joinNL (fmtLines opts dLoc tasks fuel t lvl) := by
  intro fuel
  induction fuel with
  | zero => intro t lvl; rfl
  | succ m ihm =>
    intro t lvl
    rw [fmtLines_succ]
    simp only [formatTask]
    rw [foldl_append_flatten]
    have hmapeq : (tasks.filter (fun c => c.parent_id = some t.id)).map
        (fun c => formatTask opts dLoc tasks m c (lvl + 1))
        = (tasks.filter (fun c => c.parent_id = some t.id)).map
          (fun c => joinNL (fmtLines opts dLoc tasks m c (lvl + 1))) :=
      map_congr_mem (fun c _ => ihm c (lvl + 1))
    rw [hmapeq]
    rw [joinNL_append, joinNL_cons, joinNL_flatten, List.map_map]
    by_cases h1 : opts.includeDescription && ! (t.description = "")
    · by_cases h2 : opts.includeLabels && ! (t.labels = [])
      · cases hd : t.deadline <;>
          (simp [h1, h2, joinNL, Function.comp, List.append_assoc]
           <;> rfl)
      · cases hd : t.deadline <;>
          (simp [h1, h2, joinNL, Function.comp, List.append_assoc]
           <;> rfl)
    · by_cases h2 : opts.includeLabels && ! (t.labels = [])
      · cases hd : t.deadline <;>
          (simp [h1, h2, joinNL, Function.comp, List.append_assoc]
           <;> rfl)
      · cases hd : t.deadline <;>
          (simp [h1, h2, joinNL, Function.comp, List.append_assoc]
           <;> rfl)

/-- Splitting newline-terminated lines recovers them, continuing into
the remainder. -/
theorem splitOnChar_joinNL :
    ∀ (L : List JStr) (rest : JStr), (∀ l ∈ L, '\n' ∉ l) →
      splitOnChar '\n' (joinNL L ++ rest) = L ++ splitOnChar '\n' rest
  | [], rest, _ => by simp [joinNL]
  | l :: L, rest, h => by
    rw [joinNL_cons]
    have ha : (l ++ '\n' :: joinNL L) ++ rest
        = l ++ '\n' :: (joinNL L ++ rest) := by simp
    rw [ha, splitOnChar_append '\n' l _ (h l (by simp))]
    rw [splitOnChar_joinNL L rest
      (fun x hx => h x (List.mem_cons_of_mem _ hx))]
    rfl

/-- Every line a safe task's block emits is newline-free. -/
theorem fmtLines_nl_free (opts : ExportOptions) (dLoc : Int → JStr)
    (tasks : List Task) (hsafe : ∀ t ∈ tasks, mdSafe t = true)
    (hdLoc : ∀ d, '\n' ∉ dLoc d) :
    ∀ (fuel : Nat) (t : Task) (lvl : Nat), t ∈ tasks →
      ∀ l ∈ fmtLines opts dLoc tasks fuel t lvl, '\n' ∉ l := by
  intro fuel
  induction fuel with
  | zero => intro t lvl ht l hl; simp [fmtLines] at hl
  | succ m ihm =>
    intro t lvl ht l hl
    rw [fmtLines_succ] at hl
    have hs2 := hsafe t ht
    simp only [mdSafe, Bool.and_eq_true] at hs2
    obtain ⟨⟨⟨⟨⟨⟨_, hnt⟩, _⟩, _⟩, hnd⟩, _⟩, hnlab⟩ := hs2
    have hnt2 : '\n' ∉ t.title.toList := by simpa using hnt
    have hnd2 : '\n' ∉ t.description.toList := by simpa using hnd
    rcases List.mem_append.mp hl with hl | hl
    · rcases List.mem_cons.mp hl with hl | hl
      · subst hl
        intro hm
        simp only [List.mem_append] at hm
        rcases hm with ((((hm | hm) | hm) | hm) | hm) | hm
        · exact absurd (List.eq_of_mem_replicate hm) (by decide)
        · exact absurd hm (by decide)
        · exact absurd hm (statusEmoji_nl t.status)
        · exact absurd hm (by decide)
        · exact hnt2 hm
        · exact absurd hm (by decide)
      · rcases List.mem_append.mp hl with hl | hl
        · rcases List.mem_append.mp hl with hl | hl
          · by_cases hcond : opts.includeDescription
                && ! (t.description = "")
            · rw [if_pos hcond] at hl
              have hleq : l = List.replicate (2 * lvl) ' ' ++ str "  "
                  ++ t.description.toList := by simpa using hl
              rw [hleq]
              intro hm
              simp only [List.mem_append] at hm
              rcases hm with (hm | hm) | hm
              · exact absurd (List.eq_of_mem_replicate hm) (by decide)
              · exact absurd hm (by decide)
              · exact hnd2 hm
            · rw [if_neg hcond] at hl
              exact absurd hl (List.not_mem_nil l)
          · by_cases hcond : opts.includeLabels && ! (t.labels = [])
            · rw [if_pos hcond] at hl
              have hleq : l = List.replicate (2 * lvl) ' '
                  ++ str "  *Labels: "
                  ++ joinSep (str ", ") (t.labels.map String.toList)
                  ++ ['*'] := by simpa using hl
              rw [hleq]
              intro hm
              simp only [List.mem_append] at hm
              rcases hm with ((hm | hm) | hm) | hm
              · exact absurd (List.eq_of_mem_replicate hm) (by decide)
              · exact absurd hm (by decide)
              · rcases mem_joinSep (str ", ") _ hm with hm2 | ⟨p, hp, hcp⟩
                · exact absurd hm2 (by decide)
                · rcases List.mem_map.mp hp with ⟨s, hsmem, rfl⟩
                  have := List.all_eq_true.mp hnlab s hsmem
                  exact absurd hcp (by simpa using this)
              · exact absurd hm (by decide)
            · rw [if_neg hcond] at hl
              exact absurd hl (List.not_mem_nil l)
        · cases hd : t.deadline with
          | none =>
            rw [hd] at hl
            exact absurd hl (List.not_mem_nil l)
          | some d =>
            rw [hd] at hl
            have hleq : l = List.replicate (2 * lvl) ' '
                ++ str "  *Deadline: " ++ dLoc d ++ ['*'] := by
              simpa using hl
            rw [hleq]
            intro hm
            simp only [List.mem_append] at hm
            rcases hm with ((hm | hm) | hm) | hm
            · exact absurd (List.eq_of_mem_replicate hm) (by decide)
            · exact absurd hm (by decide)
            · exact hdLoc d hm
            · exact absurd hm (by decide)
    · rcases List.mem_flatten.mp hl with ⟨L, hL, hlL⟩
      rcases List.mem_map.mp hL with ⟨c, hc, rfl⟩
      exact ihm c (lvl + 1) (List.mem_of_mem_filter hc) l hlL

/-- Running the parser over the blocks of a list of roots. -/
theorem mdRun_forest (opts : ExportOptions) (dLoc : Int → JStr)
    (nowAt : Nat → Int) (tasks : List Task)
    (hsafe : ∀ t ∈ tasks, mdSafe t = true) :
    ∀ (rs : List Task), (∀ r ∈ rs, r ∈ tasks) →
      ∀ (S : List (Task × Nat)) (acc : List Task),
        (∀ x ∈ S, x.1.id = 0) →
        ∃ S2, ((rs.map (fun r => fmtLines opts dLoc tasks
              (tasks.length + 1) r 0)).flatten).foldl (mdStep nowAt)
              (S, acc)
            = (S2, acc ++ decList nowAt acc.length
                ((rs.map (fun r => preT tasks (tasks.length + 1)
                  r 0)).flatten))
          ∧ (∀ x ∈ S2, x.1.id = 0) := by
  intro rs
  induction rs with
  | nil =>
    intro _ S acc hS
    exact ⟨S, by simp [decList], hS⟩
  | cons r rs ihr =>
    intro hrs S acc hS
    simp only [List.map_cons, List.flatten_cons]
    rw [List.foldl_append]
    obtain ⟨S2, h1, h2, _⟩ := mdRun_block opts dLoc nowAt tasks hsafe
      tasks.length r 0 S acc (hrs r (by simp)) hS
      (fun h0 => absurd rfl h0)
    rw [h1]
    rw [Nat.mul_zero, dropStack_zero, List.append_nil] at h1 ⊢
    obtain ⟨S3, h3, h4⟩ := ihr
      (fun x hx => hrs x (List.mem_cons_of_mem _ hx)) S2
      (acc ++ decList nowAt acc.length
        (preT tasks (tasks.length + 1) r 0))
      (fun x hx => (h2 x hx).1)
    rw [h3]
    refine ⟨S3, ?_, h4⟩
    rw [decList_append]
    simp [decList_length, List.append_assoc]

/-- The split lines of the exported Markdown: the four header lines,
every block line, and the trailing empty piece. -/
theorem convertToMarkdown_lines (opts : ExportOptions) (dLoc : Int → JStr)
    (genDate : JStr) (tasks : List Task)
    (hsafe : ∀ t ∈ tasks, mdSafe t = true) (hdLoc : ∀ d, '\n' ∉ dLoc d)
    (hgen : '\n' ∉ genDate) :
    splitOnChar '\n' (convertToMarkdown opts dLoc genDate tasks)
      = (str "# Task Export" :: [] :: (str "Generated on: " ++ genDate)
          :: [] :: [])
        ++ ((tasks.filter (fun t => ! optTruthy t.parent_id)).map
            (fun r => fmtLines opts dLoc tasks (tasks.length + 1) r
              0)).flatten
        ++ [[]] := by
  have hcontent : convertToMarkdown opts dLoc genDate tasks
      = joinNL ((str "# Task Export" :: [] :: (str "Generated on: "
            ++ genDate) :: [] :: [])
          ++ ((tasks.filter (fun t => ! optTruthy t.parent_id)).map
            (fun r => fmtLines opts dLoc tasks (tasks.length + 1)
              r 0)).flatten) := by
    simp only [convertToMarkdown]
    rw [foldl_append_flatten]
    have hmapeq : (tasks.filter (fun t => ! optTruthy t.parent_id)).map
        (fun t => formatTask opts dLoc tasks (tasks.length + 1) t 0)
        = (tasks.filter (fun t => ! optTruthy t.parent_id)).map
          (fun t => joinNL (fmtLines opts dLoc tasks
            (tasks.length + 1) t 0)) :=
      map_congr_mem (fun c _ => formatTask_joinNL opts dLoc tasks _ c 0)
    rw [hmapeq]
    rw [joinNL_append, joinNL_flatten, List.map_map]
    simp [joinNL, List.append_assoc]
    try rfl
  rw [hcontent]
  have hnl : ∀ l ∈ (str "# Task Export" :: [] :: (str "Generated on: "
        ++ genDate) :: [] :: [])
      ++ ((tasks.filter (fun t => ! optTruthy t.parent_id)).map
          (fun r => fmtLines opts dLoc tasks (tasks.length + 1)
            r 0)).flatten, '\n' ∉ l := by
    intro l hl
    rcases List.mem_append.mp hl with hl | hl
    · rcases List.mem_cons.mp hl with hl | hl
      · rw [hl]; decide
      · rcases List.mem_cons.mp hl with hl | hl
        · rw [hl]; simp
        · rcases List.mem_cons.mp hl with hl | hl
          · rw [hl]
            intro hm
            rcases List.mem_append.mp hm with hm | hm
            · exact absurd hm (by decide)
            · exact hgen hm
          · rcases List.mem_cons.mp hl with hl | hl
            · rw [hl]; simp
            · exact absurd hl (List.not_mem_nil l)
    · rcases List.mem_flatten.mp hl with ⟨L, hL, hlL⟩
      rcases List.mem_map.mp hL with ⟨c, hc, rfl⟩
      exact fmtLines_nl_free opts dLoc tasks hsafe hdLoc _ c 0
        (List.mem_of_mem_filter hc) l hlL
  have hsp := splitOnChar_joinNL _ [] hnl
  rw [List.append_nil] at hsp
  rw [hsp]
  rfl

/-- Decoded tasks carry the traversal's titles and statuses. -/
theorem decList_map_fields (nowAt : Nat → Int) :
    ∀ (ps : List (Task × Nat)) (k : Nat),
      (decList nowAt k ps).map (fun u => (u.title, u.status))
        = ps.map (fun p => (p.1.title, p.1.status))
  | [], _ => rfl
  | p :: ps, k => by
    simp [decList, decTask, decList_map_fields nowAt ps (k + 1)]

/-- Every decoded task has the placeholder id and a degenerate parent
reference. -/
theorem decList_mem (nowAt : Nat → Int) :
    ∀ (ps : List (Task × Nat)) (k : Nat) (u : Task),
      u ∈ decList nowAt k ps →
      u.id = 0 ∧ (u.parent_id = none ∨ u.parent_id = some 0)
  | [], _, u, h => absurd h (List.not_mem_nil u)
  | p :: ps, k, u, h => by
    rcases List.mem_cons.mp h with h | h
    · subst h
      refine ⟨rfl, ?_⟩
      by_cases hz : p.2 = 0
      · exact Or.inl (by simp [decTask, hz])
      · exact Or.inr (by simp [decTask, hz])
    · exact decList_mem nowAt ps (k + 1) u h

/-- C5 (amended): for tasks whose titles are nonempty and free of
newlines and asterisks, whose statuses are in the enum, whose
descriptions are newline-free and do not look like bullets, and whose
labels are newline-free (with a newline-free date rendering and header
date), Markdown export followed by import yields exactly the decoded
form of the encoder's pre-order traversal: titles and statuses are
preserved bullet by bullet, but every decoded id is the placeholder 0
and every decoded parent reference is `none` (an indentation-0 bullet)
or `some 0` (any deeper bullet) — the placeholder id of whatever bullet
was stacked above it, never the original parent's id — so the
parent/child hierarchy is not reconstructed: all links collapse to the
falsy value 0. -/
theorem c5_amended (opts : ExportOptions) (dLoc : Int → JStr)
    (genDate : JStr) (nowAt : Nat → Int) (ts : List Task)
    (hsafe : ∀ t ∈ ts, mdSafe t = true)
    (hdLoc : ∀ d, '\n' ∉ dLoc d)
    (hgen : '\n' ∉ genDate) :
    parseMarkdown nowAt (convertToMarkdown opts dLoc genDate ts)
      = decList nowAt 0 (preForest ts)
    ∧ (parseMarkdown nowAt (convertToMarkdown opts dLoc genDate ts)).map
        (fun u => (u.title, u.status))
      = (preForest ts).map (fun p => (p.1.title, p.1.status))
    ∧ ∀ u ∈ parseMarkdown nowAt (convertToMarkdown opts dLoc genDate ts),
        u.id = 0 ∧ (u.parent_id = none ∨ u.parent_id = some 0) := by
  have hpf : preForest ts
      = ((ts.filter (fun t => ! optTruthy t.parent_id)).map
          (fun r => preT ts (ts.length + 1) r 0)).flatten := by
    unfold preForest
    rw [foldl_append_flatten]
    simp
  have hmain : parseMarkdown nowAt (convertToMarkdown opts dLoc genDate ts)
      = decList nowAt 0 (preForest ts) := by
    unfold parseMarkdown
    rw [convertToMarkdown_lines opts dLoc genDate ts hsafe hdLoc hgen]
    rw [List.foldl_append, List.foldl_append]
    have hG : str "Generated on: " ++ genDate
        = 'G' :: (str "enerated on: " ++ genDate) := by
      rw [show str "Generated on: " = 'G' :: str "enerated on: " from rfl]
      rfl
    have hhdr : (str "# Task Export" :: [] :: (str "Generated on: "
          ++ genDate) :: [] :: []).foldl (mdStep nowAt) ([], []) = ([], []) := by
      apply mdRun_noop
      intro l hl
      rcases List.mem_cons.mp hl with hl | hl
      · rw [hl]; rfl
      · rcases List.mem_cons.mp hl with hl | hl
        · rw [hl]; rfl
        · rcases List.mem_cons.mp hl with hl | hl
          · rw [hl, hG]
            have := matchBullet_ws_none []
              ('G' :: (str "enerated on: " ++ genDate)) (by simp)
              (noBullet_cons (by decide) (by decide))
            simpa using this
          · rcases List.mem_cons.mp hl with hl | hl
            · rw [hl]; rfl
            · exact absurd hl (List.not_mem_nil l)
    rw [hhdr]
    obtain ⟨S2, h1, _⟩ := mdRun_forest opts dLoc nowAt ts hsafe
      (ts.filter (fun t => ! optTruthy t.parent_id))
      (fun r hr => List.mem_of_mem_filter hr) [] []
      (fun x hx => absurd hx (List.not_mem_nil x))
    rw [h1]
    rw [List.foldl_cons, mdStep_none nowAt _ [] rfl, List.foldl_nil]
    rw [hpf]
    simp
  refine ⟨hmain, ?_, ?_⟩
  · rw [hmain]
    exact decList_map_fields nowAt (preForest ts) 0
  · rw [hmain]
    intro u hu
    exact decList_mem nowAt (preForest ts) 0 u hu

/-- C5 witness data: two roots, the first with a child, exercising the
description, labels and deadline sub-lines and the stack pops. -/
def c5w : List Task :=
  [{ id := 1, title := "Plan", description := "overall plan",
     status := "in_progress", deadline := some 5, parent_id := none,
     created_at := 0, updated_at := 0, labels := ["core"],
     priority := 2 },
   { id := 2, title := "Draft", description := "", status := "done",
     deadline := none, parent_id := some 1, created_at := 0,
     updated_at := 0, labels := [], priority := 0 },
   { id := 3, title := "Ship", description := "", status := "not_started",
     deadline := none, parent_id := none, created_at := 0,
     updated_at := 0, labels := [], priority := 1 }]

/-- The amended C5 theorem applied to a concrete three-task forest,
plus a direct evaluation of the decoded titles and parent references. -/
theorem c5_witness :
    (∀ t ∈ c5w, mdSafe t = true)
    ∧ (∀ d : Int, '\n' ∉ (fun _ : Int => str "1/1/2024") d)
    ∧ '\n' ∉ str "today"
    ∧ (parseMarkdown (fun _ => 4)
          (convertToMarkdown ⟨true, true⟩ (fun _ : Int => str "1/1/2024")
            (str "today") c5w)
        = decList (fun _ => 4) 0 (preForest c5w)
      ∧ (parseMarkdown (fun _ => 4)
          (convertToMarkdown ⟨true, true⟩ (fun _ : Int => str "1/1/2024")
            (str "today") c5w)).map (fun u => (u.title, u.status))
        = (preForest c5w).map (fun p => (p.1.title, p.1.status))
      ∧ ∀ u ∈ parseMarkdown (fun _ => 4)
          (convertToMarkdown ⟨true, true⟩ (fun _ : Int => str "1/1/2024")
            (str "today") c5w),
          u.id = 0 ∧ (u.parent_id = none ∨ u.parent_id = some 0))
    ∧ (parseMarkdown (fun _ => 4)
        (convertToMarkdown ⟨true, true⟩ (fun _ : Int => str "1/1/2024")
          (str "today") c5w)).map (fun u => (u.title, u.parent_id))
      = [("Plan", none), ("Draft", some 0), ("Ship", none)] := by
  have h1 : ∀ t ∈ c5w, mdSafe t = true := by decide
  have h2 : ∀ d : Int, '\n' ∉ (fun _ : Int => str "1/1/2024") d := by
    intro d
    show '\n' ∉ str "1/1/2024"
    decide
  have h3 : '\n' ∉ str "today" := by decide
  exact ⟨h1, h2, h3,
    c5_amended ⟨true, true⟩ (fun _ : Int => str "1/1/2024")
      (str "today") (fun _ => 4) c5w h1 h2 h3, by rfl⟩

end Planning
